import Mathlib

/-! # fatbom: merging SPDX documents produced by several SBOM tools

A shallow embedding of `mergers.go` and the properties of the merge it
implements.

Conventions of the embedding.

* Go strings are Lean `String`s.  `fmt.Sprintf` with `%s` verbs is string
  concatenation, `strings.Contains` is `stringsContains`, `path.Clean` is
  `pathClean` (a transcription of the Go standard library routine; it only
  inspects the ASCII bytes `/` and `.`, so working on characters instead of
  bytes makes no difference on valid UTF-8).
* Go slices are Lean `List`s (a nil slice and an empty slice are both `[]`).
* A Go `map[K]V` is an association list with pairwise distinct keys
  (`GoMap.lookup`, `GoMap.store`).  The order in which a `range` statement
  visits a map is not specified by Go; every `range` over a map in the source
  takes its visiting order from a `RangeOrder`, and the theorems hold for
  every `RangeOrder` that visits each entry exactly once (`RangeOrder.Valid`).
* An index expression that would panic in Go (`pbts[0]`, `rels[i]`) makes the
  embedded function return `none`.
-/

namespace Fatbom

/-! ## Strings -/

/-- Go `strings.Contains(s, substr)` on character lists: `substr` occurs in `s`. -/
def listContains (sub : List Char) : List Char → Bool
  | [] => sub.isEmpty
  | c :: rest => sub.isPrefixOf (c :: rest) || listContains sub rest

/-- Go `strings.Contains(s, substr)`. -/
def stringsContains (s substr : String) : Bool :=
  listContains substr.data s.data

/-- Number of positions of `s` at which `sub` occurs (overlapping occurrences counted). -/
def listOccurrences (sub : List Char) : List Char → Nat
  | [] => if sub.isEmpty then 1 else 0
  | c :: rest => (if sub.isPrefixOf (c :: rest) then 1 else 0) + listOccurrences sub rest

/-- Number of occurrences of `substr` in `s`. -/
def occurrences (s substr : String) : Nat :=
  listOccurrences substr.data s.data

/-! ### `path.Clean` -/

/-- The inner loop of the `..` case of `path.Clean`:
`for out.w > dotdot && out.index(out.w) != '/' { out.w-- }`. -/
def cleanBacktrack (buf : List Char) (dotdot : Nat) : Nat → Nat
  | 0 => 0
  | w + 1 =>
    if w + 1 > dotdot ∧ buf.get? (w + 1) ≠ some '/' then cleanBacktrack buf dotdot w
    else w + 1

/-- The main loop of `path.Clean`.  `path` is the unread part of the input
(`path[r:]`), `out` the bytes written so far (`out.w = out.length`), and
`dotdot` the index where `..` must stop.  Every iteration consumes at least
one byte, so a fuel of `len(path)` is enough. -/
def cleanLoop (rooted : Bool) : Nat → List Char → List Char → Nat → List Char
  | 0, _, out, _ => out
  | fuel + 1, path, out, dotdot =>
    match path with
    | [] => out
    | c :: rest =>
      if c = '/' then
        -- empty path element
        cleanLoop rooted fuel rest out dotdot
      else if c = '.' ∧ (rest = [] ∨ rest.head? = some '/') then
        -- . element
        cleanLoop rooted fuel rest out dotdot
      else if c = '.' ∧ rest.head? = some '.' ∧
          (rest.tail = [] ∨ rest.tail.head? = some '/') then
        -- .. element: remove to last /
        if out.length > dotdot then
          cleanLoop rooted fuel rest.tail
            (out.take (cleanBacktrack out dotdot (out.length - 1))) dotdot
        else if !rooted then
          let out1 := if out.length > 0 then out ++ ['/'] else out
          let out2 := out1 ++ ['.', '.']
          cleanLoop rooted fuel rest.tail out2 out2.length
        else
          cleanLoop rooted fuel rest.tail out dotdot
      else
        -- real path element: add slash if needed, then copy the element
        let out1 :=
          if (rooted ∧ out.length ≠ 1) ∨ (!rooted ∧ out.length ≠ 0) then out ++ ['/'] else out
        cleanLoop rooted fuel ((c :: rest).dropWhile (fun x => x ≠ '/'))
          (out1 ++ (c :: rest).takeWhile (fun x => x ≠ '/')) dotdot

/-- Go `path.Clean` on character lists. -/
def cleanChars (path : List Char) : List Char :=
  match path with
  | [] => ['.']
  | c :: rest =>
    let rooted : Bool := c = '/'
    let out :=
      if rooted then cleanLoop true (rest.length + 1) rest ['/'] 1
      else cleanLoop false (rest.length + 1) (c :: rest) [] 0
    if out.length = 0 then ['.'] else out

/-- Go `path.Clean`: the shortest path name equivalent to `path` by purely lexical processing. -/
def pathClean (path : String) : String :=
  String.mk (cleanChars path.data)

/-! ## Go maps -/

namespace GoMap

variable {K V : Type} [DecidableEq K]

/-- The value stored under `k`, if any: `v, ok := m[k]`. -/
def lookup (k : K) : List (K × V) → Option V
  | [] => none
  | (k', v) :: rest => if k' = k then some v else lookup k rest

/-- The assignment `m[k] = v`: the entry of `k` is replaced when there is one, and
a new entry is added otherwise. -/
def store (k : K) (v : V) : List (K × V) → List (K × V)
  | [] => [(k, v)]
  | (k', v') :: rest => if k' = k then (k, v) :: rest else (k', v') :: store k v rest

end GoMap

/-! ## Data model -/

namespace spdx22JSON

/-- The `Checksum` record of `sigs.k8s.io/bom/pkg/spdx/json/v2.2.2`. -/
structure Checksum where
  Algorithm : String := ""
  Value : String := ""
deriving DecidableEq, Repr

/-- The `File` record of `sigs.k8s.io/bom/pkg/spdx/json/v2.2.2`. -/
structure File where
  ID : String := ""
  Name : String := ""
  CopyrightText : String := ""
  NoticeText : String := ""
  LicenseConcluded : String := ""
  Description : String := ""
  FileTypes : List String := []
  LicenseInfoInFile : List String := []
  Checksums : List Checksum := []
deriving DecidableEq, Repr

/-- The `Relationship` record of `sigs.k8s.io/bom/pkg/spdx/json/v2.2.2`
(`Type_` is the Go field `Type`). -/
structure Relationship where
  Element : String := ""
  Type_ : String := ""
  Related : String := ""
deriving DecidableEq, Repr

/-- The `CreationInfo` record of `sigs.k8s.io/bom/pkg/spdx/json/v2.2.2`. -/
structure CreationInfo where
  Created : String := ""
  Creators : List String := []
  LicenseListVersion : String := ""
deriving DecidableEq, Repr

/-- The constant `spdx22JSON.NOASSERTION`. -/
def NOASSERTION : String := "NOASSERTION"

end spdx22JSON

/-- Modelled from the spec: the declaration of `SpdxPackageExternalRef` is not part of
`mergers.go`; an external reference is identified by (Type, Locator) and carries a
free-text Comment (`Type_` is the Go field `Type`). -/
structure SpdxPackageExternalRef where
  Category : String := ""
  Type_ : String := ""
  Locator : String := ""
  Comment : String := ""
deriving DecidableEq, Repr

/-- Modelled from the spec: the declaration of `SpdxPackage` is not part of `mergers.go`;
these are the fields the spec lists for a Package entry. -/
structure SpdxPackage where
  ID : String := ""
  Name : String := ""
  Version : String := ""
  DownloadLocation : String := ""
  LicenseConcluded : String := ""
  LicenseDeclared : String := ""
  LicenseInfoFromFiles : List String := []
  HasFiles : List String := []
  ExternalRefs : List SpdxPackageExternalRef := []
deriving DecidableEq, Repr

/-- Modelled from the spec: the declaration of `SpdxDocument` is not part of `mergers.go`;
these are the fields the spec lists for a document. -/
structure SpdxDocument where
  ID : String := ""
  Name : String := ""
  Version : String := ""
  DataLicense : String := ""
  CreationInfo : spdx22JSON.CreationInfo := {}
  DocumentDescribes : List String := []
  Files : List spdx22JSON.File := []
  Packages : List SpdxPackage := []
  Relationships : List spdx22JSON.Relationship := []
deriving DecidableEq, Repr

/-- The key of the external-reference set of `mergedPackages`. -/
structure ExternalRefKey where
  Type_ : String
  Locator : String
deriving DecidableEq, Repr

/-- A package together with the tool that reported it. -/
structure PackageWithBomTool where
  BomTool : String
  Package : SpdxPackage
deriving DecidableEq, Repr

/-- The input of the merge, `map[string]SpdxDocument`: one document per tool. -/
abbrev BomByTools := List (String × SpdxDocument)

/-- The keys of a Go map are pairwise distinct. -/
abbrev BomByTools.WellFormed (bomByTools : BomByTools) : Prop :=
  (bomByTools.map Prod.fst).Nodup

/-! ## Visiting order of `range` over a map -/

/-- One visiting order for every `range` statement over a map in `mergers.go`. -/
structure RangeOrder where
  /-- `for _, bom := range bomByTools` in `mergedCreationInfo`. -/
  creators : BomByTools → BomByTools
  /-- `for tool, doc := range bomByTools` in `mergedFiles`. -/
  tools : BomByTools → BomByTools
  /-- `for _, file := range fileByName` in `mergedFiles`. -/
  fileByName : List (String × spdx22JSON.File) → List (String × spdx22JSON.File)
  /-- `for tool, bom := range bomByTools` in `createPackageIndex`. -/
  packages : BomByTools → BomByTools
  /-- `for _, pbts := range idx` in `mergedPackages`. -/
  idx : List (String × List PackageWithBomTool) → List (String × List PackageWithBomTool)
  /-- `for _, ref := range extRefSet` in `mergedPackages`, for the group with the given key. -/
  extRefSet : String → List (ExternalRefKey × SpdxPackageExternalRef) →
    List (ExternalRefKey × SpdxPackageExternalRef)
  /-- `for license := range licenseSet` in `addRootPackage`. -/
  licenseSet : List (String × Unit) → List (String × Unit)

/-- A visiting order is valid when every `range` visits each entry of its map exactly once. -/
structure RangeOrder.Valid (ord : RangeOrder) : Prop where
  creators : ∀ m, (ord.creators m).Perm m
  tools : ∀ m, (ord.tools m).Perm m
  fileByName : ∀ m, (ord.fileByName m).Perm m
  packages : ∀ m, (ord.packages m).Perm m
  idx : ∀ m, (ord.idx m).Perm m
  extRefSet : ∀ key m, (ord.extRefSet key m).Perm m
  licenseSet : ∀ m, (ord.licenseSet m).Perm m

/-- The order that visits every map in the order its keys were first stored. -/
def RangeOrder.insertion : RangeOrder :=
  ⟨id, id, id, id, id, fun _ => id, id⟩

/-- The order that visits every map backwards. -/
def RangeOrder.reversed : RangeOrder :=
  ⟨List.reverse, List.reverse, List.reverse, List.reverse, List.reverse,
    fun _ => List.reverse, List.reverse⟩

/-! ## The functions of `mergers.go` -/

/-- Go `mergedCreationInfo`; `now` is `time.Now().Format(time.RFC3339)`. -/
def mergedCreationInfo (ord : RangeOrder) (now : String) (bomByTools : BomByTools) :
    spdx22JSON.CreationInfo :=
  let ret := (ord.creators bomByTools).foldl
    (fun (ret : spdx22JSON.CreationInfo) entry =>
      let bom := entry.2
      let ret := { ret with Creators := ret.Creators ++ bom.CreationInfo.Creators }
      if ret.LicenseListVersion < bom.CreationInfo.LicenseListVersion then
        { ret with LicenseListVersion := bom.CreationInfo.LicenseListVersion }
      else ret)
    {}
  { ret with Created := now }

/-- Go `normalizeFilePaths`: every file name of every document is replaced, in place, by its
cleaned form.  Each iteration writes only the entry of its own key, so the visiting order has
no effect on the resulting map. -/
def normalizeFilePaths (bomByTools : BomByTools) : BomByTools :=
  bomByTools.map fun entry =>
    (entry.1, { entry.2 with
      Files := entry.2.Files.map fun file => { file with Name := pathClean file.Name } })

/-- The body of the inner selection loop of `mergedFiles`:
`if _, ok := fileByName[file.Name]; !ok || tool == K8Bom.String() { fileByName[file.Name] = file }`. -/
def selectFile (k8bom tool : String) (fileByName : List (String × spdx22JSON.File))
    (file : spdx22JSON.File) : List (String × spdx22JSON.File) :=
  if (GoMap.lookup file.Name fileByName).isNone ∨ tool = k8bom then
    GoMap.store file.Name file fileByName
  else fileByName

/-- The selection loop of `mergedFiles` over the tools in visiting order. -/
def selectFiles (k8bom : String) (tools : BomByTools) : List (String × spdx22JSON.File) :=
  tools.foldl
    (fun fileByName entry => entry.2.Files.foldl (selectFile k8bom entry.1) fileByName) []

/-- The checksum scan of `mergedFiles`: the value of the first SHA1 checksum, or `""`. -/
def fileSHA1 : List spdx22JSON.Checksum → String
  | [] => ""
  | hash :: rest => if hash.Algorithm = "SHA1" then hash.Value else fileSHA1 rest

/-- The identifier assignment of `mergedFiles`:
`file.ID = fmt.Sprintf("SPDXRef-File-%s-%s", file.Name, fileSHA1)`. -/
def assignFileID (file : spdx22JSON.File) : spdx22JSON.File :=
  { file with ID := "SPDXRef-File-" ++ file.Name ++ "-" ++ fileSHA1 file.Checksums }

/-- Go `mergedFiles`; `k8bom` is `K8Bom.String()`, the name of the authoritative tool. -/
def mergedFiles (ord : RangeOrder) (k8bom : String) (bomByTools : BomByTools) :
    List spdx22JSON.File :=
  let fileByName := selectFiles k8bom (ord.tools (normalizeFilePaths bomByTools))
  (ord.fileByName fileByName).map fun entry => assignFileID entry.2

/-- The key of a package in the index: `fmt.Sprintf("%s-%s", p.Name, p.Version)`. -/
def packageKey (p : SpdxPackage) : String :=
  p.Name ++ "-" ++ p.Version

/-- The body of the inner loop of `createPackageIndex`:
`pbtByNameVersion[key] = append(pbtByNameVersion[key], pbt)`. -/
def indexPackage (tool : String) (idx : List (String × List PackageWithBomTool))
    (p : SpdxPackage) : List (String × List PackageWithBomTool) :=
  let key := packageKey p
  let pbt : PackageWithBomTool := { Package := p, BomTool := tool }
  GoMap.store key ((GoMap.lookup key idx).getD [] ++ [pbt]) idx

/-- Go `createPackageIndex`. -/
def createPackageIndex (ord : RangeOrder) (bomByTools : BomByTools) :
    List (String × List PackageWithBomTool) :=
  (ord.packages bomByTools).foldl
    (fun idx entry => entry.2.Packages.foldl (indexPackage entry.1) idx) []

/-- The attribution text `fmt.Sprintf("Found by %s Tool. ", tool)`. -/
def foundBy (tool : String) : String :=
  "Found by " ++ tool ++ " Tool. "

/-- The body of the external-reference loop of `mergedPackages`. -/
def mergeRef (tool : String) (extRefSet : List (ExternalRefKey × SpdxPackageExternalRef))
    (ref : SpdxPackageExternalRef) : List (ExternalRefKey × SpdxPackageExternalRef) :=
  let key : ExternalRefKey := { Type_ := ref.Type_, Locator := ref.Locator }
  let current : SpdxPackageExternalRef := (GoMap.lookup key extRefSet).getD {}
  let ref :=
    if !stringsContains current.Comment tool then
      { ref with Comment := current.Comment ++ foundBy tool }
    else ref
  GoMap.store key ref extRefSet

/-- The external-reference set built by `mergedPackages` for one group. -/
def mergeRefs (pbts : List PackageWithBomTool) :
    List (ExternalRefKey × SpdxPackageExternalRef) :=
  pbts.foldl (fun extRefSet pbt => pbt.Package.ExternalRefs.foldl (mergeRef pbt.BomTool) extRefSet)
    []

/-- One iteration of the loop of `mergedPackages` over the index: `none` is the panic of
`pbts[0]` on an empty group, `some none` an iteration that appends nothing, and
`some (some p)` an iteration that appends `p`. -/
def mergeGroup (ord : RangeOrder) (key : String) (pbts : List PackageWithBomTool) :
    Option (Option SpdxPackage) :=
  match pbts with
  | [] => none
  | first :: _ =>
    if pbts.length = 1 ∧ first.Package.HasFiles.length ≠ 0 then some none
    else
      let p := first.Package
      let extRefSet := mergeRefs pbts
      let p := { p with ExternalRefs := (ord.extRefSet key extRefSet).map Prod.snd }
      if p.Name ≠ "" then some (some p) else some none

/-- The loop of `mergedPackages` over the groups in visiting order. -/
def mergeGroups (ord : RangeOrder) :
    List (String × List PackageWithBomTool) → List SpdxPackage → Option (List SpdxPackage)
  | [], ret => some ret
  | (key, pbts) :: rest, ret =>
    match mergeGroup ord key pbts with
    | none => none
    | some none => mergeGroups ord rest ret
    | some (some p) => mergeGroups ord rest (ret ++ [p])

/-- Go `mergedPackages`. -/
def mergedPackages (ord : RangeOrder) (bomByTools : BomByTools) : Option (List SpdxPackage) :=
  mergeGroups ord (ord.idx (createPackageIndex ord bomByTools)) []

/-- The write `rels[i].Type = ...; rels[i].Element = ...; rels[i].Related = ...` of
`createRelationships`; `none` when `i` is out of range. -/
def setRelationship (rels : List spdx22JSON.Relationship) (i : Nat) (type related : String) :
    Option (List spdx22JSON.Relationship) :=
  match rels.get? i with
  | none => none
  | some r =>
    some (rels.set i { r with Type_ := type, Element := "SPDXRef-Package-scan", Related := related })

/-- A loop `for i, x := range ids` of `createRelationships`, from index `i` on. -/
def fillRelationships (type : String) :
    List String → Nat → List spdx22JSON.Relationship → Option (List spdx22JSON.Relationship)
  | [], _, rels => some rels
  | id :: rest, i, rels =>
    match setRelationship rels i type id with
    | none => none
    | some rels => fillRelationships type rest (i + 1) rels

/-- Go `createRelationships`. -/
def createRelationships (doc : SpdxDocument) : Option SpdxDocument :=
  let fileRelationships : List spdx22JSON.Relationship := List.replicate doc.Files.length {}
  let pkgRelationships : List spdx22JSON.Relationship := List.replicate doc.Packages.length {}
  match fillRelationships "CONTAINS" (doc.Files.map (·.ID)) 0 fileRelationships with
  | none => none
  | some fileRelationships =>
    match fillRelationships "DEPENDS_ON" (doc.Packages.map (·.ID)) 0 pkgRelationships with
    | none => none
    | some pkgRelationships =>
      some { doc with
        Relationships := (doc.Relationships ++ fileRelationships) ++ pkgRelationships }

/-- The license set built by `addRootPackage`: `licenseSet[license] = struct{}{}` for every
license of every file. -/
def licenseSetOf (files : List spdx22JSON.File) : List (String × Unit) :=
  files.foldl
    (fun licenseSet file =>
      file.LicenseInfoInFile.foldl (fun licenseSet license => GoMap.store license () licenseSet)
        licenseSet)
    []

/-- The synthetic root package of `addRootPackage`. -/
def rootPackage (ord : RangeOrder) (files : List spdx22JSON.File) : SpdxPackage :=
  { ID := "SPDXRef-Package-RootPackage"
    Name := "RootPackage"
    HasFiles := files.map (·.ID)
    LicenseInfoFromFiles := (ord.licenseSet (licenseSetOf files)).map Prod.fst
    LicenseConcluded := spdx22JSON.NOASSERTION
    LicenseDeclared := spdx22JSON.NOASSERTION
    DownloadLocation := "NONE" }

/-- Go `addRootPackage`. -/
def addRootPackage (ord : RangeOrder) (bom : SpdxDocument) : SpdxDocument :=
  { bom with Packages := [rootPackage ord bom.Files] ++ bom.Packages }

/-- Go `Merge`; `k8bom` is `K8Bom.String()`, `fullPathToDirToScan` the package-level variable
of that name, and `now` the formatted current time. -/
def Merge (ord : RangeOrder) (k8bom fullPathToDirToScan now : String) (bomByTools : BomByTools) :
    Option SpdxDocument :=
  let ret : SpdxDocument := {}
  let ret := { ret with CreationInfo := mergedCreationInfo ord now bomByTools }
  match mergedPackages ord bomByTools with
  | none => none
  | some packages =>
    let ret := { ret with Packages := packages }
    let ret := { ret with Files := mergedFiles ord k8bom bomByTools }
    match createRelationships ret with
    | none => none
    | some ret =>
      let ret := addRootPackage ord ret
      let ret := { ret with Name := "SPDX-SBOM-" ++ fullPathToDirToScan }
      let ret := { ret with DataLicense := "CC0-1.0" }
      let ret := { ret with DocumentDescribes := ["SPDXRef-Package-scan"] }
      let ret := { ret with Version := "SPDX-2.2" }
      some { ret with ID := "SPDXRef-DOCUMENT" }

/-! ## Notions used in the statements -/

/-- The relationship written for one element. -/
def scanRelationship (type related : String) : spdx22JSON.Relationship :=
  { Type_ := type, Element := "SPDXRef-Package-scan", Related := related }

/-- Every (tool, package) report of the documents, document by document. -/
def reports (tools : BomByTools) : List PackageWithBomTool :=
  tools.flatMap fun entry => entry.2.Packages.map fun p => { BomTool := entry.1, Package := p }

/-- The reports whose package has index key `key`. -/
def contributors (key : String) (pbts : List PackageWithBomTool) : List PackageWithBomTool :=
  pbts.filter fun pbt => packageKey pbt.Package = key

/-- The group stored under `key` in an index, empty when there is none. -/
def groupOf (key : String) (idx : List (String × List PackageWithBomTool)) :
    List PackageWithBomTool :=
  (GoMap.lookup key idx).getD []

/-- The index built from a list of reports, one at a time. -/
def indexReports (pbts : List PackageWithBomTool)
    (idx : List (String × List PackageWithBomTool)) : List (String × List PackageWithBomTool) :=
  pbts.foldl (fun idx pbt => indexPackage pbt.BomTool idx pbt.Package) idx

/-- The package appended by one iteration of `mergedPackages`, if any. -/
def groupPackage (ord : RangeOrder) (entry : String × List PackageWithBomTool) :
    Option SpdxPackage :=
  match mergeGroup ord entry.1 entry.2 with
  | some (some p) => some p
  | _ => none

/-- Every (tool, file) report of the documents, document by document. -/
def fileReports (tools : BomByTools) : List (String × spdx22JSON.File) :=
  tools.flatMap fun entry => entry.2.Files.map fun file => (entry.1, file)

/-- The selection loop of `mergedFiles` run over a list of (tool, file) reports. -/
def selectReports (k8bom : String) (rs : List (String × spdx22JSON.File))
    (fileByName : List (String × spdx22JSON.File)) : List (String × spdx22JSON.File) :=
  rs.foldl (fun fileByName r => selectFile k8bom r.1 fileByName r.2) fileByName

/-- A file record with its name cleaned, as `normalizeFilePaths` leaves it. -/
def cleanName (file : spdx22JSON.File) : spdx22JSON.File :=
  { file with Name := pathClean file.Name }

/-- The (Type, Locator) key of an external reference. -/
def refKey (ref : SpdxPackageExternalRef) : ExternalRefKey :=
  { Type_ := ref.Type_, Locator := ref.Locator }

/-- The reference stored by one iteration of the external-reference loop, given the entry
currently stored under its key. -/
def attributed (tool : String) (current : Option SpdxPackageExternalRef)
    (ref : SpdxPackageExternalRef) : SpdxPackageExternalRef :=
  if !stringsContains (current.getD {}).Comment tool then
    { ref with Comment := (current.getD {}).Comment ++ foundBy tool }
  else ref

/-- Every (tool, reference) report of a group, contributor by contributor. -/
def refReports (pbts : List PackageWithBomTool) : List (String × SpdxPackageExternalRef) :=
  pbts.flatMap fun pbt => pbt.Package.ExternalRefs.map fun ref => (pbt.BomTool, ref)

/-- The external-reference loop of `mergedPackages` run over a list of (tool, reference)
reports. -/
def mergeReports (rs : List (String × SpdxPackageExternalRef))
    (extRefSet : List (ExternalRefKey × SpdxPackageExternalRef)) :
    List (ExternalRefKey × SpdxPackageExternalRef) :=
  rs.foldl (fun extRefSet r => mergeRef r.1 extRefSet r.2) extRefSet

/-- The package a group yields when it passes both filters of `mergedPackages`: the payload of
its first contributor with the merged external references. -/
def mergedPackage (ord : RangeOrder) (key : String) (first : PackageWithBomTool)
    (rest : List PackageWithBomTool) : SpdxPackage :=
  { first.Package with
    ExternalRefs := (ord.extRefSet key (mergeRefs (first :: rest))).map Prod.snd }

/-! ## Example inputs -/

/-- Two tools that report the package libfoo 1.0, with overlapping external references. -/
def libfooByTwoTools : BomByTools :=
  [("syft", { Packages := [{ Name := "libfoo", Version := "1.0", ExternalRefs :=
                              [{ Type_ := "purl", Locator := "pkg:golang/libfoo@1.0" }] }] }),
   ("k8bom", { Packages := [{ Name := "libfoo", Version := "1.0", ExternalRefs :=
                              [{ Type_ := "purl", Locator := "pkg:golang/libfoo@1.0" },
                               { Type_ := "cpe23Type", Locator := "cpe:2.3:a:libfoo" }] }] })]

/-- One document with the package foo 1 and the reference (purl, pkg:npm/foo@1) listed once. -/
def fooOnce : SpdxDocument :=
  { Packages := [{ Name := "foo", Version := "1", ExternalRefs :=
                    [{ Type_ := "purl", Locator := "pkg:npm/foo@1" }] }] }

/-- One document with the package foo 1 and the reference (purl, pkg:npm/foo@1) listed twice. -/
def fooTwice : SpdxDocument :=
  { Packages := [{ Name := "foo", Version := "1", ExternalRefs :=
                    [{ Type_ := "purl", Locator := "pkg:npm/foo@1" },
                     { Type_ := "purl", Locator := "pkg:npm/foo@1" }] }] }

/-- One document whose only package, foo 1, has a non-empty HasFiles list. -/
def fooWithFiles : SpdxDocument :=
  { Packages := [{ Name := "foo", Version := "1", HasFiles := ["SPDXRef-File-a"] }] }

/-- One document with two files of the same cleaned name and two packages of the same key. -/
def twoOfEach : SpdxDocument :=
  { Files := [{ Name := "a.go" }, { Name := "./a.go" }],
    Packages := [{ Name := "foo", Version := "1", HasFiles := ["SPDXRef-File-a"] },
                 { Name := "foo", Version := "1" }] }

/-- The (Name, Version) pair of a package. -/
def nameVersion (p : SpdxPackage) : String × String :=
  (p.Name, p.Version)

/-- One tool reporting a package that is named like the root package and has no version. -/
def reportsRootPackage : BomByTools :=
  [("syft", { Packages := [{ Name := "RootPackage" }] })]

/-- The body of the loop of `mergedCreationInfo`. -/
def addCreationInfo (ret : spdx22JSON.CreationInfo) (entry : String × SpdxDocument) :
    spdx22JSON.CreationInfo :=
  let bom := entry.2
  let ret := { ret with Creators := ret.Creators ++ bom.CreationInfo.Creators }
  if ret.LicenseListVersion < bom.CreationInfo.LicenseListVersion then
    { ret with LicenseListVersion := bom.CreationInfo.LicenseListVersion }
  else ret

/-- Two tools with creator lists and the license list versions "3.9" and "3.10". -/
def versionsByTwoTools : BomByTools :=
  [("syft", { CreationInfo := { Creators := ["Tool: syft"], LicenseListVersion := "3.9" } }),
   ("k8bom", { CreationInfo := { Creators := ["Tool: bom", "Organization: k8s"],
                                 LicenseListVersion := "3.10" } })]

/-- Two tools reporting packages with different (Name, Version) pairs and the same key "a-b-c". -/
def collidingKeys : BomByTools :=
  [("syft", { Packages := [{ Name := "a-b", Version := "c" }] }),
   ("k8bom", { Packages := [{ Name := "a", Version := "b-c" }] })]

/-- The input of the scenario of the spec; "toolB" is the authoritative tool. -/
def scenario : BomByTools :=
  [("toolA", { Files := [{ Name := "./src/a.go", Checksums := [⟨"SHA1", "x1"⟩] }],
               Packages := [{ Name := "libfoo", Version := "1.0", ExternalRefs :=
                               [{ Type_ := "purl", Locator := "pkg:golang/libfoo@1.0" }] }] }),
   ("toolB", { Files := [{ Name := "src/a.go", Checksums := [⟨"SHA1", "x1"⟩],
                           LicenseInfoInFile := ["MIT"] }],
               Packages := [{ Name := "libfoo", Version := "1.0", ExternalRefs :=
                               [{ Type_ := "purl", Locator := "pkg:golang/libfoo@1.0" }] }] })]

/-- The package of the scenario with the reference merged from the two tools, the comment
being `comment`. -/
def scenarioLibfoo (comment : String) : SpdxPackage :=
  { Name := "libfoo", Version := "1.0", ExternalRefs :=
      [{ Type_ := "purl", Locator := "pkg:golang/libfoo@1.0", Comment := comment }] }

/-- The reports of the cleaned name `n` leave no choice to the visiting order: either the
authoritative tool reports a file of that name, or the first record of that name in the
document of every tool leads to the same File entry (the record with its name cleaned and its
ID assigned). -/
def Agreed (k8bom : String) (bomByTools : BomByTools) (n : String) : Prop :=
  (∃ doc, (k8bom, doc) ∈ bomByTools ∧ ∃ f ∈ doc.Files, pathClean f.Name = n) ∨
  (∃ x : spdx22JSON.File, ∀ entry ∈ bomByTools, ∀ f,
    entry.2.Files.find? (fun f => pathClean f.Name = n) = some f →
      assignFileID (cleanName f) = x)

/-- The visiting order that takes the tool `first` before the other tools in the selection
loop of `mergedFiles` and visits every other map in insertion order. -/
def RangeOrder.startingWith (first : String) : RangeOrder :=
  ⟨id, fun m => m.filter (fun e => e.1 = first) ++ m.filter (fun e => !decide (e.1 = first)),
    id, id, id, fun _ => id, id⟩

/-- Two tools, neither of them authoritative, that report "a.go" with different checksums. -/
def disagreeingTools : BomByTools :=
  [("syft", { Files := [{ Name := "a.go", Checksums := [⟨"SHA1", "x"⟩] }] }),
   ("trivy", { Files := [{ Name := "a.go", Checksums := [⟨"SHA1", "y"⟩] }] })]

/-- Two tools, neither of them authoritative, that report the same file with the same data
under different input IDs and different spellings of its name. -/
def sameDataTools : BomByTools :=
  [("syft", { Files := [{ ID := "i1", Name := "./a.go", Checksums := [⟨"SHA1", "x"⟩] }] }),
   ("trivy", { Files := [{ ID := "i2", Name := "a.go", Checksums := [⟨"SHA1", "x"⟩] }] })]

/-- The authoritative tool "k8bom" listing one cleaned name twice, next to another tool. -/
def listedTwice : BomByTools :=
  [("k8bom", { Files := [{ Name := "a.go", Checksums := [⟨"SHA1", "x"⟩] },
                         { Name := "./a.go", Checksums := [⟨"SHA1", "y"⟩] }] }),
   ("trivy", { Files := [{ Name := "a.go", Checksums := [⟨"SHA1", "z"⟩] }] })]

/-! ## Facts about Go maps -/

namespace GoMap

variable {K V : Type} [DecidableEq K]

theorem lookup_store_self (k : K) (v : V) (m : List (K × V)) :
    lookup k (store k v m) = some v := by
  induction m with
  | nil => simp [store, lookup]
  | cons e rest ih =>
    obtain ⟨k', v'⟩ := e
    by_cases h : k' = k <;> simp [store, lookup, h, ih]

theorem lookup_store_of_ne {k k' : K} (h : k' ≠ k) (v : V) (m : List (K × V)) :
    lookup k' (store k v m) = lookup k' m := by
  induction m with
  | nil => simp [store, lookup, Ne.symm h]
  | cons e rest ih =>
    obtain ⟨k1, v1⟩ := e
    by_cases h1 : k1 = k
    · subst h1
      simp [store, lookup, Ne.symm h]
    · by_cases h2 : k1 = k'
      · subst h2
        simp [store, lookup, h1]
      · simp [store, lookup, h1, h2, ih]

theorem lookup_eq_none_iff (k : K) (m : List (K × V)) :
    lookup k m = none ↔ k ∉ m.map Prod.fst := by
  induction m with
  | nil => simp [lookup]
  | cons e rest ih =>
    obtain ⟨k', v'⟩ := e
    by_cases h : k' = k
    · simp [lookup, h]
    · simp [lookup, h, ih, Ne.symm h]

theorem mem_of_lookup_eq_some {k : K} {v : V} {m : List (K × V)} (h : lookup k m = some v) :
    (k, v) ∈ m := by
  induction m with
  | nil => simp [lookup] at h
  | cons e rest ih =>
    obtain ⟨k', v'⟩ := e
    by_cases hk : k' = k
    · simp [lookup, hk] at h
      simp [hk, h]
    · simp [lookup, hk] at h
      exact List.mem_cons_of_mem _ (ih h)

theorem lookup_eq_some_of_mem {k : K} {v : V} {m : List (K × V)}
    (nd : (m.map Prod.fst).Nodup) (h : (k, v) ∈ m) : lookup k m = some v := by
  induction m with
  | nil => simp at h
  | cons e rest ih =>
    obtain ⟨k', v'⟩ := e
    simp only [List.map_cons, List.nodup_cons] at nd
    rcases List.mem_cons.1 h with heq | hmem
    · cases heq
      simp [lookup]
    · have hne : k' ≠ k := by
        intro hk
        subst hk
        exact nd.1 (List.mem_map_of_mem Prod.fst hmem)
      simp [lookup, hne, ih nd.2 hmem]

theorem keys_store (k : K) (v : V) (m : List (K × V)) :
    (store k v m).map Prod.fst =
      if k ∈ m.map Prod.fst then m.map Prod.fst else m.map Prod.fst ++ [k] := by
  induction m with
  | nil => simp [store]
  | cons e rest ih =>
    obtain ⟨k', v'⟩ := e
    by_cases h : k' = k
    · simp [store, h]
    · have h' : ¬ k = k' := fun c => h c.symm
      by_cases hm : k ∈ rest.map Prod.fst
      · rw [if_pos hm] at ih
        simp only [store, h, if_false, List.map_cons, ih]
        rw [if_pos (List.mem_cons_of_mem _ hm)]
      · rw [if_neg hm] at ih
        simp only [store, h, if_false, List.map_cons, ih]
        rw [if_neg (by simp only [List.mem_cons, not_or]; exact ⟨h', hm⟩)]
        rfl

theorem mem_keys_store (k : K) (v : V) (m : List (K × V)) (a : K) :
    a ∈ (store k v m).map Prod.fst ↔ a = k ∨ a ∈ m.map Prod.fst := by
  rw [keys_store]
  split
  · constructor
    · exact Or.inr
    · rintro (h | h)
      · subst h
        assumption
      · exact h
  · simp [or_comm]

theorem nodup_keys_store (k : K) (v : V) {m : List (K × V)} (nd : (m.map Prod.fst).Nodup) :
    ((store k v m).map Prod.fst).Nodup := by
  rw [keys_store]
  split
  · exact nd
  · rename_i h
    exact List.Nodup.append nd (List.nodup_singleton k) (by simpa using h)

theorem length_store (k : K) (v : V) (m : List (K × V)) :
    (store k v m).length = if k ∈ m.map Prod.fst then m.length else m.length + 1 := by
  have h := congrArg List.length (keys_store k v m)
  simp only [List.length_map] at h
  rw [h]
  split <;> simp

end GoMap

/-! ## Valid visiting orders -/

theorem RangeOrder.insertion_valid : RangeOrder.insertion.Valid :=
  ⟨fun _ => List.Perm.refl _, fun _ => List.Perm.refl _, fun _ => List.Perm.refl _,
    fun _ => List.Perm.refl _, fun _ => List.Perm.refl _, fun _ _ => List.Perm.refl _,
    fun _ => List.Perm.refl _⟩

theorem RangeOrder.reversed_valid : RangeOrder.reversed.Valid :=
  ⟨fun _ => List.reverse_perm _, fun _ => List.reverse_perm _, fun _ => List.reverse_perm _,
    fun _ => List.reverse_perm _, fun _ => List.reverse_perm _, fun _ _ => List.reverse_perm _,
    fun _ => List.reverse_perm _⟩

/-! ## Relationships -/

theorem fillRelationships_eq (type : String) (ids : List String) :
    ∀ done : List spdx22JSON.Relationship,
      fillRelationships type ids done.length
          (done ++ List.replicate ids.length ({} : spdx22JSON.Relationship)) =
        some (done ++ ids.map (scanRelationship type)) := by
  induction ids with
  | nil => intro done; simp [fillRelationships]
  | cons id rest ih =>
    intro done
    have hget : (done ++ List.replicate (rest.length + 1) ({} : spdx22JSON.Relationship)).get?
        done.length = some {} := by
      rw [List.get?_eq_getElem?, List.getElem?_append_right (le_refl _)]
      simp [List.replicate_succ]
    have hset : (done ++ List.replicate (rest.length + 1) ({} : spdx22JSON.Relationship)).set
        done.length (scanRelationship type id) =
          (done ++ [scanRelationship type id]) ++
            List.replicate rest.length ({} : spdx22JSON.Relationship) := by
      rw [List.set_append_right _ _ (le_refl _)]
      simp [List.replicate_succ]
    have step := ih (done ++ [scanRelationship type id])
    simp only [List.length_append, List.length_singleton] at step
    unfold fillRelationships setRelationship
    simp only [List.length_cons, hget]
    show fillRelationships type rest (done.length + 1)
      ((done ++ List.replicate (rest.length + 1) ({} : spdx22JSON.Relationship)).set
        done.length (scanRelationship type id)) = _
    rw [hset, step]
    simp

theorem createRelationships_eq (doc : SpdxDocument) :
    createRelationships doc = some { doc with
      Relationships := doc.Relationships ++
        doc.Files.map (fun file => scanRelationship "CONTAINS" file.ID) ++
        doc.Packages.map (fun pkg => scanRelationship "DEPENDS_ON" pkg.ID) } := by
  have hf := fillRelationships_eq "CONTAINS" (doc.Files.map (·.ID)) []
  have hp := fillRelationships_eq "DEPENDS_ON" (doc.Packages.map (·.ID)) []
  simp only [List.length_nil, List.nil_append, List.length_map] at hf hp
  simp only [createRelationships, hf, hp, List.map_map]
  rfl

/-! ## The package index -/

theorem foldl_indexPackage_eq (tools : BomByTools) :
    ∀ idx, tools.foldl (fun idx entry => entry.2.Packages.foldl (indexPackage entry.1) idx) idx =
      indexReports (reports tools) idx := by
  induction tools with
  | nil => intro idx; rfl
  | cons entry rest ih =>
    intro idx
    simp only [List.foldl_cons, ih, reports, List.flatMap_cons, indexReports, List.foldl_append,
      List.foldl_map]

theorem createPackageIndex_eq (ord : RangeOrder) (bomByTools : BomByTools) :
    createPackageIndex ord bomByTools = indexReports (reports (ord.packages bomByTools)) [] :=
  foldl_indexPackage_eq _ _

theorem groupOf_indexPackage (key tool : String) (p : SpdxPackage)
    (idx : List (String × List PackageWithBomTool)) :
    groupOf key (indexPackage tool idx p) =
      groupOf key idx ++ contributors key [{ BomTool := tool, Package := p }] := by
  by_cases h : packageKey p = key
  · subst h
    simp [groupOf, indexPackage, GoMap.lookup_store_self, contributors]
  · have h' : key ≠ packageKey p := fun c => h c.symm
    simp [groupOf, indexPackage, GoMap.lookup_store_of_ne h', contributors, h]

theorem groupOf_indexReports (key : String) (pbts : List PackageWithBomTool) :
    ∀ idx, groupOf key (indexReports pbts idx) = groupOf key idx ++ contributors key pbts := by
  induction pbts with
  | nil => intro idx; simp [indexReports, contributors]
  | cons pbt rest ih =>
    intro idx
    have h := ih (indexPackage pbt.BomTool idx pbt.Package)
    simp only [indexReports, List.foldl_cons] at h ⊢
    rw [h, groupOf_indexPackage]
    simp [contributors, List.filter_cons]
    split <;> simp

theorem nodup_keys_indexReports (pbts : List PackageWithBomTool) :
    ∀ idx : List (String × List PackageWithBomTool), (idx.map Prod.fst).Nodup →
      ((indexReports pbts idx).map Prod.fst).Nodup := by
  induction pbts with
  | nil => intro idx h; exact h
  | cons pbt rest ih =>
    intro idx h
    exact ih _ (GoMap.nodup_keys_store _ _ h)

theorem mem_keys_indexReports (key : String) (pbts : List PackageWithBomTool) :
    ∀ idx : List (String × List PackageWithBomTool),
      key ∈ (indexReports pbts idx).map Prod.fst ↔
        key ∈ idx.map Prod.fst ∨ ∃ pbt ∈ pbts, packageKey pbt.Package = key := by
  induction pbts with
  | nil => intro idx; simp [indexReports]
  | cons pbt rest ih =>
    intro idx
    have h := ih (indexPackage pbt.BomTool idx pbt.Package)
    simp only [indexReports, List.foldl_cons] at h ⊢
    rw [h]
    simp only [indexPackage, GoMap.mem_keys_store, List.mem_cons, exists_eq_or_imp]
    constructor
    · rintro ((h1 | h1) | h1)
      · exact Or.inr (Or.inl h1.symm)
      · exact Or.inl h1
      · exact Or.inr (Or.inr h1)
    · rintro (h1 | h1 | h1)
      · exact Or.inl (Or.inr h1)
      · exact Or.inl (Or.inl h1.symm)
      · exact Or.inr h1

/-- The group stored under a key of the index is the list of all reports with that key, in
the order they were indexed, and it is not empty. -/
theorem lookup_indexReports {key : String} {pbts group : List PackageWithBomTool}
    (h : GoMap.lookup key (indexReports pbts []) = some group) :
    group = contributors key pbts ∧ group ≠ [] := by
  have hg := groupOf_indexReports key pbts []
  simp only [groupOf, h, Option.getD_some, GoMap.lookup, Option.getD_none, List.nil_append] at hg
  refine ⟨hg, ?_⟩
  have hk : key ∈ (indexReports pbts []).map Prod.fst := by
    by_contra hc
    rw [← GoMap.lookup_eq_none_iff] at hc
    rw [hc] at h
    cases h
  rw [mem_keys_indexReports] at hk
  rcases hk with hk | ⟨pbt, hmem, hkey⟩
  · simp at hk
  · intro hnil
    have : pbt ∈ contributors key pbts := by
      simp [contributors, hmem, hkey]
    rw [← hg, hnil] at this
    simp at this

theorem lookup_indexReports_of_mem {pbt : PackageWithBomTool} {pbts : List PackageWithBomTool}
    (h : pbt ∈ pbts) :
    GoMap.lookup (packageKey pbt.Package) (indexReports pbts []) =
      some (contributors (packageKey pbt.Package) pbts) := by
  have hk : packageKey pbt.Package ∈ (indexReports pbts []).map Prod.fst :=
    (mem_keys_indexReports _ _ _).2 (Or.inr ⟨pbt, h, rfl⟩)
  cases hl : GoMap.lookup (packageKey pbt.Package) (indexReports pbts []) with
  | none => exact absurd hk ((GoMap.lookup_eq_none_iff _ _).1 hl)
  | some group => rw [(lookup_indexReports hl).1]

theorem nodup_keys_createPackageIndex (ord : RangeOrder) (bomByTools : BomByTools) :
    ((createPackageIndex ord bomByTools).map Prod.fst).Nodup := by
  rw [createPackageIndex_eq]
  exact nodup_keys_indexReports _ _ List.nodup_nil

/-- Every entry of the index holds, under its key, the non-empty list of all reports with that
key. -/
theorem mem_createPackageIndex {ord : RangeOrder} {bomByTools : BomByTools}
    {entry : String × List PackageWithBomTool} (h : entry ∈ createPackageIndex ord bomByTools) :
    entry.2 = contributors entry.1 (reports (ord.packages bomByTools)) ∧ entry.2 ≠ [] := by
  have hl := GoMap.lookup_eq_some_of_mem (nodup_keys_createPackageIndex ord bomByTools) h
  rw [createPackageIndex_eq] at hl
  exact lookup_indexReports hl

/-! ## The package merge is total -/

theorem mergeGroup_ne_none (ord : RangeOrder) (key : String) {pbts : List PackageWithBomTool}
    (h : pbts ≠ []) : mergeGroup ord key pbts ≠ none := by
  cases pbts with
  | nil => exact absurd rfl h
  | cons first rest =>
    simp only [mergeGroup]
    split
    · simp
    · split <;> simp

theorem mergeGroups_eq (ord : RangeOrder) (groups : List (String × List PackageWithBomTool)) :
    (∀ entry ∈ groups, entry.2 ≠ []) → ∀ ret,
      mergeGroups ord groups ret = some (ret ++ groups.filterMap (groupPackage ord)) := by
  induction groups with
  | nil => intro _ ret; simp [mergeGroups]
  | cons entry rest ih =>
    intro h ret
    obtain ⟨key, pbts⟩ := entry
    have hne := mergeGroup_ne_none ord key (h (key, pbts) (List.mem_cons_self _ _))
    have hrest : ∀ entry ∈ rest, entry.2 ≠ [] := fun e he => h e (List.mem_cons_of_mem _ he)
    cases hm : mergeGroup ord key pbts with
    | none => exact absurd hm hne
    | some result =>
      cases result with
      | none => simp [mergeGroups, hm, ih hrest, List.filterMap_cons, groupPackage]
      | some p => simp [mergeGroups, hm, ih hrest, List.filterMap_cons, groupPackage]

/-- The package merge always returns: no group of the index is empty. -/
theorem mergedPackages_eq {ord : RangeOrder} (valid : ord.Valid) (bomByTools : BomByTools) :
    mergedPackages ord bomByTools =
      some ((ord.idx (createPackageIndex ord bomByTools)).filterMap (groupPackage ord)) := by
  have h := mergeGroups_eq ord (ord.idx (createPackageIndex ord bomByTools))
    (fun entry he => (mem_createPackageIndex ((valid.idx _).mem_iff.1 he)).2) []
  simpa [mergedPackages] using h

/-! ## The root package -/

theorem nodup_keys_storeLicenses (licenses : List String) :
    ∀ licenseSet : List (String × Unit), (licenseSet.map Prod.fst).Nodup →
      ((licenses.foldl (fun licenseSet license => GoMap.store license () licenseSet)
        licenseSet).map Prod.fst).Nodup := by
  induction licenses with
  | nil => intro licenseSet h; exact h
  | cons license rest ih =>
    intro licenseSet h
    exact ih _ (GoMap.nodup_keys_store _ _ h)

theorem mem_keys_storeLicenses (a : String) (licenses : List String) :
    ∀ licenseSet : List (String × Unit),
      a ∈ (licenses.foldl (fun licenseSet license => GoMap.store license () licenseSet)
        licenseSet).map Prod.fst ↔ a ∈ licenseSet.map Prod.fst ∨ a ∈ licenses := by
  induction licenses with
  | nil => intro licenseSet; simp
  | cons license rest ih =>
    intro licenseSet
    rw [List.foldl_cons, ih, GoMap.mem_keys_store, List.mem_cons]
    constructor
    · rintro ((h | h) | h)
      · exact Or.inr (Or.inl h)
      · exact Or.inl h
      · exact Or.inr (Or.inr h)
    · rintro (h | h | h)
      · exact Or.inl (Or.inr h)
      · exact Or.inl (Or.inl h)
      · exact Or.inr h

theorem nodup_keys_licenseSetFrom (files : List spdx22JSON.File) :
    ∀ licenseSet : List (String × Unit), (licenseSet.map Prod.fst).Nodup →
      ((files.foldl
        (fun licenseSet file =>
          file.LicenseInfoInFile.foldl
            (fun licenseSet license => GoMap.store license () licenseSet) licenseSet)
        licenseSet).map Prod.fst).Nodup := by
  induction files with
  | nil => intro licenseSet h; exact h
  | cons file rest ih =>
    intro licenseSet h
    exact ih _ (nodup_keys_storeLicenses _ _ h)

theorem mem_keys_licenseSetFrom (a : String) (files : List spdx22JSON.File) :
    ∀ licenseSet : List (String × Unit),
      a ∈ (files.foldl
        (fun licenseSet file =>
          file.LicenseInfoInFile.foldl
            (fun licenseSet license => GoMap.store license () licenseSet) licenseSet)
        licenseSet).map Prod.fst ↔
      a ∈ licenseSet.map Prod.fst ∨ ∃ file ∈ files, a ∈ file.LicenseInfoInFile := by
  induction files with
  | nil => intro licenseSet; simp
  | cons file rest ih =>
    intro licenseSet
    rw [List.foldl_cons, ih, mem_keys_storeLicenses]
    simp only [List.mem_cons, exists_eq_or_imp, or_assoc]

theorem nodup_keys_licenseSetOf (files : List spdx22JSON.File) :
    ((licenseSetOf files).map Prod.fst).Nodup :=
  nodup_keys_licenseSetFrom files [] List.nodup_nil

theorem mem_keys_licenseSetOf (a : String) (files : List spdx22JSON.File) :
    a ∈ (licenseSetOf files).map Prod.fst ↔ ∃ file ∈ files, a ∈ file.LicenseInfoInFile := by
  have h := mem_keys_licenseSetFrom a files []
  simpa [licenseSetOf] using h

/-! ## The file selection -/

theorem GoMap.mem_store {K V : Type} [DecidableEq K] {k : K} {v : V} {m : List (K × V)}
    {e : K × V} (h : e ∈ GoMap.store k v m) : e = (k, v) ∨ e ∈ m := by
  induction m with
  | nil => simpa [GoMap.store] using h
  | cons e1 rest ih =>
    obtain ⟨k1, v1⟩ := e1
    by_cases hk : k1 = k
    · simp only [GoMap.store, hk, if_true, List.mem_cons] at h
      rcases h with h | h
      · exact Or.inl h
      · exact Or.inr (List.mem_cons_of_mem _ h)
    · simp only [GoMap.store, hk, if_false, List.mem_cons] at h
      rcases h with h | h
      · exact Or.inr (by simp [h])
      · rcases ih h with h1 | h1
        · exact Or.inl h1
        · exact Or.inr (List.mem_cons_of_mem _ h1)

theorem foldl_selectFile_eq (k8bom : String) (tools : BomByTools) :
    ∀ fileByName,
      tools.foldl (fun fileByName entry => entry.2.Files.foldl (selectFile k8bom entry.1) fileByName)
        fileByName = selectReports k8bom (fileReports tools) fileByName := by
  induction tools with
  | nil => intro fileByName; rfl
  | cons entry rest ih =>
    intro fileByName
    simp only [List.foldl_cons, ih, fileReports, List.flatMap_cons, selectReports,
      List.foldl_append, List.foldl_map]

theorem selectFiles_eq (k8bom : String) (tools : BomByTools) :
    selectFiles k8bom tools = selectReports k8bom (fileReports tools) [] :=
  foldl_selectFile_eq k8bom tools []

theorem mem_keys_selectFile (k8bom tool : String) (fileByName : List (String × spdx22JSON.File))
    (file : spdx22JSON.File) (n : String) :
    n ∈ (selectFile k8bom tool fileByName file).map Prod.fst ↔
      n = file.Name ∨ n ∈ fileByName.map Prod.fst := by
  unfold selectFile
  split
  · exact GoMap.mem_keys_store _ _ _ _
  · rename_i h
    have hmem : file.Name ∈ fileByName.map Prod.fst := by
      by_contra hc
      rw [← GoMap.lookup_eq_none_iff] at hc
      exact h (Or.inl (by simp [hc]))
    constructor
    · exact Or.inr
    · rintro (h1 | h1)
      · rw [h1]; exact hmem
      · exact h1

theorem nodup_keys_selectFile (k8bom tool : String)
    {fileByName : List (String × spdx22JSON.File)} (file : spdx22JSON.File)
    (nd : (fileByName.map Prod.fst).Nodup) :
    ((selectFile k8bom tool fileByName file).map Prod.fst).Nodup := by
  unfold selectFile
  split
  · exact GoMap.nodup_keys_store _ _ nd
  · exact nd

theorem name_eq_key_selectFile (k8bom tool : String)
    {fileByName : List (String × spdx22JSON.File)} (file : spdx22JSON.File)
    (inv : ∀ e ∈ fileByName, e.2.Name = e.1) :
    ∀ e ∈ selectFile k8bom tool fileByName file, e.2.Name = e.1 := by
  unfold selectFile
  split
  · intro e he
    rcases GoMap.mem_store he with h | h
    · rw [h]
    · exact inv e h
  · exact inv

theorem mem_keys_selectReports (k8bom : String) (n : String)
    (rs : List (String × spdx22JSON.File)) :
    ∀ fileByName : List (String × spdx22JSON.File),
      n ∈ (selectReports k8bom rs fileByName).map Prod.fst ↔
        n ∈ fileByName.map Prod.fst ∨ ∃ r ∈ rs, r.2.Name = n := by
  induction rs with
  | nil => intro fileByName; simp [selectReports]
  | cons r rest ih =>
    intro fileByName
    have h := ih (selectFile k8bom r.1 fileByName r.2)
    simp only [selectReports, List.foldl_cons] at h ⊢
    rw [h, mem_keys_selectFile]
    simp only [List.mem_cons, exists_eq_or_imp]
    constructor
    · rintro ((h1 | h1) | h1)
      · exact Or.inr (Or.inl h1.symm)
      · exact Or.inl h1
      · exact Or.inr (Or.inr h1)
    · rintro (h1 | h1 | h1)
      · exact Or.inl (Or.inr h1)
      · exact Or.inl (Or.inl h1.symm)
      · exact Or.inr h1

theorem nodup_keys_selectReports (k8bom : String) (rs : List (String × spdx22JSON.File)) :
    ∀ fileByName : List (String × spdx22JSON.File), (fileByName.map Prod.fst).Nodup →
      ((selectReports k8bom rs fileByName).map Prod.fst).Nodup := by
  induction rs with
  | nil => intro fileByName h; exact h
  | cons r rest ih =>
    intro fileByName h
    exact ih _ (nodup_keys_selectFile k8bom r.1 r.2 h)

theorem name_eq_key_selectReports (k8bom : String) (rs : List (String × spdx22JSON.File)) :
    ∀ fileByName : List (String × spdx22JSON.File), (∀ e ∈ fileByName, e.2.Name = e.1) →
      ∀ e ∈ selectReports k8bom rs fileByName, e.2.Name = e.1 := by
  induction rs with
  | nil => intro fileByName h; exact h
  | cons r rest ih =>
    intro fileByName h
    exact ih _ (name_eq_key_selectFile k8bom r.1 r.2 h)

/-- A report whose name is not `n` leaves the record chosen for `n` alone. -/
theorem lookup_selectFile_of_ne (k8bom tool : String)
    (fileByName : List (String × spdx22JSON.File)) {file : spdx22JSON.File} {n : String}
    (h : file.Name ≠ n) :
    GoMap.lookup n (selectFile k8bom tool fileByName file) = GoMap.lookup n fileByName := by
  unfold selectFile
  split
  · exact GoMap.lookup_store_of_ne (Ne.symm h) _ _
  · rfl

/-- A report of a tool other than the authoritative one leaves a record already chosen
alone. -/
theorem selectFile_of_chosen {k8bom tool : String}
    {fileByName : List (String × spdx22JSON.File)} {file chosen : spdx22JSON.File}
    (htool : tool ≠ k8bom) (h : GoMap.lookup file.Name fileByName = some chosen) :
    selectFile k8bom tool fileByName file = fileByName := by
  simp [selectFile, h, htool]

theorem lookup_selectReports_of_ne (k8bom : String) (n : String)
    (rs : List (String × spdx22JSON.File)) :
    ∀ fileByName : List (String × spdx22JSON.File), (∀ r ∈ rs, r.2.Name ≠ n) →
      GoMap.lookup n (selectReports k8bom rs fileByName) = GoMap.lookup n fileByName := by
  induction rs with
  | nil => intro fileByName _; rfl
  | cons r rest ih =>
    intro fileByName h
    have h1 := ih (selectFile k8bom r.1 fileByName r.2)
      (fun r1 hr1 => h r1 (List.mem_cons_of_mem _ hr1))
    simp only [selectReports, List.foldl_cons] at h1 ⊢
    rw [h1, lookup_selectFile_of_ne _ _ _ (h r (List.mem_cons_self _ _))]

theorem lookup_selectReports_others (k8bom : String) (n : String) (chosen : spdx22JSON.File)
    (rs : List (String × spdx22JSON.File)) :
    ∀ fileByName : List (String × spdx22JSON.File), (∀ r ∈ rs, r.1 ≠ k8bom) →
      GoMap.lookup n fileByName = some chosen →
      GoMap.lookup n (selectReports k8bom rs fileByName) = some chosen := by
  induction rs with
  | nil => intro fileByName _ h; exact h
  | cons r rest ih =>
    intro fileByName hr h
    have hstep : GoMap.lookup n (selectFile k8bom r.1 fileByName r.2) = some chosen := by
      by_cases hn : r.2.Name = n
      · have h2 : GoMap.lookup r.2.Name fileByName = some chosen := by rw [hn]; exact h
        rw [selectFile_of_chosen (hr r (List.mem_cons_self _ _)) h2]
        exact h
      · rw [lookup_selectFile_of_ne _ _ _ hn]
        exact h
    exact ih _ (fun r1 hr1 => hr r1 (List.mem_cons_of_mem _ hr1)) hstep

theorem lookup_selectReports_k8bom (k8bom : String) (n : String) (file : spdx22JSON.File)
    (files : List spdx22JSON.File) :
    ∀ fileByName : List (String × spdx22JSON.File),
      files.filter (fun f => f.Name = n) = [file] →
      GoMap.lookup n (selectReports k8bom (files.map fun f => (k8bom, f)) fileByName) =
        some file := by
  induction files with
  | nil => intro fileByName h; simp at h
  | cons f rest ih =>
    intro fileByName h
    by_cases hn : f.Name = n
    · simp only [List.filter_cons, hn, decide_True, if_true, List.cons.injEq] at h
      have hrest : ∀ r ∈ rest.map (fun f => (k8bom, f)), r.2.Name ≠ n := by
        intro r hr
        obtain ⟨g, hg, rfl⟩ := List.mem_map.1 hr
        intro hc
        have : g ∈ rest.filter (fun f => decide (f.Name = n)) := by
          simp only [List.mem_filter, hg, true_and, decide_eq_true_eq]
          exact hc
        rw [h.2] at this
        simp at this
      have h1 := lookup_selectReports_of_ne k8bom n (rest.map fun f => (k8bom, f))
        (selectFile k8bom k8bom fileByName f) hrest
      simp only [selectReports, List.map_cons, List.foldl_cons] at h1 ⊢
      rw [h1, ← h.1]
      simp [selectFile, ← hn, GoMap.lookup_store_self]
    · simp only [List.filter_cons, hn, decide_False] at h
      have h1 := ih (selectFile k8bom k8bom fileByName f) h
      simpa only [selectReports, List.map_cons, List.foldl_cons] using h1

theorem keys_normalizeFilePaths (bomByTools : BomByTools) :
    (normalizeFilePaths bomByTools).map Prod.fst = bomByTools.map Prod.fst := by
  simp [normalizeFilePaths, List.map_map, Function.comp_def]

theorem mem_fileReports_normalizeFilePaths (bomByTools : BomByTools) (n : String) :
    (∃ r ∈ fileReports (normalizeFilePaths bomByTools), r.2.Name = n) ↔
      ∃ entry ∈ bomByTools, ∃ f ∈ entry.2.Files, pathClean f.Name = n := by
  simp only [fileReports, normalizeFilePaths, List.mem_flatMap, List.mem_map]
  constructor
  · rintro ⟨r, ⟨e, ⟨entry, hentry, rfl⟩, f, hf, rfl⟩, hn⟩
    obtain ⟨g, hg, rfl⟩ := List.mem_map.1 hf
    exact ⟨entry, hentry, g, hg, hn⟩
  · rintro ⟨entry, hentry, f, hf, hn⟩
    exact ⟨(entry.1, cleanName f), ⟨_, ⟨entry, hentry, rfl⟩, cleanName f,
      List.mem_map.2 ⟨f, hf, rfl⟩, rfl⟩, hn⟩

theorem eq_singleton_of_nodup {α : Type} {l : List α} {a : α} (nd : l.Nodup)
    (h : ∀ x, x ∈ l ↔ x = a) : l = [a] := by
  match l, nd, h with
  | [], _, h => exact absurd ((h a).2 rfl) (List.not_mem_nil a)
  | [x], _, h => rw [(h x).1 (List.mem_singleton_self x)]
  | x :: y :: rest, nd, h =>
    have hx := (h x).1 (List.mem_cons_self _ _)
    have hy := (h y).1 (List.mem_cons_of_mem _ (List.mem_cons_self _ _))
    rw [hx, hy] at nd
    simp at nd

/-- The names of the merged files are the keys of the selection map, in visiting order. -/
theorem names_mergedFiles {ord : RangeOrder} (valid : ord.Valid) (k8bom : String)
    (bomByTools : BomByTools) :
    ((mergedFiles ord k8bom bomByTools).map (·.Name)).Perm
      ((selectReports k8bom (fileReports (ord.tools (normalizeFilePaths bomByTools))) []).map
        Prod.fst) := by
  have hname : ∀ e ∈ ord.fileByName
      (selectReports k8bom (fileReports (ord.tools (normalizeFilePaths bomByTools))) []),
      (assignFileID e.2).Name = e.1 := by
    intro e he
    have := name_eq_key_selectReports k8bom _ [] (by simp) e ((valid.fileByName _).mem_iff.1 he)
    simpa [assignFileID] using this
  simp only [mergedFiles, selectFiles_eq, List.map_map]
  rw [List.map_congr_left (g := Prod.fst) (fun e he => by simpa using hname e he)]
  exact (valid.fileByName _).map Prod.fst

theorem nodup_names_mergedFiles {ord : RangeOrder} (valid : ord.Valid) (k8bom : String)
    (bomByTools : BomByTools) : ((mergedFiles ord k8bom bomByTools).map (·.Name)).Nodup :=
  (names_mergedFiles valid k8bom bomByTools).nodup_iff.2
    (nodup_keys_selectReports k8bom _ [] List.nodup_nil)

theorem mem_names_mergedFiles {ord : RangeOrder} (valid : ord.Valid) (k8bom : String)
    (bomByTools : BomByTools) (n : String) :
    n ∈ (mergedFiles ord k8bom bomByTools).map (·.Name) ↔
      ∃ entry ∈ bomByTools, ∃ f ∈ entry.2.Files, pathClean f.Name = n := by
  rw [(names_mergedFiles valid k8bom bomByTools).mem_iff, mem_keys_selectReports,
    ← mem_fileReports_normalizeFilePaths]
  have hperm : (fileReports (ord.tools (normalizeFilePaths bomByTools))).Perm
      (fileReports (normalizeFilePaths bomByTools)) :=
    List.Perm.flatMap_right _ (valid.tools _)
  simp only [List.map_nil, List.not_mem_nil, false_or]
  constructor
  · rintro ⟨r, hr, hn⟩
    exact ⟨r, hperm.mem_iff.1 hr, hn⟩
  · rintro ⟨r, hr, hn⟩
    exact ⟨r, hperm.mem_iff.2 hr, hn⟩

theorem fileReports_append (pre post : BomByTools) :
    fileReports (pre ++ post) = fileReports pre ++ fileReports post := by
  simp [fileReports, List.flatMap_append]

theorem selectReports_append (k8bom : String) (rs1 rs2 : List (String × spdx22JSON.File))
    (fileByName : List (String × spdx22JSON.File)) :
    selectReports k8bom (rs1 ++ rs2) fileByName =
      selectReports k8bom rs2 (selectReports k8bom rs1 fileByName) := by
  simp [selectReports, List.foldl_append]

/-- The record chosen for `n` is the one of the authoritative tool, wherever that tool stands
in the visiting order. -/
theorem lookup_selectFiles_k8bom {k8bom n : String} {tools : BomByTools} {doc : SpdxDocument}
    {file : spdx22JSON.File} (nd : (tools.map Prod.fst).Nodup) (hdoc : (k8bom, doc) ∈ tools)
    (hfile : doc.Files.filter (fun f => f.Name = n) = [file]) :
    GoMap.lookup n (selectFiles k8bom tools) = some file := by
  obtain ⟨pre, post, rfl⟩ := List.append_of_mem hdoc
  have hpost : ∀ r ∈ fileReports post, r.1 ≠ k8bom := by
    intro r hr hc
    obtain ⟨entry, hentry, hmem⟩ := List.mem_flatMap.1 hr
    obtain ⟨f, _, rfl⟩ := List.mem_map.1 hmem
    simp only [List.map_append, List.map_cons] at nd
    have hnd := (List.nodup_cons.1 (List.nodup_append.1 nd).2.1).1
    exact hnd (by rw [← hc]; exact List.mem_map_of_mem Prod.fst hentry)
  rw [selectFiles_eq, fileReports_append, selectReports_append]
  have hcons : fileReports ((k8bom, doc) :: post) =
      doc.Files.map (fun f => (k8bom, f)) ++ fileReports post := by
    simp [fileReports, List.flatMap_cons]
  rw [hcons, selectReports_append]
  exact lookup_selectReports_others k8bom n file _ _ hpost
    (lookup_selectReports_k8bom k8bom n file doc.Files _ hfile)

theorem mem_mergedFiles {ord : RangeOrder} (valid : ord.Valid) (k8bom : String)
    (bomByTools : BomByTools) (e : spdx22JSON.File) :
    e ∈ mergedFiles ord k8bom bomByTools ↔
      ∃ chosen, GoMap.lookup chosen.Name
          (selectFiles k8bom (ord.tools (normalizeFilePaths bomByTools))) = some chosen ∧
        e = assignFileID chosen := by
  have nd : ((selectFiles k8bom (ord.tools (normalizeFilePaths bomByTools))).map Prod.fst).Nodup := by
    rw [selectFiles_eq]
    exact nodup_keys_selectReports k8bom _ [] List.nodup_nil
  have inv : ∀ x ∈ selectFiles k8bom (ord.tools (normalizeFilePaths bomByTools)),
      x.2.Name = x.1 := by
    rw [selectFiles_eq]
    exact name_eq_key_selectReports k8bom _ [] (by simp)
  simp only [mergedFiles, List.mem_map]
  constructor
  · rintro ⟨x, hx, rfl⟩
    have hx1 := (valid.fileByName _).mem_iff.1 hx
    refine ⟨x.2, ?_, rfl⟩
    rw [inv x hx1]
    exact GoMap.lookup_eq_some_of_mem nd hx1
  · rintro ⟨chosen, hl, rfl⟩
    exact ⟨(chosen.Name, chosen),
      (valid.fileByName _).mem_iff.2 (GoMap.mem_of_lookup_eq_some hl), rfl⟩

/-! ## The external-reference merge -/

theorem mergeRef_eq (tool : String) (extRefSet : List (ExternalRefKey × SpdxPackageExternalRef))
    (ref : SpdxPackageExternalRef) :
    mergeRef tool extRefSet ref =
      GoMap.store (refKey ref) (attributed tool (GoMap.lookup (refKey ref) extRefSet) ref)
        extRefSet := rfl

theorem refKey_attributed (tool : String) (current : Option SpdxPackageExternalRef)
    (ref : SpdxPackageExternalRef) : refKey (attributed tool current ref) = refKey ref := by
  unfold attributed
  split <;> rfl

theorem mergeRefs_eq (pbts : List PackageWithBomTool) :
    mergeRefs pbts = mergeReports (refReports pbts) [] := by
  have h : ∀ extRefSet,
      pbts.foldl (fun extRefSet pbt =>
        pbt.Package.ExternalRefs.foldl (mergeRef pbt.BomTool) extRefSet) extRefSet =
        mergeReports (refReports pbts) extRefSet := by
    induction pbts with
    | nil => intro extRefSet; rfl
    | cons pbt rest ih =>
      intro extRefSet
      simp only [List.foldl_cons, ih, refReports, List.flatMap_cons, mergeReports,
        List.foldl_append, List.foldl_map]
  exact h []

theorem lookup_mergeRef (κ : ExternalRefKey) (tool : String)
    (extRefSet : List (ExternalRefKey × SpdxPackageExternalRef)) (ref : SpdxPackageExternalRef) :
    GoMap.lookup κ (mergeRef tool extRefSet ref) =
      if refKey ref = κ then some (attributed tool (GoMap.lookup κ extRefSet) ref)
      else GoMap.lookup κ extRefSet := by
  rw [mergeRef_eq]
  split
  · rename_i h
    rw [← h, GoMap.lookup_store_self]
  · rename_i h
    exact GoMap.lookup_store_of_ne (Ne.symm h) _ _

theorem lookup_mergeReports (κ : ExternalRefKey) (rs : List (String × SpdxPackageExternalRef)) :
    ∀ extRefSet : List (ExternalRefKey × SpdxPackageExternalRef),
      GoMap.lookup κ (mergeReports rs extRefSet) =
        (rs.filter fun r => refKey r.2 = κ).foldl (fun current r => some (attributed r.1 current r.2))
          (GoMap.lookup κ extRefSet) := by
  induction rs with
  | nil => intro extRefSet; rfl
  | cons r rest ih =>
    intro extRefSet
    have h := ih (mergeRef r.1 extRefSet r.2)
    simp only [mergeReports, List.foldl_cons] at h ⊢
    rw [h, lookup_mergeRef]
    by_cases hk : refKey r.2 = κ
    · simp [List.filter_cons, hk]
    · simp [List.filter_cons, hk]

theorem mem_keys_mergeReports (κ : ExternalRefKey)
    (rs : List (String × SpdxPackageExternalRef)) :
    ∀ extRefSet : List (ExternalRefKey × SpdxPackageExternalRef),
      κ ∈ (mergeReports rs extRefSet).map Prod.fst ↔
        κ ∈ extRefSet.map Prod.fst ∨ ∃ r ∈ rs, refKey r.2 = κ := by
  induction rs with
  | nil => intro extRefSet; simp [mergeReports]
  | cons r rest ih =>
    intro extRefSet
    have h := ih (mergeRef r.1 extRefSet r.2)
    simp only [mergeReports, List.foldl_cons] at h ⊢
    rw [h, mergeRef_eq, GoMap.mem_keys_store]
    simp only [List.mem_cons, exists_eq_or_imp]
    constructor
    · rintro ((h1 | h1) | h1)
      · exact Or.inr (Or.inl h1.symm)
      · exact Or.inl h1
      · exact Or.inr (Or.inr h1)
    · rintro (h1 | h1 | h1)
      · exact Or.inl (Or.inr h1)
      · exact Or.inl (Or.inl h1.symm)
      · exact Or.inr h1

theorem nodup_keys_mergeReports (rs : List (String × SpdxPackageExternalRef)) :
    ∀ extRefSet : List (ExternalRefKey × SpdxPackageExternalRef),
      (extRefSet.map Prod.fst).Nodup → ((mergeReports rs extRefSet).map Prod.fst).Nodup := by
  induction rs with
  | nil => intro extRefSet h; exact h
  | cons r rest ih =>
    intro extRefSet h
    exact ih _ (GoMap.nodup_keys_store _ _ h)

theorem refKey_eq_key_mergeReports (rs : List (String × SpdxPackageExternalRef)) :
    ∀ extRefSet : List (ExternalRefKey × SpdxPackageExternalRef),
      (∀ e ∈ extRefSet, refKey e.2 = e.1) → ∀ e ∈ mergeReports rs extRefSet, refKey e.2 = e.1 := by
  induction rs with
  | nil => intro extRefSet h; exact h
  | cons r rest ih =>
    intro extRefSet h
    refine ih _ ?_
    intro e he
    change e ∈ mergeRef r.1 extRefSet r.2 at he
    rw [mergeRef_eq] at he
    rcases GoMap.mem_store he with h1 | h1
    · rw [h1]
      exact refKey_attributed _ _ _
    · exact h e h1

/-- The keys of the references of a merged group, in visiting order. -/
theorem refKeys_extRefSet {ord : RangeOrder} (valid : ord.Valid) (key : String)
    (pbts : List PackageWithBomTool) :
    (((ord.extRefSet key (mergeRefs pbts)).map Prod.snd).map refKey).Perm
      ((mergeRefs pbts).map Prod.fst) := by
  have hinv : ∀ e ∈ ord.extRefSet key (mergeRefs pbts), refKey e.2 = e.1 := by
    intro e he
    have he1 := (valid.extRefSet key _).mem_iff.1 he
    rw [mergeRefs_eq] at he1
    exact refKey_eq_key_mergeReports _ [] (by simp) e he1
  rw [List.map_map, List.map_congr_left (g := Prod.fst) (fun e he => by simpa using hinv e he)]
  exact (valid.extRefSet key _).map Prod.fst

theorem mem_refReports (pbts : List PackageWithBomTool) (κ : ExternalRefKey) :
    (∃ r ∈ refReports pbts, refKey r.2 = κ) ↔
      ∃ pbt ∈ pbts, ∃ ref ∈ pbt.Package.ExternalRefs, refKey ref = κ := by
  simp only [refReports, List.mem_flatMap, List.mem_map]
  constructor
  · rintro ⟨r, ⟨pbt, hpbt, ref, href, rfl⟩, hk⟩
    exact ⟨pbt, hpbt, ref, href, hk⟩
  · rintro ⟨pbt, hpbt, ref, href, hk⟩
    exact ⟨(pbt.BomTool, ref), ⟨pbt, hpbt, ref, href, rfl⟩, hk⟩

/-- The reference of a merged group with a given key is the entry of the reference set. -/
theorem filter_extRefSet {ord : RangeOrder} (valid : ord.Valid) (key : String)
    (pbts : List PackageWithBomTool) {κ : ExternalRefKey} {ref : SpdxPackageExternalRef}
    (h : GoMap.lookup κ (mergeRefs pbts) = some ref) :
    ((ord.extRefSet key (mergeRefs pbts)).map Prod.snd).filter (fun r => refKey r = κ) =
      [ref] := by
  have nd : ((mergeRefs pbts).map Prod.fst).Nodup := by
    rw [mergeRefs_eq]
    exact nodup_keys_mergeReports _ [] List.nodup_nil
  have hinv : ∀ e ∈ mergeRefs pbts, refKey e.2 = e.1 := by
    rw [mergeRefs_eq]
    exact refKey_eq_key_mergeReports _ [] (by simp)
  have hnd : ((ord.extRefSet key (mergeRefs pbts)).map Prod.snd).Nodup :=
    List.Nodup.of_map refKey ((refKeys_extRefSet valid key pbts).nodup_iff.2 nd)
  apply eq_singleton_of_nodup (hnd.filter _)
  intro x
  simp only [List.mem_filter, List.mem_map, decide_eq_true_eq]
  constructor
  · rintro ⟨⟨e, he, rfl⟩, hk⟩
    have he1 := (valid.extRefSet key _).mem_iff.1 he
    have hkey : e.1 = κ := by rw [← hinv e he1]; exact hk
    have hl := GoMap.lookup_eq_some_of_mem nd (show (e.1, e.2) ∈ mergeRefs pbts from he1)
    rw [hkey, h] at hl
    exact (Option.some.inj hl).symm
  · rintro rfl
    have hm := GoMap.mem_of_lookup_eq_some h
    exact ⟨⟨(κ, x), (valid.extRefSet key _).mem_iff.2 hm, rfl⟩, hinv _ hm⟩

/-! ## The packages of the merge -/

theorem groupPackage_cons (ord : RangeOrder) (key : String) (first : PackageWithBomTool)
    (rest : List PackageWithBomTool) :
    groupPackage ord (key, first :: rest) =
      if (rest = [] ∧ first.Package.HasFiles ≠ []) ∨ first.Package.Name = "" then none
      else some (mergedPackage ord key first rest) := by
  by_cases h1 : rest = [] ∧ first.Package.HasFiles ≠ []
  · have h2 : (first :: rest).length = 1 ∧ first.Package.HasFiles.length ≠ 0 := by
      obtain ⟨hr, hf⟩ := h1
      subst hr
      exact ⟨rfl, fun hc => hf (List.length_eq_zero.1 hc)⟩
    simp only [groupPackage, mergeGroup, if_pos h2, if_pos (Or.inl h1)]
  · have h2 : ¬ ((first :: rest).length = 1 ∧ first.Package.HasFiles.length ≠ 0) := by
      rintro ⟨hl, hf⟩
      apply h1
      refine ⟨?_, fun hc => hf (by rw [hc]; rfl)⟩
      cases rest with
      | nil => rfl
      | cons x xs => simp at hl
    by_cases h3 : first.Package.Name = ""
    · simp only [groupPackage, mergeGroup, if_neg h2, if_pos (Or.inr h3)]
      simp [h3]
    · have h4 : ¬ ((rest = [] ∧ first.Package.HasFiles ≠ []) ∨ first.Package.Name = "") := by
        rintro (h | h)
        · exact h1 h
        · exact h3 h
      simp only [groupPackage, mergeGroup, if_neg h2, if_neg h4]
      simp [h3, mergedPackage]

theorem groupPackage_eq_some {ord : RangeOrder} {entry : String × List PackageWithBomTool}
    {p : SpdxPackage} (h : groupPackage ord entry = some p) :
    ∃ first rest, entry.2 = first :: rest ∧ ¬ (rest = [] ∧ first.Package.HasFiles ≠ []) ∧
      first.Package.Name ≠ "" ∧ p = mergedPackage ord entry.1 first rest := by
  obtain ⟨key, pbts⟩ := entry
  cases pbts with
  | nil => simp [groupPackage, mergeGroup] at h
  | cons first rest =>
    rw [groupPackage_cons] at h
    split at h
    · cases h
    · rename_i hc
      refine ⟨first, rest, rfl, fun h1 => hc (Or.inl h1), fun h1 => hc (Or.inr h1), ?_⟩
      exact (Option.some.inj h).symm

theorem mem_mergedPackages {ord : RangeOrder} (valid : ord.Valid) (bomByTools : BomByTools)
    (p : SpdxPackage) :
    p ∈ (ord.idx (createPackageIndex ord bomByTools)).filterMap (groupPackage ord) ↔
      ∃ entry ∈ createPackageIndex ord bomByTools, groupPackage ord entry = some p := by
  simp only [List.mem_filterMap]
  constructor
  · rintro ⟨entry, he, hp⟩
    exact ⟨entry, (valid.idx _).mem_iff.1 he, hp⟩
  · rintro ⟨entry, he, hp⟩
    exact ⟨entry, (valid.idx _).mem_iff.2 he, hp⟩

/-- A merged package carries the index key of the group it comes from. -/
theorem packageKey_groupPackage {ord : RangeOrder} {bomByTools : BomByTools}
    {entry : String × List PackageWithBomTool} {p : SpdxPackage}
    (he : entry ∈ createPackageIndex ord bomByTools) (h : groupPackage ord entry = some p) :
    packageKey p = entry.1 := by
  obtain ⟨first, rest, hg, _, _, rfl⟩ := groupPackage_eq_some h
  have hmem : first ∈ contributors entry.1 (reports (ord.packages bomByTools)) := by
    rw [← (mem_createPackageIndex he).1, hg]
    exact List.mem_cons_self _ _
  have := (List.mem_filter.1 hmem).2
  simpa [mergedPackage, packageKey] using this

theorem mem_reports (tools : BomByTools) (pbt : PackageWithBomTool) :
    pbt ∈ reports tools ↔ ∃ entry ∈ tools, entry.1 = pbt.BomTool ∧ pbt.Package ∈ entry.2.Packages := by
  simp only [reports, List.mem_flatMap, List.mem_map]
  constructor
  · rintro ⟨entry, he, q, hq, rfl⟩
    exact ⟨entry, he, rfl, hq⟩
  · rintro ⟨entry, he, ht, hq⟩
    exact ⟨entry, he, pbt.Package, hq, by rw [ht]⟩

theorem reports_perm {ord : RangeOrder} (valid : ord.Valid) (bomByTools : BomByTools) :
    (reports (ord.packages bomByTools)).Perm (reports bomByTools) :=
  List.Perm.flatMap_right _ (valid.packages _)

theorem filter_groupPackage_of_ne {ord : RangeOrder} {bomByTools : BomByTools} {key : String}
    (P : SpdxPackage → Bool) (hP : ∀ q, P q = true → packageKey q = key)
    (l : List (String × List PackageWithBomTool))
    (hl : ∀ e ∈ l, e ∈ createPackageIndex ord bomByTools ∧ e.1 ≠ key) :
    (l.filterMap (groupPackage ord)).filter P = [] := by
  rw [List.filter_eq_nil_iff]
  intro q hq hPq
  obtain ⟨e, he, hg⟩ := List.mem_filterMap.1 hq
  have h1 := packageKey_groupPackage (hl e he).1 hg
  exact (hl e he).2 (by rw [← h1]; exact hP q hPq)

/-- Among the packages of the merge, those selected by a predicate that fixes the index key
come from the group stored under that key. -/
theorem filter_mergedPackages {ord : RangeOrder} (valid : ord.Valid) {bomByTools : BomByTools}
    {key : String} {pbts : List PackageWithBomTool}
    (P : SpdxPackage → Bool) (hP : ∀ q, P q = true → packageKey q = key)
    (h : GoMap.lookup key (createPackageIndex ord bomByTools) = some pbts) :
    (((ord.idx (createPackageIndex ord bomByTools)).filterMap (groupPackage ord)).filter P).Perm
      ((groupPackage ord (key, pbts)).toList.filter P) := by
  have nd := nodup_keys_createPackageIndex ord bomByTools
  have hperm : (((ord.idx (createPackageIndex ord bomByTools)).filterMap
      (groupPackage ord)).filter P).Perm
      (((createPackageIndex ord bomByTools).filterMap (groupPackage ord)).filter P) :=
    ((valid.idx _).filterMap _).filter _
  refine hperm.trans ?_
  obtain ⟨l1, l2, hsplit⟩ := List.append_of_mem (GoMap.mem_of_lookup_eq_some h)
  have hmem : ∀ e, e ∈ l1 ∨ e ∈ l2 → e ∈ createPackageIndex ord bomByTools := by
    intro e he
    rw [hsplit]
    rcases he with he | he
    · exact List.mem_append_left _ he
    · exact List.mem_append_right _ (List.mem_cons_of_mem _ he)
  rw [hsplit, List.map_append, List.map_cons, List.nodup_append] at nd
  obtain ⟨_, nd2, hdisj⟩ := nd
  have h1 : ∀ e ∈ l1, e ∈ createPackageIndex ord bomByTools ∧ e.1 ≠ key := by
    intro e he
    refine ⟨hmem e (Or.inl he), fun hc => ?_⟩
    exact hdisj (List.mem_map_of_mem Prod.fst he) (by rw [hc]; exact List.mem_cons_self _ _)
  have h2 : ∀ e ∈ l2, e ∈ createPackageIndex ord bomByTools ∧ e.1 ≠ key := by
    intro e he
    refine ⟨hmem e (Or.inr he), fun hc => ?_⟩
    have hk : key ∈ l2.map Prod.fst := hc ▸ List.mem_map_of_mem Prod.fst he
    exact (List.nodup_cons.1 nd2).1 hk
  have e1 := filter_groupPackage_of_ne P hP l1 h1
  have e2 := filter_groupPackage_of_ne P hP l2 h2
  have e3 : (createPackageIndex ord bomByTools).filterMap (groupPackage ord) =
      l1.filterMap (groupPackage ord) ++ ((groupPackage ord (key, pbts)).toList ++
        l2.filterMap (groupPackage ord)) := by
    conv_lhs => rw [hsplit]
    rw [List.filterMap_append, List.filterMap_cons]
    cases groupPackage ord (key, pbts) <;> rfl
  rw [e3, List.filter_append, List.filter_append, e1, e2]
  simp

theorem packageKey_of_lookup {ord : RangeOrder} {bomByTools : BomByTools} {key : String}
    {pbts : List PackageWithBomTool}
    (h : GoMap.lookup key (createPackageIndex ord bomByTools) = some pbts) :
    ∀ pbt ∈ pbts, packageKey pbt.Package = key := by
  intro pbt hpbt
  rw [createPackageIndex_eq] at h
  rw [(lookup_indexReports h).1] at hpbt
  simpa using (List.mem_filter.1 hpbt).2

/-! ## Attribution comments -/

theorem perm_pair {α : Type} {l : List α} {a b : α} (h : l.Perm [a, b]) :
    l = [a, b] ∨ l = [b, a] := by
  have hlen := h.length_eq
  match l, h, hlen with
  | [x, y], h, _ =>
    have hx : x ∈ [a, b] := h.mem_iff.1 (List.mem_cons_self _ _)
    simp only [List.mem_cons, List.mem_singleton, List.not_mem_nil, or_false] at hx
    rcases hx with rfl | rfl
    · have := List.perm_singleton.1 h.cons_inv
      exact Or.inl (by rw [this])
    · have h2 : [x, y].Perm [x, a] := h.trans (List.Perm.swap _ _ _)
      have := List.perm_singleton.1 h2.cons_inv
      exact Or.inr (by rw [this])

theorem listContains_nil (s : List Char) : listContains [] s = true := by
  cases s <;> simp [listContains]

theorem ne_empty_of_not_contains {s tool : String} (h : stringsContains s tool = false) :
    stringsContains "" tool = false := by
  cases hd : tool.data with
  | nil =>
    rw [stringsContains, hd, listContains_nil] at h
    cases h
  | cons c rest => simp [stringsContains, listContains, hd]

theorem filter_refReports_pair (κ : ExternalRefKey) (first second : PackageWithBomTool)
    (refF refS : SpdxPackageExternalRef)
    (hF : first.Package.ExternalRefs.filter (fun r => refKey r = κ) = [refF])
    (hS : second.Package.ExternalRefs.filter (fun r => refKey r = κ) = [refS]) :
    (refReports [first, second]).filter (fun r => refKey r.2 = κ) =
      [(first.BomTool, refF), (second.BomTool, refS)] := by
  have e : ∀ (tool : String) (refs : List SpdxPackageExternalRef),
      (refs.map fun ref => (tool, ref)).filter (fun r => decide (refKey r.2 = κ)) =
        (refs.filter fun r => decide (refKey r = κ)).map fun ref => (tool, ref) := by
    intro tool refs
    rw [List.filter_map]
    rfl
  simp only [refReports, List.flatMap_cons, List.flatMap_nil, List.append_nil, List.filter_append,
    e, hF, hS]
  rfl

/-- Two contributors that report the same reference once each, neither name occurring in the
text already accumulated: the merged reference carries both attributions, in visiting order. -/
theorem lookup_mergeRefs_pair (κ : ExternalRefKey) (first second : PackageWithBomTool)
    (refF refS : SpdxPackageExternalRef)
    (hF : first.Package.ExternalRefs.filter (fun r => refKey r = κ) = [refF])
    (hS : second.Package.ExternalRefs.filter (fun r => refKey r = κ) = [refS])
    (hcF : stringsContains "" first.BomTool = false)
    (hcS : stringsContains (foundBy first.BomTool) second.BomTool = false) :
    GoMap.lookup κ (mergeRefs [first, second]) =
      some { refS with Comment := foundBy first.BomTool ++ foundBy second.BomTool } := by
  rw [mergeRefs_eq, lookup_mergeReports, filter_refReports_pair κ first second refF refS hF hS]
  have h1 : attributed first.BomTool none refF =
      { refF with Comment := foundBy first.BomTool } := by
    have hz : (({} : SpdxPackageExternalRef)).Comment = "" := rfl
    simp only [attributed, Option.getD_none, hz, hcF, Bool.not_false, if_true,
      String.empty_append]
  simp only [List.foldl_cons, List.foldl_nil, GoMap.lookup, h1]
  simp only [attributed, Option.getD_some, hcS, Bool.not_false, if_true]

theorem mergedPackage_pair_refs {ord : RangeOrder} (valid : ord.Valid) (key : String)
    (κ : ExternalRefKey) (first second : PackageWithBomTool)
    (refF refS : SpdxPackageExternalRef)
    (hF : first.Package.ExternalRefs.filter (fun r => refKey r = κ) = [refF])
    (hS : second.Package.ExternalRefs.filter (fun r => refKey r = κ) = [refS])
    (hcF : stringsContains (foundBy second.BomTool) first.BomTool = false)
    (hcS : stringsContains (foundBy first.BomTool) second.BomTool = false) :
    (mergedPackage ord key first [second]).ExternalRefs.filter (fun r => refKey r = κ) =
      [{ refS with Comment := foundBy first.BomTool ++ foundBy second.BomTool }] :=
  filter_extRefSet valid key [first, second]
    (lookup_mergeRefs_pair κ first second refF refS hF hS (ne_empty_of_not_contains hcF) hcS)

/-! ## Counting the packages of the merge -/

theorem createPackageIndex_eq_map (ord : RangeOrder) (bomByTools : BomByTools) :
    createPackageIndex ord bomByTools =
      ((createPackageIndex ord bomByTools).map Prod.fst).map
        (fun key => (key, contributors key (reports (ord.packages bomByTools)))) := by
  rw [List.map_map]
  conv_lhs => rw [← List.map_id (createPackageIndex ord bomByTools)]
  apply List.map_congr_left
  intro entry he
  have h := (mem_createPackageIndex he).1
  simp only [id, Function.comp_apply, ← h]

theorem length_mergedPackages {ord : RangeOrder} (valid : ord.Valid) (bomByTools : BomByTools) :
    ((ord.idx (createPackageIndex ord bomByTools)).filterMap (groupPackage ord)).length =
      ((createPackageIndex ord bomByTools).map Prod.fst).countP
        (fun key => (groupPackage ord
          (key, contributors key (reports (ord.packages bomByTools)))).isSome) := by
  rw [((valid.idx _).filterMap _).length_eq]
  conv_lhs => rw [createPackageIndex_eq_map, List.filterMap_map]
  rw [List.length_filterMap_eq_countP]
  rfl

theorem mem_keys_createPackageIndex (ord : RangeOrder) (bomByTools : BomByTools) (key : String) :
    key ∈ (createPackageIndex ord bomByTools).map Prod.fst ↔
      ∃ pbt ∈ reports (ord.packages bomByTools), packageKey pbt.Package = key := by
  rw [createPackageIndex_eq, mem_keys_indexReports]
  simp

theorem contributors_reports_cons (key tool : String) (doc : SpdxDocument) (rest : BomByTools) :
    contributors key (reports ((tool, doc) :: rest)) =
      (doc.Packages.filter fun p => packageKey p = key).map
        (fun p => { BomTool := tool, Package := p }) ++ contributors key (reports rest) := by
  simp only [contributors, reports, List.flatMap_cons, List.filter_append]
  rw [List.filter_map]
  rfl

theorem contributors_reports_nil (key : String) : contributors key (reports []) = [] := rfl

/-- Whether a document reported by one tool or by two, the index has the same keys. -/
theorem mem_keys_of_same_document {ord : RangeOrder} (valid : ord.Valid) (tools : BomByTools)
    (doc : SpdxDocument) (hne : tools ≠ []) (hdoc : ∀ entry ∈ tools, entry.2 = doc)
    (key : String) :
    key ∈ (createPackageIndex ord tools).map Prod.fst ↔
      ∃ p ∈ doc.Packages, packageKey p = key := by
  rw [mem_keys_createPackageIndex]
  constructor
  · rintro ⟨pbt, hpbt, hk⟩
    obtain ⟨entry, he, _, hp⟩ := (mem_reports _ _).1 ((reports_perm valid tools).mem_iff.1 hpbt)
    rw [hdoc entry he] at hp
    exact ⟨pbt.Package, hp, hk⟩
  · rintro ⟨p, hp, hk⟩
    obtain ⟨entry, he⟩ := List.exists_mem_of_ne_nil tools hne
    refine ⟨⟨entry.1, p⟩, (reports_perm valid tools).mem_iff.2 ((mem_reports _ _).2
      ⟨entry, he, rfl, ?_⟩), hk⟩
    rw [hdoc entry he]
    exact hp

theorem length_mergedFiles_of_same_document {ord : RangeOrder} (valid : ord.Valid)
    (k8bom : String) (tools : BomByTools) (doc : SpdxDocument) (hne : tools ≠ [])
    (hdoc : ∀ entry ∈ tools, entry.2 = doc) :
    ∀ n, n ∈ (mergedFiles ord k8bom tools).map (·.Name) ↔
      ∃ f ∈ doc.Files, pathClean f.Name = n := by
  intro n
  rw [mem_names_mergedFiles valid]
  constructor
  · rintro ⟨entry, he, f, hf, hn⟩
    rw [hdoc entry he] at hf
    exact ⟨f, hf, hn⟩
  · rintro ⟨f, hf, hn⟩
    obtain ⟨entry, he⟩ := List.exists_mem_of_ne_nil tools hne
    exact ⟨entry, he, f, by rw [hdoc entry he]; exact hf, hn⟩

/-- Whether a group with first package `f` yields a package, when the single-source filter
drops nothing: the group passes exactly when the name of `f` is not empty. -/
theorem isSome_groupPackage_cons (ord : RangeOrder) (key : String) (first : PackageWithBomTool)
    (rest : List PackageWithBomTool)
    (h : rest = [] → first.Package.HasFiles = []) :
    (groupPackage ord (key, first :: rest)).isSome = decide (first.Package.Name ≠ "") := by
  rw [groupPackage_cons]
  by_cases hn : first.Package.Name = ""
  · simp [hn]
  · have hc : ¬ ((rest = [] ∧ first.Package.HasFiles ≠ []) ∨ first.Package.Name = "") := by
      rintro (hc | hc)
      · exact hc.2 (h hc.1)
      · exact hn hc
    rw [if_neg hc]
    simp [hn]

/-- The packages of a document merged with itself are as many as the packages of the document
merged alone, when the single-source filter drops nothing in the merge of the document alone. -/
theorem length_mergedPackages_twice (ord1 ord2 : RangeOrder) (valid1 : ord1.Valid)
    (valid2 : ord2.Valid) (d : SpdxDocument) (t ta tb : String)
    (h2 : ord2.packages [(ta, d), (tb, d)] = [(ta, d), (tb, d)])
    (hfilter : ∀ p ∈ d.Packages,
      d.Packages.filter (fun q => packageKey q = packageKey p) = [p] → p.HasFiles = []) :
    ((ord2.idx (createPackageIndex ord2 [(ta, d), (tb, d)])).filterMap
        (groupPackage ord2)).length =
      ((ord1.idx (createPackageIndex ord1 [(t, d)])).filterMap (groupPackage ord1)).length := by
  have h1 : ord1.packages [(t, d)] = [(t, d)] := List.perm_singleton.1 (valid1.packages _)
  rw [length_mergedPackages valid1, length_mergedPackages valid2, h1, h2]
  have hkeys : ((createPackageIndex ord2 [(ta, d), (tb, d)]).map Prod.fst).Perm
      ((createPackageIndex ord1 [(t, d)]).map Prod.fst) := by
    rw [List.perm_ext_iff_of_nodup (nodup_keys_createPackageIndex _ _)
      (nodup_keys_createPackageIndex _ _)]
    intro key
    rw [mem_keys_of_same_document valid2 _ d (by simp) (by simp),
      mem_keys_of_same_document valid1 _ d (by simp) (by simp)]
  apply hkeys.countP_congr
  intro key hkey
  rw [mem_keys_of_same_document valid2 _ d (by simp) (by simp)] at hkey
  obtain ⟨p, hp, hk⟩ := hkey
  simp only [contributors_reports_cons, contributors_reports_nil, List.append_nil]
  cases hf : d.Packages.filter (fun q => decide (packageKey q = key)) with
  | nil =>
    have : p ∈ d.Packages.filter (fun q => decide (packageKey q = key)) :=
      List.mem_filter.2 ⟨hp, decide_eq_true hk⟩
    rw [hf] at this
    cases this
  | cons f r =>
    have hfmem : f ∈ d.Packages.filter (fun q => decide (packageKey q = key)) := by
      rw [hf]
      exact List.mem_cons_self _ _
    have hfk : packageKey f = key := of_decide_eq_true (List.mem_filter.1 hfmem).2
    simp only [List.map_cons, List.cons_append]
    rw [isSome_groupPackage_cons, isSome_groupPackage_cons]
    · intro hr
      have hrnil : r = [] := List.map_eq_nil_iff.1 hr
      apply hfilter f (List.mem_filter.1 hfmem).1
      rw [hfk, hf, hrnil]
    · intro hr
      simp at hr

/-! ## Identifiers of the merged files -/

theorem fileSHA1_eq_find (checksums : List spdx22JSON.Checksum) :
    fileSHA1 checksums =
      ((checksums.find? fun hash => hash.Algorithm = "SHA1").map (·.Value)).getD "" := by
  induction checksums with
  | nil => rfl
  | cons hash rest ih =>
    by_cases h : hash.Algorithm = "SHA1"
    · simp [fileSHA1, List.find?_cons, h]
    · simp [fileSHA1, List.find?_cons, h, ih]

theorem mem_selectFile {k8bom tool : String} {fileByName : List (String × spdx22JSON.File)}
    {file : spdx22JSON.File} {e : String × spdx22JSON.File}
    (h : e ∈ selectFile k8bom tool fileByName file) : e = (file.Name, file) ∨ e ∈ fileByName := by
  unfold selectFile at h
  split at h
  · exact GoMap.mem_store h
  · exact Or.inr h

/-- Every record of the selection map is one of the reports. -/
theorem mem_selectReports (k8bom : String) (rs : List (String × spdx22JSON.File)) :
    ∀ (fileByName : List (String × spdx22JSON.File)) (e : String × spdx22JSON.File),
      e ∈ selectReports k8bom rs fileByName → e ∈ fileByName ∨ ∃ r ∈ rs, e = (r.2.Name, r.2) := by
  induction rs with
  | nil => intro fileByName e h; exact Or.inl h
  | cons r rest ih =>
    intro fileByName e h
    rcases ih _ e h with h1 | ⟨r1, hr1, he⟩
    · rcases mem_selectFile h1 with h2 | h2
      · exact Or.inr ⟨r, List.mem_cons_self _ _, h2⟩
      · exact Or.inl h2
    · exact Or.inr ⟨r1, List.mem_cons_of_mem _ hr1, he⟩

theorem mem_fileReports_normalized {ord : RangeOrder} (valid : ord.Valid)
    (bomByTools : BomByTools) (r : String × spdx22JSON.File) :
    r ∈ fileReports (ord.tools (normalizeFilePaths bomByTools)) ↔
      ∃ entry ∈ bomByTools, ∃ f ∈ entry.2.Files, r = (entry.1, cleanName f) := by
  have hperm : (fileReports (ord.tools (normalizeFilePaths bomByTools))).Perm
      (fileReports (normalizeFilePaths bomByTools)) :=
    List.Perm.flatMap_right _ (valid.tools _)
  rw [hperm.mem_iff]
  simp only [fileReports, normalizeFilePaths, List.mem_flatMap, List.mem_map]
  constructor
  · rintro ⟨e, ⟨entry, hentry, rfl⟩, f, hf, rfl⟩
    obtain ⟨g, hg, rfl⟩ := List.mem_map.1 hf
    exact ⟨entry, hentry, g, hg, rfl⟩
  · rintro ⟨entry, hentry, f, hf, rfl⟩
    exact ⟨_, ⟨entry, hentry, rfl⟩, cleanName f, List.mem_map.2 ⟨f, hf, rfl⟩, rfl⟩

/-- Every record chosen by the selection is the cleaned record of some input file. -/
theorem chosen_of_lookup {ord : RangeOrder} (valid : ord.Valid) {k8bom : String}
    {bomByTools : BomByTools} {n : String} {chosen : spdx22JSON.File}
    (h : GoMap.lookup n (selectFiles k8bom (ord.tools (normalizeFilePaths bomByTools))) =
      some chosen) :
    ∃ entry ∈ bomByTools, ∃ f ∈ entry.2.Files, chosen = cleanName f := by
  have hmem := GoMap.mem_of_lookup_eq_some h
  rw [selectFiles_eq] at hmem
  rcases mem_selectReports k8bom _ [] _ hmem with h1 | ⟨r, hr, he⟩
  · cases h1
  · obtain ⟨entry, hentry, f, hf, rfl⟩ := (mem_fileReports_normalized valid bomByTools r).1 hr
    exact ⟨entry, hentry, f, hf, (Prod.mk.inj he).2⟩

/-! ## Distinct packages -/

theorem sublist_keys_groupPackage {ord : RangeOrder} {bomByTools : BomByTools}
    (l : List (String × List PackageWithBomTool)) :
    (∀ e ∈ l, e ∈ createPackageIndex ord bomByTools) →
      ((l.filterMap (groupPackage ord)).map packageKey).Sublist (l.map Prod.fst) := by
  induction l with
  | nil => intro _; exact List.Sublist.slnil
  | cons e rest ih =>
    intro h
    have hrest := ih (fun e1 he1 => h e1 (List.mem_cons_of_mem _ he1))
    cases hg : groupPackage ord e with
    | none =>
      rw [List.filterMap_cons_none hg]
      exact List.Sublist.cons _ hrest
    | some p =>
      rw [List.filterMap_cons_some hg, List.map_cons, List.map_cons,
        packageKey_groupPackage (h e (List.mem_cons_self _ _)) hg]
      exact List.Sublist.cons₂ _ hrest

/-- No two packages of the merge have the same (Name, Version) pair. -/
theorem nodup_nameVersion_mergedPackages {ord : RangeOrder} (valid : ord.Valid)
    (bomByTools : BomByTools) :
    (((ord.idx (createPackageIndex ord bomByTools)).filterMap (groupPackage ord)).map
      nameVersion).Nodup := by
  have hkeys : (((ord.idx (createPackageIndex ord bomByTools)).filterMap
      (groupPackage ord)).map packageKey).Nodup := by
    refine (((valid.idx _).filterMap _).map _).nodup_iff.2 ?_
    exact (sublist_keys_groupPackage _ (fun e he => he)).nodup
      (nodup_keys_createPackageIndex ord bomByTools)
  have hcomp : ((ord.idx (createPackageIndex ord bomByTools)).filterMap (groupPackage ord)).map
      packageKey =
      (((ord.idx (createPackageIndex ord bomByTools)).filterMap (groupPackage ord)).map
        nameVersion).map (fun nv => nv.1 ++ "-" ++ nv.2) := by
    rw [List.map_map]
    rfl
  rw [hcomp] at hkeys
  exact List.Nodup.of_map _ hkeys

/-! ## Creation metadata -/

theorem mergedCreationInfo_eq (ord : RangeOrder) (now : String) (bomByTools : BomByTools) :
    mergedCreationInfo ord now bomByTools =
      { (ord.creators bomByTools).foldl addCreationInfo {} with Created := now } := rfl

theorem creators_addCreationInfo (ret : spdx22JSON.CreationInfo)
    (entry : String × SpdxDocument) :
    (addCreationInfo ret entry).Creators = ret.Creators ++ entry.2.CreationInfo.Creators := by
  by_cases h : ret.LicenseListVersion < entry.2.CreationInfo.LicenseListVersion
  · simp [addCreationInfo, h]
  · simp [addCreationInfo, h]

theorem version_addCreationInfo (ret : spdx22JSON.CreationInfo)
    (entry : String × SpdxDocument) :
    (addCreationInfo ret entry).LicenseListVersion =
      max ret.LicenseListVersion entry.2.CreationInfo.LicenseListVersion := by
  by_cases h : ret.LicenseListVersion < entry.2.CreationInfo.LicenseListVersion
  · rw [max_eq_right (le_of_lt h)]
    simp [addCreationInfo, h]
  · rw [max_eq_left (not_lt.1 h)]
    simp [addCreationInfo, h]

theorem creators_foldl_addCreationInfo (tools : BomByTools) :
    ∀ ret : spdx22JSON.CreationInfo,
      (tools.foldl addCreationInfo ret).Creators =
        ret.Creators ++ tools.flatMap (fun entry => entry.2.CreationInfo.Creators) := by
  induction tools with
  | nil => intro ret; simp
  | cons entry rest ih =>
    intro ret
    rw [List.foldl_cons, ih, creators_addCreationInfo, List.flatMap_cons, List.append_assoc]

theorem version_foldl_addCreationInfo (tools : BomByTools) :
    ∀ ret : spdx22JSON.CreationInfo,
      ret.LicenseListVersion ≤ (tools.foldl addCreationInfo ret).LicenseListVersion ∧
      (∀ entry ∈ tools, entry.2.CreationInfo.LicenseListVersion ≤
        (tools.foldl addCreationInfo ret).LicenseListVersion) ∧
      ((tools.foldl addCreationInfo ret).LicenseListVersion = ret.LicenseListVersion ∨
        ∃ entry ∈ tools, entry.2.CreationInfo.LicenseListVersion =
          (tools.foldl addCreationInfo ret).LicenseListVersion) := by
  induction tools with
  | nil => intro ret; simp
  | cons entry rest ih =>
    intro ret
    obtain ⟨h1, h2, h3⟩ := ih (addCreationInfo ret entry)
    rw [version_addCreationInfo] at h1 h3
    simp only [List.foldl_cons]
    refine ⟨le_trans (le_max_left _ _) h1, ?_, ?_⟩
    · intro e he
      rcases List.mem_cons.1 he with rfl | he
      · exact le_trans (le_max_right _ _) h1
      · exact h2 e he
    · rcases h3 with h3 | ⟨e, he, h3⟩
      · rcases max_choice ret.LicenseListVersion entry.2.CreationInfo.LicenseListVersion with
          hm | hm
        · exact Or.inl (h3.trans hm)
        · exact Or.inr ⟨entry, List.mem_cons_self _ _, (h3.trans hm).symm⟩
      · exact Or.inr ⟨e, List.mem_cons_of_mem _ he, h3⟩

theorem String.empty_le (s : String) : "" ≤ s := by
  rw [String.le_iff_toList_le]
  cases h : s.toList with
  | nil => exact le_refl _
  | cons c cs => exact le_of_lt (List.nil_lt_cons c cs)

/-! ## Two reports under one key -/

/-- When the input holds exactly two package reports and both have the same key, the index
has one group, made of the two reports in the order they were visited. -/
theorem mergedPackages_of_pair {ord : RangeOrder} (valid : ord.Valid) (bomByTools : BomByTools)
    (key : String) (a b : PackageWithBomTool) (hperm : (reports bomByTools).Perm [a, b])
    (ha : packageKey a.Package = key) (hb : packageKey b.Package = key) :
    mergedPackages ord bomByTools = some (groupPackage ord (key, [a, b])).toList ∨
      mergedPackages ord bomByTools = some (groupPackage ord (key, [b, a])).toList := by
  have hidx : ∀ x y : PackageWithBomTool, packageKey x.Package = key →
      packageKey y.Package = key → reports (ord.packages bomByTools) = [x, y] →
      mergedPackages ord bomByTools = some (groupPackage ord (key, [x, y])).toList := by
    intro x y hx hy hr
    have h1 : createPackageIndex ord bomByTools = [(key, [x, y])] := by
      rw [createPackageIndex_eq, hr]
      simp [indexReports, indexPackage, GoMap.store, GoMap.lookup, hx, hy]
    rw [mergedPackages_eq valid, h1, List.perm_singleton.1 (valid.idx _)]
    cases hg : groupPackage ord (key, [x, y]) with
    | none =>
      rw [List.filterMap_cons_none hg]
      rfl
    | some p =>
      rw [List.filterMap_cons_some hg]
      rfl
  rcases perm_pair ((reports_perm valid bomByTools).trans hperm) with h | h
  · exact Or.inl (hidx a b ha hb h)
  · exact Or.inr (hidx b a hb ha h)

/-- The record chosen for a name that the authoritative tool reports exactly once. -/
theorem lookup_selectFiles_normalized {ord : RangeOrder} (valid : ord.Valid) {k8bom : String}
    {bomByTools : BomByTools} (wf : bomByTools.WellFormed) {doc : SpdxDocument}
    (hdoc : (k8bom, doc) ∈ bomByTools) {n : String} {file : spdx22JSON.File}
    (hfile : doc.Files.filter (fun f => pathClean f.Name = n) = [file]) :
    GoMap.lookup n (selectFiles k8bom (ord.tools (normalizeFilePaths bomByTools))) =
      some (cleanName file) := by
  have nd : ((ord.tools (normalizeFilePaths bomByTools)).map Prod.fst).Nodup := by
    rw [((valid.tools _).map Prod.fst).nodup_iff, keys_normalizeFilePaths]
    exact wf
  have hmem : (k8bom, { doc with Files := doc.Files.map cleanName }) ∈
      ord.tools (normalizeFilePaths bomByTools) :=
    (valid.tools _).mem_iff.2 (List.mem_map.2 ⟨(k8bom, doc), hdoc, rfl⟩)
  have hclean : (doc.Files.map cleanName).filter (fun f => f.Name = n) = [cleanName file] := by
    rw [List.filter_map]
    have : ((fun f : spdx22JSON.File => decide (f.Name = n)) ∘ cleanName) =
        fun f => decide (pathClean f.Name = n) := rfl
    rw [this, hfile]
    rfl
  exact lookup_selectFiles_k8bom nd hmem hclean

/-- The merged files when every tool reports the same single cleaned name and the
authoritative tool reports it once. -/
theorem mergedFiles_single_name {ord : RangeOrder} (valid : ord.Valid) {k8bom : String}
    {bomByTools : BomByTools} (wf : bomByTools.WellFormed) {doc : SpdxDocument}
    (hdoc : (k8bom, doc) ∈ bomByTools) {n : String} {file : spdx22JSON.File}
    (hfile : doc.Files.filter (fun f => pathClean f.Name = n) = [file])
    (hall : ∀ entry ∈ bomByTools, ∀ f ∈ entry.2.Files, pathClean f.Name = n) :
    mergedFiles ord k8bom bomByTools = [assignFileID (cleanName file)] := by
  have hl := lookup_selectFiles_normalized valid wf hdoc hfile
  have hfn : pathClean file.Name = n := by
    have : file ∈ doc.Files.filter (fun f => decide (pathClean f.Name = n)) := by
      rw [hfile]
      exact List.mem_singleton_self file
    simpa using (List.mem_filter.1 this).2
  have hnames : (mergedFiles ord k8bom bomByTools).map (·.Name) = [n] := by
    apply eq_singleton_of_nodup (nodup_names_mergedFiles valid k8bom _)
    intro x
    rw [mem_names_mergedFiles valid]
    constructor
    · rintro ⟨entry, he, f, hf, hx⟩
      rw [← hx]
      exact hall entry he f hf
    · rintro rfl
      have : file ∈ doc.Files.filter (fun f => decide (pathClean f.Name = x)) := by
        rw [hfile]
        exact List.mem_singleton_self file
      exact ⟨_, hdoc, file, (List.mem_filter.1 this).1, hfn⟩
  cases hm : mergedFiles ord k8bom bomByTools with
  | nil => simp [hm] at hnames
  | cons e rest =>
    cases rest with
    | cons e2 rest2 => simp [hm] at hnames
    | nil =>
      have he : e ∈ mergedFiles ord k8bom bomByTools := by
        rw [hm]
        exact List.mem_singleton_self e
      obtain ⟨chosen, hc, rfl⟩ := (mem_mergedFiles valid k8bom bomByTools e).1 he
      have hcn : chosen.Name = n := by
        have := hnames
        rw [hm] at this
        simpa [assignFileID] using this
      rw [hcn, hl] at hc
      rw [← Option.some.inj hc]

/-! ## The scenario of the spec -/

theorem mergedPackages_scenario {ord : RangeOrder} (valid : ord.Valid) :
    mergedPackages ord scenario =
        some [scenarioLibfoo "Found by toolA Tool. Found by toolB Tool. "] ∨
      mergedPackages ord scenario =
        some [scenarioLibfoo "Found by toolB Tool. Found by toolA Tool. "] := by
  have hperm : (reports scenario).Perm
      [{ BomTool := "toolA", Package := { Name := "libfoo", Version := "1.0", ExternalRefs :=
          [{ Type_ := "purl", Locator := "pkg:golang/libfoo@1.0" }] } },
       { BomTool := "toolB", Package := { Name := "libfoo", Version := "1.0", ExternalRefs :=
          [{ Type_ := "purl", Locator := "pkg:golang/libfoo@1.0" }] } }] :=
    List.Perm.refl _
  have hAB : mergeRefs
      [{ BomTool := "toolA", Package := { Name := "libfoo", Version := "1.0", ExternalRefs :=
          [{ Type_ := "purl", Locator := "pkg:golang/libfoo@1.0" }] } },
       { BomTool := "toolB", Package := { Name := "libfoo", Version := "1.0", ExternalRefs :=
          [{ Type_ := "purl", Locator := "pkg:golang/libfoo@1.0" }] } }] =
      [({ Type_ := "purl", Locator := "pkg:golang/libfoo@1.0" },
        { Type_ := "purl", Locator := "pkg:golang/libfoo@1.0",
          Comment := "Found by toolA Tool. Found by toolB Tool. " })] := by
    decide
  have hBA : mergeRefs
      [{ BomTool := "toolB", Package := { Name := "libfoo", Version := "1.0", ExternalRefs :=
          [{ Type_ := "purl", Locator := "pkg:golang/libfoo@1.0" }] } },
       { BomTool := "toolA", Package := { Name := "libfoo", Version := "1.0", ExternalRefs :=
          [{ Type_ := "purl", Locator := "pkg:golang/libfoo@1.0" }] } }] =
      [({ Type_ := "purl", Locator := "pkg:golang/libfoo@1.0" },
        { Type_ := "purl", Locator := "pkg:golang/libfoo@1.0",
          Comment := "Found by toolB Tool. Found by toolA Tool. " })] := by
    decide
  rcases mergedPackages_of_pair valid scenario "libfoo-1.0" _ _ hperm (by decide) (by decide)
    with h | h
  · left
    rw [h, groupPackage_cons, if_neg (by decide)]
    simp only [mergedPackage, hAB, List.perm_singleton.1 (valid.extRefSet _ _)]
    rfl
  · right
    rw [h, groupPackage_cons, if_neg (by decide)]
    simp only [mergedPackage, hBA, List.perm_singleton.1 (valid.extRefSet _ _)]
    rfl

theorem mergedFiles_scenario {ord : RangeOrder} (valid : ord.Valid) :
    mergedFiles ord "toolB" scenario =
      [{ ID := "SPDXRef-File-src/a.go-x1", Name := "src/a.go",
         Checksums := [⟨"SHA1", "x1"⟩], LicenseInfoInFile := ["MIT"] }] := by
  have h := @mergedFiles_single_name ord valid "toolB" scenario (by decide)
    { Files := [{ Name := "src/a.go", Checksums := [⟨"SHA1", "x1"⟩],
                  LicenseInfoInFile := ["MIT"] }],
      Packages := [{ Name := "libfoo", Version := "1.0", ExternalRefs :=
                      [{ Type_ := "purl", Locator := "pkg:golang/libfoo@1.0" }] }] }
    (by decide) "src/a.go"
    { Name := "src/a.go", Checksums := [⟨"SHA1", "x1"⟩], LicenseInfoInFile := ["MIT"] }
    (by decide) (by decide)
  rw [h]
  decide

/-! ## The file selection under two visiting orders -/

/-- A report of the name `n` by a tool other than the authoritative one leaves a record
already chosen for `n` alone, whatever is reported under other names. -/
theorem lookup_selectReports_kept (k8bom n : String) (chosen : spdx22JSON.File)
    (rs : List (String × spdx22JSON.File)) :
    ∀ fileByName : List (String × spdx22JSON.File),
      (∀ r ∈ rs, r.2.Name = n → r.1 ≠ k8bom) →
      GoMap.lookup n fileByName = some chosen →
      GoMap.lookup n (selectReports k8bom rs fileByName) = some chosen := by
  induction rs with
  | nil => intro fileByName _ h; exact h
  | cons r rest ih =>
    intro fileByName hr h
    have hstep : GoMap.lookup n (selectFile k8bom r.1 fileByName r.2) = some chosen := by
      by_cases hn : r.2.Name = n
      · have h2 : GoMap.lookup r.2.Name fileByName = some chosen := by rw [hn]; exact h
        rw [selectFile_of_chosen (hr r (List.mem_cons_self _ _) hn) h2]
        exact h
      · rw [lookup_selectFile_of_ne _ _ _ hn]
        exact h
    exact ih _ (fun r1 hr1 => hr r1 (List.mem_cons_of_mem _ hr1)) hstep

/-- When the authoritative tool does not report `n`, the record chosen for `n` is the first
report of that name in visiting order. -/
theorem lookup_selectReports_first (k8bom n : String) (rs : List (String × spdx22JSON.File)) :
    ∀ fileByName : List (String × spdx22JSON.File),
      (∀ r ∈ rs, r.2.Name = n → r.1 ≠ k8bom) →
      GoMap.lookup n fileByName = none →
      GoMap.lookup n (selectReports k8bom rs fileByName) =
        (rs.find? fun r => r.2.Name = n).map (·.2) := by
  induction rs with
  | nil => intro fileByName _ h; simpa [selectReports] using h
  | cons r rest ih =>
    intro fileByName hr h
    have hrest : ∀ r1 ∈ rest, r1.2.Name = n → r1.1 ≠ k8bom :=
      fun r1 hr1 => hr r1 (List.mem_cons_of_mem _ hr1)
    by_cases hn : r.2.Name = n
    · have hstore : GoMap.lookup n (selectFile k8bom r.1 fileByName r.2) = some r.2 := by
        have hnone : (GoMap.lookup r.2.Name fileByName).isNone = true := by
          rw [hn, h]
          rfl
        rw [selectFile, if_pos (Or.inl hnone), hn, GoMap.lookup_store_self]
      have hkept := lookup_selectReports_kept k8bom n r.2 rest _ hrest hstore
      simp only [selectReports, List.foldl_cons] at hkept ⊢
      rw [hkept, List.find?_cons_of_pos _ (by simpa using hn)]
      rfl
    · have hsame : GoMap.lookup n (selectFile k8bom r.1 fileByName r.2) = none := by
        rw [lookup_selectFile_of_ne _ _ _ hn]
        exact h
      have hnext := ih _ hrest hsame
      simp only [selectReports, List.foldl_cons] at hnext ⊢
      rw [hnext, List.find?_cons_of_neg _ (by simpa using hn)]

/-- The reports of the authoritative tool are all stored: after them, the record chosen for
`n` depends on the map they started from only through the record it held for `n`. -/
theorem lookup_selectReports_k8bom_congr (k8bom n : String) (files : List spdx22JSON.File) :
    ∀ acc1 acc2 : List (String × spdx22JSON.File),
      GoMap.lookup n acc1 = GoMap.lookup n acc2 →
      GoMap.lookup n (selectReports k8bom (files.map fun f => (k8bom, f)) acc1) =
        GoMap.lookup n (selectReports k8bom (files.map fun f => (k8bom, f)) acc2) := by
  induction files with
  | nil => intro acc1 acc2 h; exact h
  | cons f rest ih =>
    intro acc1 acc2 h
    simp only [selectReports, List.map_cons, List.foldl_cons] at ih ⊢
    apply ih
    have e : ∀ acc : List (String × spdx22JSON.File),
        selectFile k8bom k8bom acc f = GoMap.store f.Name f acc := by
      intro acc
      simp [selectFile]
    rw [e, e]
    by_cases hn : f.Name = n
    · rw [hn, GoMap.lookup_store_self, GoMap.lookup_store_self]
    · rw [GoMap.lookup_store_of_ne (Ne.symm hn), GoMap.lookup_store_of_ne (Ne.symm hn)]
      exact h

/-- When the authoritative tool reports `n`, the record chosen for `n` after its reports does
not depend on the map they started from. -/
theorem lookup_selectReports_k8bom_any (k8bom n : String) (files : List spdx22JSON.File) :
    (∃ f ∈ files, f.Name = n) →
    ∀ acc1 acc2 : List (String × spdx22JSON.File),
      GoMap.lookup n (selectReports k8bom (files.map fun f => (k8bom, f)) acc1) =
        GoMap.lookup n (selectReports k8bom (files.map fun f => (k8bom, f)) acc2) := by
  induction files with
  | nil => rintro ⟨f, hf, _⟩; cases hf
  | cons f rest ih =>
    rintro ⟨g, hg, hgn⟩ acc1 acc2
    have e : ∀ acc : List (String × spdx22JSON.File),
        selectFile k8bom k8bom acc f = GoMap.store f.Name f acc := by
      intro acc
      simp [selectFile]
    by_cases hn : f.Name = n
    · have hcongr := lookup_selectReports_k8bom_congr k8bom n rest
        (GoMap.store f.Name f acc1) (GoMap.store f.Name f acc2)
        (by rw [hn, GoMap.lookup_store_self, GoMap.lookup_store_self])
      simpa only [selectReports, List.map_cons, List.foldl_cons, e] using hcongr
    · have hrest : ∃ f1 ∈ rest, f1.Name = n := by
        rcases List.mem_cons.1 hg with rfl | hg1
        · exact absurd hgn hn
        · exact ⟨g, hg1, hgn⟩
      have hnext := ih hrest (GoMap.store f.Name f acc1) (GoMap.store f.Name f acc2)
      simpa only [selectReports, List.map_cons, List.foldl_cons, e] using hnext

/-- When the authoritative tool reports `n`, the record chosen for `n` is the one chosen from
its document alone, wherever the tool stands in the visiting order. -/
theorem lookup_selectFiles_reported {k8bom n : String} {tools : BomByTools} {doc : SpdxDocument}
    (nd : (tools.map Prod.fst).Nodup) (hdoc : (k8bom, doc) ∈ tools)
    (hfile : ∃ f ∈ doc.Files, f.Name = n) :
    ∃ chosen, GoMap.lookup n (selectReports k8bom (doc.Files.map fun f => (k8bom, f)) []) =
        some chosen ∧
      GoMap.lookup n (selectFiles k8bom tools) = some chosen := by
  have hsome : ∀ acc : List (String × spdx22JSON.File), ∃ chosen,
      GoMap.lookup n (selectReports k8bom (doc.Files.map fun f => (k8bom, f)) acc) =
        some chosen := by
    intro acc
    have hk : n ∈ (selectReports k8bom (doc.Files.map fun f => (k8bom, f)) acc).map Prod.fst := by
      rw [mem_keys_selectReports]
      obtain ⟨f, hf, hn⟩ := hfile
      exact Or.inr ⟨(k8bom, f), List.mem_map.2 ⟨f, hf, rfl⟩, hn⟩
    cases hl : GoMap.lookup n
        (selectReports k8bom (doc.Files.map fun f => (k8bom, f)) acc) with
    | none => exact absurd hk ((GoMap.lookup_eq_none_iff _ _).1 hl)
    | some chosen => exact ⟨chosen, rfl⟩
  obtain ⟨chosen, hchosen⟩ := hsome []
  refine ⟨chosen, hchosen, ?_⟩
  obtain ⟨pre, post, rfl⟩ := List.append_of_mem hdoc
  have hpost : ∀ r ∈ fileReports post, r.1 ≠ k8bom := by
    intro r hr hc
    obtain ⟨entry, hentry, hmem⟩ := List.mem_flatMap.1 hr
    obtain ⟨f, _, rfl⟩ := List.mem_map.1 hmem
    simp only [List.map_append, List.map_cons] at nd
    have hnd := (List.nodup_cons.1 (List.nodup_append.1 nd).2.1).1
    exact hnd (by rw [← hc]; exact List.mem_map_of_mem Prod.fst hentry)
  rw [selectFiles_eq, fileReports_append, selectReports_append]
  have hcons : fileReports ((k8bom, doc) :: post) =
      doc.Files.map (fun f => (k8bom, f)) ++ fileReports post := by
    simp [fileReports, List.flatMap_cons]
  rw [hcons, selectReports_append]
  apply lookup_selectReports_others k8bom n chosen _ _ hpost
  rw [lookup_selectReports_k8bom_any k8bom n doc.Files hfile _ []]
  exact hchosen

theorem find?_fileReports (p : String × spdx22JSON.File → Bool) (tools : BomByTools)
    (r : String × spdx22JSON.File) :
    (fileReports tools).find? p = some r →
      ∃ entry ∈ tools, (entry.2.Files.map fun f => (entry.1, f)).find? p = some r := by
  induction tools with
  | nil => intro h; simp [fileReports] at h
  | cons entry rest ih =>
    intro h
    have hcons : fileReports (entry :: rest) =
        entry.2.Files.map (fun f => (entry.1, f)) ++ fileReports rest := by
      simp [fileReports, List.flatMap_cons]
    rw [hcons, List.find?_append] at h
    cases hf : (entry.2.Files.map fun f => (entry.1, f)).find? p with
    | some r1 =>
      rw [hf] at h
      exact ⟨entry, List.mem_cons_self _ _, by rw [hf]; exact h⟩
    | none =>
      rw [hf] at h
      obtain ⟨e, he, hr⟩ := ih (by simpa using h)
      exact ⟨e, List.mem_cons_of_mem _ he, hr⟩

/-- The first report of the name `n` by a tool is the first record of cleaned name `n` of its
document, with its name cleaned. -/
theorem find?_reports_normalized (tool n : String) (files : List spdx22JSON.File) :
    ((files.map cleanName).map fun f => (tool, f)).find? (fun r => r.2.Name = n) =
      (files.find? fun f => pathClean f.Name = n).map fun f => (tool, cleanName f) := by
  rw [List.map_map, List.find?_map]
  rfl

/-- When the authoritative tool does not report `n`, every report of `n` comes from another
tool. -/
theorem reports_not_k8bom {ord : RangeOrder} (valid : ord.Valid) {k8bom : String}
    {bomByTools : BomByTools} {n : String}
    (h : ¬ ∃ doc, (k8bom, doc) ∈ bomByTools ∧ ∃ f ∈ doc.Files, pathClean f.Name = n) :
    ∀ r ∈ fileReports (ord.tools (normalizeFilePaths bomByTools)), r.2.Name = n →
      r.1 ≠ k8bom := by
  intro r hr hn hk
  obtain ⟨entry, hentry, f, hf, rfl⟩ := (mem_fileReports_normalized valid bomByTools r).1 hr
  apply h
  refine ⟨entry.2, ?_, f, hf, hn⟩
  have : entry = (k8bom, entry.2) := Prod.ext hk rfl
  rw [← this]
  exact hentry

/-- When the authoritative tool does not report `n`, the record chosen for `n` is the cleaned
first record of that name of some tool. -/
theorem chosen_first {ord : RangeOrder} (valid : ord.Valid) {k8bom : String}
    {bomByTools : BomByTools} {n : String}
    (h : ¬ ∃ doc, (k8bom, doc) ∈ bomByTools ∧ ∃ f ∈ doc.Files, pathClean f.Name = n)
    {chosen : spdx22JSON.File}
    (hc : GoMap.lookup n (selectFiles k8bom (ord.tools (normalizeFilePaths bomByTools))) =
      some chosen) :
    ∃ entry ∈ bomByTools, ∃ f,
      entry.2.Files.find? (fun f => pathClean f.Name = n) = some f ∧ chosen = cleanName f := by
  rw [selectFiles_eq, lookup_selectReports_first k8bom n _ [] (reports_not_k8bom valid h) rfl]
    at hc
  cases hfind : (fileReports (ord.tools (normalizeFilePaths bomByTools))).find?
      (fun r => decide (r.2.Name = n)) with
  | none => rw [hfind] at hc; cases hc
  | some r =>
    rw [hfind] at hc
    obtain ⟨e, he, hr⟩ := find?_fileReports _ _ r hfind
    have he1 := (valid.tools _).mem_iff.1 he
    obtain ⟨entry, hentry, rfl⟩ := List.mem_map.1 he1
    have hr1 : ((entry.2.Files.map cleanName).map fun f => (entry.1, f)).find?
        (fun r => decide (r.2.Name = n)) = some r := hr
    rw [find?_reports_normalized] at hr1
    cases hf : entry.2.Files.find? (fun f => decide (pathClean f.Name = n)) with
    | none => rw [hf] at hr1; cases hr1
    | some f =>
      rw [hf] at hr1
      refine ⟨entry, hentry, f, hf, ?_⟩
      have h1 : r = (entry.1, cleanName f) := (Option.some.inj hr1).symm
      have h2 : r.2 = chosen := Option.some.inj hc
      rw [← h2, h1]

/-- Under `Agreed`, the entry returned for a name does not depend on the visiting order. -/
theorem entry_of_agreed {k8bom : String} {bomByTools : BomByTools} (wf : bomByTools.WellFormed)
    {n : String} (h : Agreed k8bom bomByTools n) :
    ∃ x : spdx22JSON.File, ∀ ord : RangeOrder, ord.Valid → ∀ chosen,
      GoMap.lookup n (selectFiles k8bom (ord.tools (normalizeFilePaths bomByTools))) =
        some chosen → assignFileID chosen = x := by
  by_cases hk : ∃ doc, (k8bom, doc) ∈ bomByTools ∧ ∃ f ∈ doc.Files, pathClean f.Name = n
  · obtain ⟨doc, hdoc, f, hf, hn⟩ := hk
    have hfile : ∃ g ∈ ({ doc with Files := doc.Files.map cleanName } : SpdxDocument).Files,
        g.Name = n := ⟨cleanName f, List.mem_map.2 ⟨f, hf, rfl⟩, hn⟩
    have hfix : ∀ ord : RangeOrder, ord.Valid → ∃ chosen,
        GoMap.lookup n (selectReports k8bom
          ((doc.Files.map cleanName).map fun f => (k8bom, f)) []) = some chosen ∧
        GoMap.lookup n (selectFiles k8bom (ord.tools (normalizeFilePaths bomByTools))) =
          some chosen := by
      intro ord valid
      have nd : ((ord.tools (normalizeFilePaths bomByTools)).map Prod.fst).Nodup := by
        rw [((valid.tools _).map Prod.fst).nodup_iff, keys_normalizeFilePaths]
        exact wf
      have hmem : (k8bom, { doc with Files := doc.Files.map cleanName }) ∈
          ord.tools (normalizeFilePaths bomByTools) :=
        (valid.tools _).mem_iff.2 (List.mem_map.2 ⟨(k8bom, doc), hdoc, rfl⟩)
      exact lookup_selectFiles_reported nd hmem hfile
    obtain ⟨c, hc, _⟩ := hfix RangeOrder.insertion RangeOrder.insertion_valid
    refine ⟨assignFileID c, fun ord valid chosen hchosen => ?_⟩
    obtain ⟨c1, hc1, hl⟩ := hfix ord valid
    rw [hc] at hc1
    rw [hl] at hchosen
    rw [← Option.some.inj hchosen, ← Option.some.inj hc1]
  · rcases h with h1 | ⟨x, hx⟩
    · exact absurd h1 hk
    · refine ⟨x, fun ord valid chosen hchosen => ?_⟩
      obtain ⟨entry, hentry, f, hf, rfl⟩ := chosen_first valid hk hchosen
      exact hx entry hentry f hf

theorem eq_of_agreed {ord1 ord2 : RangeOrder} (valid1 : ord1.Valid) (valid2 : ord2.Valid)
    {k8bom : String} {bomByTools : BomByTools} (wf : bomByTools.WellFormed) {n : String}
    (h : Agreed k8bom bomByTools n) {e1 e2 : spdx22JSON.File}
    (h1 : e1 ∈ mergedFiles ord1 k8bom bomByTools) (h2 : e2 ∈ mergedFiles ord2 k8bom bomByTools)
    (hn1 : e1.Name = n) (hn2 : e2.Name = n) : e1 = e2 := by
  obtain ⟨x, hx⟩ := entry_of_agreed wf h
  obtain ⟨c1, hc1, rfl⟩ := (mem_mergedFiles valid1 k8bom bomByTools e1).1 h1
  obtain ⟨c2, hc2, rfl⟩ := (mem_mergedFiles valid2 k8bom bomByTools e2).1 h2
  have e1n : c1.Name = n := hn1
  have e2n : c2.Name = n := hn2
  rw [e1n] at hc1
  rw [e2n] at hc2
  rw [hx ord1 valid1 c1 hc1, hx ord2 valid2 c2 hc2]

theorem RangeOrder.startingWith_valid (first : String) : (RangeOrder.startingWith first).Valid :=
  ⟨fun _ => List.Perm.refl _, fun m => List.filter_append_perm _ m, fun _ => List.Perm.refl _,
    fun _ => List.Perm.refl _, fun _ => List.Perm.refl _, fun _ _ => List.Perm.refl _,
    fun _ => List.Perm.refl _⟩

theorem filter_key_eq_singleton (tool : String) (doc : SpdxDocument) (tools : BomByTools) :
    (tools.map Prod.fst).Nodup → (tool, doc) ∈ tools →
      tools.filter (fun e => decide (e.1 = tool)) = [(tool, doc)] := by
  induction tools with
  | nil => intro _ h; cases h
  | cons e rest ih =>
    intro nd h
    rw [List.map_cons, List.nodup_cons] at nd
    by_cases he : e = (tool, doc)
    · subst he
      have hrest : rest.filter (fun e => decide (e.1 = tool)) = [] := by
        rw [List.filter_eq_nil_iff]
        intro x hx hxt
        have hx1 : x.1 ∈ rest.map Prod.fst := List.mem_map_of_mem Prod.fst hx
        rw [of_decide_eq_true hxt] at hx1
        exact nd.1 hx1
      simp [List.filter_cons, hrest]
    · have hmem : (tool, doc) ∈ rest := by
        rcases List.mem_cons.1 h with h1 | h1
        · exact absurd h1.symm he
        · exact h1
      have hne : ¬ e.1 = tool := by
        intro hc
        exact nd.1 (by rw [hc]; exact List.mem_map_of_mem Prod.fst hmem)
      simp [List.filter_cons, hne, ih nd.2 hmem]

/-- When the authoritative tool does not report `n`, the tool visited first decides: its
first record of that name becomes the entry. -/
theorem mem_mergedFiles_startingWith {k8bom : String} {bomByTools : BomByTools}
    (wf : bomByTools.WellFormed) {n : String}
    (h : ¬ ∃ doc, (k8bom, doc) ∈ bomByTools ∧ ∃ f ∈ doc.Files, pathClean f.Name = n)
    {entry : String × SpdxDocument} (hentry : entry ∈ bomByTools) {f : spdx22JSON.File}
    (hf : entry.2.Files.find? (fun f => pathClean f.Name = n) = some f) :
    assignFileID (cleanName f) ∈ mergedFiles (RangeOrder.startingWith entry.1) k8bom bomByTools := by
  have valid := RangeOrder.startingWith_valid entry.1
  have hfn : pathClean f.Name = n := by simpa using List.find?_some hf
  refine (mem_mergedFiles valid k8bom bomByTools _).2 ⟨cleanName f, ?_, rfl⟩
  have hname : (cleanName f).Name = n := hfn
  rw [hname, selectFiles_eq,
    lookup_selectReports_first k8bom n _ [] (reports_not_k8bom valid h) rfl]
  have nd : ((normalizeFilePaths bomByTools).map Prod.fst).Nodup := by
    rw [keys_normalizeFilePaths]
    exact wf
  have hmem : (entry.1, ({ entry.2 with Files := entry.2.Files.map cleanName } : SpdxDocument)) ∈
      normalizeFilePaths bomByTools := List.mem_map.2 ⟨entry, hentry, rfl⟩
  have htools : (RangeOrder.startingWith entry.1).tools (normalizeFilePaths bomByTools) =
      [(entry.1, ({ entry.2 with Files := entry.2.Files.map cleanName } : SpdxDocument))] ++
        (normalizeFilePaths bomByTools).filter (fun e => !decide (e.1 = entry.1)) := by
    show (normalizeFilePaths bomByTools).filter (fun e => decide (e.1 = entry.1)) ++ _ = _
    rw [filter_key_eq_singleton _ _ _ nd hmem]
  have hreports : fileReports [(entry.1,
      ({ entry.2 with Files := entry.2.Files.map cleanName } : SpdxDocument))] =
      (entry.2.Files.map cleanName).map fun f => (entry.1, f) := by
    simp [fileReports]
  rw [htools, fileReports_append, List.find?_append, hreports, find?_reports_normalized, hf]
  rfl

/-- Records that differ only in the input ID and the spelling of the name are agreed. -/
theorem agreed_sameDataTools : Agreed "k8bom" sameDataTools "a.go" := by
  refine Or.inr
    ⟨{ ID := "SPDXRef-File-a.go-x", Name := "a.go", Checksums := [⟨"SHA1", "x"⟩] }, ?_⟩
  intro entry he f hf
  simp only [sameDataTools, List.mem_cons, List.mem_singleton, List.not_mem_nil, or_false] at he
  rcases he with rfl | rfl
  · have h : List.find? (fun f => decide (pathClean f.Name = "a.go"))
        [({ ID := "i1", Name := "./a.go", Checksums := [⟨"SHA1", "x"⟩] } : spdx22JSON.File)] =
        some { ID := "i1", Name := "./a.go", Checksums := [⟨"SHA1", "x"⟩] } := by decide
    rw [← Option.some.inj (h.symm.trans hf)]
    decide
  · have h : List.find? (fun f => decide (pathClean f.Name = "a.go"))
        [({ ID := "i2", Name := "a.go", Checksums := [⟨"SHA1", "x"⟩] } : spdx22JSON.File)] =
        some { ID := "i2", Name := "a.go", Checksums := [⟨"SHA1", "x"⟩] } := by decide
    rw [← Option.some.inj (h.symm.trans hf)]
    decide

/-- A name that the authoritative tool lists more than once is agreed. -/
theorem agreed_listedTwice : Agreed "k8bom" listedTwice "a.go" :=
  Or.inl ⟨_, List.mem_cons_self _ _, _, List.mem_cons_self _ _, by decide⟩

/-- The two tools of `disagreeingTools` are not agreed on "a.go". -/
theorem not_agreed_disagreeingTools : ¬ Agreed "k8bom" disagreeingTools "a.go" := by
  rintro (⟨doc, hdoc, _⟩ | ⟨x, hx⟩)
  · simp [disagreeingTools] at hdoc
  · have h1 := hx ("syft", { Files := [{ Name := "a.go", Checksums := [⟨"SHA1", "x"⟩] }] })
      (List.mem_cons_self _ _) { Name := "a.go", Checksums := [⟨"SHA1", "x"⟩] } (by decide)
    have h2 := hx ("trivy", { Files := [{ Name := "a.go", Checksums := [⟨"SHA1", "y"⟩] }] })
      (List.mem_cons_of_mem _ (List.mem_cons_self _ _))
      { Name := "a.go", Checksums := [⟨"SHA1", "y"⟩] } (by decide)
    exact absurd (h1.trans h2.symm) (by decide)

/-! ## Settled claims -/

/-- C1, as stated, fails on the empty tool map: the merged document has no relationship and
no file but one package, the root package, so the relationship count is not the sum of the
file count and the package count. -/
theorem Merge_empty_counts :
    ∃ doc, Merge RangeOrder.insertion "k8bom" "/src" "2021-10-01T00:00:00Z" [] = some doc ∧
      doc.Relationships.length = 0 ∧ doc.Files.length = 0 ∧ doc.Packages.length = 1 ∧
      doc.Relationships.length ≠ doc.Files.length + doc.Packages.length :=
  ⟨_, rfl, by decide⟩

/-- C1 (amended): for every input map and every visiting order, Merge returns a document whose
number of Relationship entries is the number of its File entries plus the number of its
Package entries minus one: every file and every package but the root package, which is added
after the relationships are built, has one relationship. -/
theorem Merge_relationship_count (ord : RangeOrder) (valid : ord.Valid)
    (k8bom fullPathToDirToScan now : String) (bomByTools : BomByTools) :
    ∃ doc, Merge ord k8bom fullPathToDirToScan now bomByTools = some doc ∧
      doc.Relationships.length + 1 = doc.Files.length + doc.Packages.length := by
  simp only [Merge, mergedPackages_eq valid, createRelationships_eq]
  refine ⟨_, rfl, ?_⟩
  simp [addRootPackage]
  omega

/-- C1 (amended), applied to one tool reporting one file and one package. -/
theorem Merge_relationship_count_witness :
    RangeOrder.reversed.Valid ∧
    ∃ doc, Merge RangeOrder.reversed "k8bom" "/src" "2021-10-01T00:00:00Z"
        [("syft", { Files := [{ Name := "a.go" }], Packages := [{ Name := "libfoo" }] })] =
          some doc ∧
      doc.Relationships.length + 1 = doc.Files.length + doc.Packages.length :=
  ⟨RangeOrder.reversed_valid, Merge_relationship_count _ RangeOrder.reversed_valid _ _ _ _⟩

/-- C2: when the authoritative tool (K8Bom) reports exactly one file whose cleaned name is n,
mergedFiles returns an entry named n, and every entry named n has the LicenseInfoInFile and
the Checksums of the authoritative tool's record, for every visiting order of the tool map
and whatever the other tools report at n; and a report of a non-authoritative tool leaves the
selection map as it is when a record is already chosen for the name it reports. -/
theorem mergedFiles_prefers_k8bom (ord : RangeOrder) (valid : ord.Valid) (k8bom : String)
    (bomByTools : BomByTools) (wf : bomByTools.WellFormed) (doc : SpdxDocument)
    (hdoc : (k8bom, doc) ∈ bomByTools) (n : String) (file : spdx22JSON.File)
    (hfile : doc.Files.filter (fun f => pathClean f.Name = n) = [file]) :
    (∃ e ∈ mergedFiles ord k8bom bomByTools, e.Name = n) ∧
    (∀ e ∈ mergedFiles ord k8bom bomByTools, e.Name = n →
      e.LicenseInfoInFile = file.LicenseInfoInFile ∧ e.Checksums = file.Checksums) ∧
    (∀ (tool : String) (fileByName : List (String × spdx22JSON.File))
      (other chosen : spdx22JSON.File), tool ≠ k8bom →
      GoMap.lookup other.Name fileByName = some chosen →
      selectFile k8bom tool fileByName other = fileByName) := by
  have nd : ((ord.tools (normalizeFilePaths bomByTools)).map Prod.fst).Nodup := by
    rw [((valid.tools _).map Prod.fst).nodup_iff, keys_normalizeFilePaths]
    exact wf
  have hmem : (k8bom, { doc with Files := doc.Files.map cleanName }) ∈
      ord.tools (normalizeFilePaths bomByTools) :=
    (valid.tools _).mem_iff.2 (List.mem_map.2 ⟨(k8bom, doc), hdoc, rfl⟩)
  have hclean : (doc.Files.map cleanName).filter (fun f => f.Name = n) = [cleanName file] := by
    rw [List.filter_map]
    have : ((fun f : spdx22JSON.File => decide (f.Name = n)) ∘ cleanName) =
        fun f => decide (pathClean f.Name = n) := rfl
    rw [this, hfile]
    rfl
  have hfn : pathClean file.Name = n := by
    have : file ∈ doc.Files.filter (fun f => decide (pathClean f.Name = n)) := by
      rw [hfile]
      exact List.mem_singleton_self file
    simpa using (List.mem_filter.1 this).2
  have hl := lookup_selectFiles_k8bom nd hmem hclean
  refine ⟨⟨assignFileID (cleanName file), ?_, hfn⟩, ?_, ?_⟩
  · refine (mem_mergedFiles valid k8bom bomByTools _).2 ⟨cleanName file, ?_, rfl⟩
    have hcn : (cleanName file).Name = n := hfn
    rw [hcn]
    exact hl
  · intro e he hn
    obtain ⟨chosen, hc, rfl⟩ := (mem_mergedFiles valid k8bom bomByTools e).1 he
    have hcn : chosen.Name = n := hn
    rw [hcn, hl] at hc
    cases hc
    exact ⟨rfl, rfl⟩
  · intro tool fileByName other chosen htool h
    exact selectFile_of_chosen htool h

/-- C2, applied to the authoritative tool "k8bom" reporting "src/a.go" with license MIT and
to "syft" reporting "./src/a.go" without license data, with "syft" visited last. -/
theorem mergedFiles_prefers_k8bom_witness :
    RangeOrder.reversed.Valid ∧
    BomByTools.WellFormed
      [("k8bom", { Files := [{ Name := "src/a.go", LicenseInfoInFile := ["MIT"] }] }),
       ("syft", { Files := [{ Name := "./src/a.go" }] })] ∧
    (∃ e ∈ mergedFiles RangeOrder.reversed "k8bom"
        [("k8bom", { Files := [{ Name := "src/a.go", LicenseInfoInFile := ["MIT"] }] }),
         ("syft", { Files := [{ Name := "./src/a.go" }] })], e.Name = "src/a.go") ∧
    (∀ e ∈ mergedFiles RangeOrder.reversed "k8bom"
        [("k8bom", { Files := [{ Name := "src/a.go", LicenseInfoInFile := ["MIT"] }] }),
         ("syft", { Files := [{ Name := "./src/a.go" }] })], e.Name = "src/a.go" →
      e.LicenseInfoInFile = ["MIT"] ∧ e.Checksums = []) ∧
    (∀ (tool : String) (fileByName : List (String × spdx22JSON.File))
      (other chosen : spdx22JSON.File), tool ≠ "k8bom" →
      GoMap.lookup other.Name fileByName = some chosen →
      selectFile "k8bom" tool fileByName other = fileByName) :=
  ⟨RangeOrder.reversed_valid, by decide,
    mergedFiles_prefers_k8bom RangeOrder.reversed RangeOrder.reversed_valid "k8bom"
      [("k8bom", { Files := [{ Name := "src/a.go", LicenseInfoInFile := ["MIT"] }] }),
       ("syft", { Files := [{ Name := "./src/a.go" }] })]
      (by decide) { Files := [{ Name := "src/a.go", LicenseInfoInFile := ["MIT"] }] }
      (by decide) "src/a.go" { Name := "src/a.go", LicenseInfoInFile := ["MIT"] }
      (by decide)⟩

/-- C3: for every input map and every visiting order, the Names of the entries returned by
mergedFiles are pairwise distinct and are exactly the values path.Clean(name) for the file
names of all tools; in particular two tools that report one file each, "./a/b.txt" and
"a/b.txt", yield exactly one File entry, named "a/b.txt". -/
theorem mergedFiles_names (ord : RangeOrder) (valid : ord.Valid) (k8bom : String)
    (bomByTools : BomByTools) :
    ((mergedFiles ord k8bom bomByTools).map (·.Name)).Nodup ∧
    (∀ n, n ∈ (mergedFiles ord k8bom bomByTools).map (·.Name) ↔
      ∃ entry ∈ bomByTools, ∃ f ∈ entry.2.Files, pathClean f.Name = n) ∧
    (∀ (t1 t2 : String) (d1 d2 : SpdxDocument) (f1 f2 : spdx22JSON.File), t1 ≠ t2 →
      d1.Files = [f1] → d2.Files = [f2] → f1.Name = "./a/b.txt" → f2.Name = "a/b.txt" →
      ∃ e, mergedFiles ord k8bom [(t1, d1), (t2, d2)] = [e] ∧ e.Name = "a/b.txt") := by
  refine ⟨nodup_names_mergedFiles valid k8bom bomByTools,
    mem_names_mergedFiles valid k8bom bomByTools, ?_⟩
  intro t1 t2 d1 d2 f1 f2 _ h1 h2 hn1 hn2
  have hnames : (mergedFiles ord k8bom [(t1, d1), (t2, d2)]).map (·.Name) = ["a/b.txt"] := by
    apply eq_singleton_of_nodup (nodup_names_mergedFiles valid k8bom _)
    intro n
    rw [mem_names_mergedFiles valid]
    have c1 : pathClean "./a/b.txt" = "a/b.txt" := by decide
    have c2 : pathClean "a/b.txt" = "a/b.txt" := by decide
    simp only [List.mem_cons, List.mem_singleton, List.not_mem_nil, or_false, exists_eq_or_imp,
      exists_eq_left, h1, h2, hn1, hn2, c1, c2]
    constructor
    · rintro (h | h) <;> exact h.symm
    · intro h; exact Or.inl h.symm
  cases hm : mergedFiles ord k8bom [(t1, d1), (t2, d2)] with
  | nil => simp [hm] at hnames
  | cons e rest =>
    cases rest with
    | nil => exact ⟨e, rfl, by simpa [hm] using hnames⟩
    | cons e2 rest2 => simp [hm] at hnames

/-- C3, applied to the tools "syft" and "k8bom" reporting "./a/b.txt" and "a/b.txt". -/
theorem mergedFiles_names_witness :
    RangeOrder.reversed.Valid ∧
    ((mergedFiles RangeOrder.reversed "k8bom"
      [("syft", { Files := [{ Name := "./a/b.txt" }] }),
       ("k8bom", { Files := [{ Name := "a/b.txt" }] })]).map (·.Name)).Nodup ∧
    (∀ n, n ∈ (mergedFiles RangeOrder.reversed "k8bom"
        [("syft", { Files := [{ Name := "./a/b.txt" }] }),
         ("k8bom", { Files := [{ Name := "a/b.txt" }] })]).map (·.Name) ↔
      ∃ entry ∈ ([("syft", { Files := [{ Name := "./a/b.txt" }] }),
          ("k8bom", { Files := [{ Name := "a/b.txt" }] })] : BomByTools),
        ∃ f ∈ entry.2.Files, pathClean f.Name = n) ∧
    (∀ (t1 t2 : String) (d1 d2 : SpdxDocument) (f1 f2 : spdx22JSON.File), t1 ≠ t2 →
      d1.Files = [f1] → d2.Files = [f2] → f1.Name = "./a/b.txt" → f2.Name = "a/b.txt" →
      ∃ e, mergedFiles RangeOrder.reversed "k8bom" [(t1, d1), (t2, d2)] = [e] ∧
        e.Name = "a/b.txt") :=
  ⟨RangeOrder.reversed_valid,
    mergedFiles_names RangeOrder.reversed RangeOrder.reversed_valid "k8bom"
      [("syft", { Files := [{ Name := "./a/b.txt" }] }),
       ("k8bom", { Files := [{ Name := "a/b.txt" }] })]⟩

/-- C4, as stated, fails for the distinct tool names "A" and "Tool": with "A" visited first,
the name "Tool" already occurs in the comment "Found by A Tool. ", so no attribution is added
for "Tool" and the stored comment does not name either tool. -/
theorem mergedPackages_tool_name_inside_comment :
    mergedPackages RangeOrder.insertion [("A", fooOnce), ("Tool", fooOnce)] =
      some [{ Name := "foo", Version := "1", ExternalRefs :=
                [{ Type_ := "purl", Locator := "pkg:npm/foo@1", Comment := "" }] }] ∧
    occurrences "" "Found by A Tool." = 0 ∧ occurrences "" "Found by Tool Tool." = 0 := by
  decide

/-- C4 (amended): let the tools A and B be the only contributors of a key group, with packages
of the same non-empty Name and the same Version that each list the reference (Type, Locator)
once, and let neither tool name occur in the attribution text "Found by X Tool. " of the
other. Then for every visiting order mergedPackages returns a package with that Name and
Version, and every such package has exactly one reference with that (Type, Locator), whose
Comment is the attribution of the tool visited first followed by the attribution of the other
tool; for the tools "A" and "B" the Comment contains "Found by A Tool." exactly once and
"Found by B Tool." exactly once. -/
theorem mergedPackages_attributes_both (ord : RangeOrder) (valid : ord.Valid)
    (bomByTools : BomByTools) (A B : String) (pA pB : SpdxPackage)
    (κ : ExternalRefKey) (refA refB : SpdxPackageExternalRef)
    (hname : pB.Name = pA.Name) (hversion : pB.Version = pA.Version) (hne : pA.Name ≠ "")
    (hgroup : (contributors (packageKey pA) (reports bomByTools)).Perm
      [{ BomTool := A, Package := pA }, { BomTool := B, Package := pB }])
    (hA : pA.ExternalRefs.filter (fun r => refKey r = κ) = [refA])
    (hB : pB.ExternalRefs.filter (fun r => refKey r = κ) = [refB])
    (hAB : stringsContains (foundBy A) B = false)
    (hBA : stringsContains (foundBy B) A = false) :
    ∃ packages, mergedPackages ord bomByTools = some packages ∧
      (∃ p ∈ packages, p.Name = pA.Name ∧ p.Version = pA.Version) ∧
      ∀ p ∈ packages, p.Name = pA.Name → p.Version = pA.Version →
        ∃ ref, p.ExternalRefs.filter (fun r => refKey r = κ) = [ref] ∧
          (ref.Comment = foundBy A ++ foundBy B ∨ ref.Comment = foundBy B ++ foundBy A) ∧
          (A = "A" → B = "B" →
            occurrences ref.Comment "Found by A Tool." = 1 ∧
            occurrences ref.Comment "Found by B Tool." = 1) := by
  refine ⟨_, mergedPackages_eq valid bomByTools, ?_⟩
  -- the group of the key, in the order the index was built
  have hperm : (contributors (packageKey pA) (reports (ord.packages bomByTools))).Perm
      [{ BomTool := A, Package := pA }, { BomTool := B, Package := pB }] :=
    ((reports_perm valid bomByTools).filter _).trans hgroup
  have hmemA : (⟨A, pA⟩ : PackageWithBomTool) ∈ reports (ord.packages bomByTools) :=
    (List.mem_filter.1 (hperm.mem_iff.2 (List.mem_cons_self _ _))).1
  have hlookup := lookup_indexReports_of_mem hmemA
  rw [← createPackageIndex_eq] at hlookup
  have hP : ∀ q : SpdxPackage,
      decide (q.Name = pA.Name ∧ q.Version = pA.Version) = true →
        packageKey q = packageKey pA := by
    intro q hq
    have hq1 := of_decide_eq_true hq
    simp [packageKey, hq1.1, hq1.2]
  have hfilter := filter_mergedPackages valid
    (fun q => decide (q.Name = pA.Name ∧ q.Version = pA.Version)) hP hlookup
  have hocc : ∀ c : String,
      (c = foundBy A ++ foundBy B ∨ c = foundBy B ++ foundBy A) → A = "A" → B = "B" →
        occurrences c "Found by A Tool." = 1 ∧ occurrences c "Found by B Tool." = 1 := by
    rintro c (rfl | rfl) rfl rfl <;> decide
  -- both visiting orders of the two contributors
  have key : ∃ (first second : PackageWithBomTool) (refS : SpdxPackageExternalRef),
      groupPackage ord (packageKey pA, contributors (packageKey pA)
        (reports (ord.packages bomByTools))) =
          some (mergedPackage ord (packageKey pA) first [second]) ∧
      first.Package.Name = pA.Name ∧ first.Package.Version = pA.Version ∧
      (mergedPackage ord (packageKey pA) first [second]).ExternalRefs.filter
        (fun r => refKey r = κ) =
          [{ refS with Comment := foundBy first.BomTool ++ foundBy second.BomTool }] ∧
      (foundBy first.BomTool ++ foundBy second.BomTool = foundBy A ++ foundBy B ∨
        foundBy first.BomTool ++ foundBy second.BomTool = foundBy B ++ foundBy A) := by
    rcases perm_pair hperm with h | h
    · refine ⟨⟨A, pA⟩, ⟨B, pB⟩, refB, ?_, rfl, rfl,
        mergedPackage_pair_refs valid _ κ ⟨A, pA⟩ ⟨B, pB⟩ refA refB hA hB hBA hAB, Or.inl rfl⟩
      rw [h, groupPackage_cons, if_neg]
      rintro (hc | hc)
      · cases hc.1
      · exact hne hc
    · refine ⟨⟨B, pB⟩, ⟨A, pA⟩, refA, ?_, hname, hversion,
        mergedPackage_pair_refs valid _ κ ⟨B, pB⟩ ⟨A, pA⟩ refB refA hB hA hAB hBA, Or.inr rfl⟩
      rw [h, groupPackage_cons, if_neg]
      rintro (hc | hc)
      · cases hc.1
      · exact hne (hname ▸ hc)
  obtain ⟨first, second, refS, hgp, hn, hv, hrefs, hcomment⟩ := key
  have hsel : (mergedPackage ord (packageKey pA) first [second]).Name = pA.Name ∧
      (mergedPackage ord (packageKey pA) first [second]).Version = pA.Version := ⟨hn, hv⟩
  rw [hgp] at hfilter
  have hone := List.perm_singleton.1
    (show (List.filter (fun q => decide (q.Name = pA.Name ∧ q.Version = pA.Version))
      ((ord.idx (createPackageIndex ord bomByTools)).filterMap (groupPackage ord))).Perm
        [mergedPackage ord (packageKey pA) first [second]] by
      simpa [Option.toList, hsel] using hfilter)
  constructor
  · refine ⟨mergedPackage ord (packageKey pA) first [second], ?_, hsel⟩
    have : mergedPackage ord (packageKey pA) first [second] ∈
        List.filter (fun q => decide (q.Name = pA.Name ∧ q.Version = pA.Version))
          ((ord.idx (createPackageIndex ord bomByTools)).filterMap (groupPackage ord)) := by
      rw [hone]
      exact List.mem_singleton_self _
    exact (List.mem_filter.1 this).1
  · intro p hp hpn hpv
    have : p ∈ List.filter (fun q => decide (q.Name = pA.Name ∧ q.Version = pA.Version))
        ((ord.idx (createPackageIndex ord bomByTools)).filterMap (groupPackage ord)) :=
      List.mem_filter.2 ⟨hp, decide_eq_true ⟨hpn, hpv⟩⟩
    rw [hone] at this
    rw [List.mem_singleton.1 this]
    exact ⟨_, hrefs, hcomment, hocc _ hcomment⟩

/-- C4 (amended), applied to the tools "A" and "B" and the reference
(purl, pkg:npm/foo@1) of the package foo 1, with "B" visited first. -/
theorem mergedPackages_attributes_both_witness :
    RangeOrder.reversed.Valid ∧
    ∃ packages, mergedPackages RangeOrder.reversed [("A", fooOnce), ("B", fooOnce)] =
        some packages ∧
      (∃ p ∈ packages, p.Name = "foo" ∧ p.Version = "1") ∧
      ∀ p ∈ packages, p.Name = "foo" → p.Version = "1" →
        ∃ ref, p.ExternalRefs.filter
            (fun r => refKey r = { Type_ := "purl", Locator := "pkg:npm/foo@1" }) = [ref] ∧
          (ref.Comment = foundBy "A" ++ foundBy "B" ∨
            ref.Comment = foundBy "B" ++ foundBy "A") ∧
          ("A" = "A" → "B" = "B" →
            occurrences ref.Comment "Found by A Tool." = 1 ∧
            occurrences ref.Comment "Found by B Tool." = 1) :=
  ⟨RangeOrder.reversed_valid,
    mergedPackages_attributes_both RangeOrder.reversed RangeOrder.reversed_valid
      [("A", fooOnce), ("B", fooOnce)] "A" "B"
      { Name := "foo", Version := "1", ExternalRefs :=
          [{ Type_ := "purl", Locator := "pkg:npm/foo@1" }] }
      { Name := "foo", Version := "1", ExternalRefs :=
          [{ Type_ := "purl", Locator := "pkg:npm/foo@1" }] }
      { Type_ := "purl", Locator := "pkg:npm/foo@1" }
      { Type_ := "purl", Locator := "pkg:npm/foo@1" }
      { Type_ := "purl", Locator := "pkg:npm/foo@1" }
      rfl rfl (by decide) (by decide) (by decide) (by decide) (by decide) (by decide)⟩

/-- C5 (the code at the failing input): one tool, "A", lists the reference
(purl, pkg:npm/foo@1) twice in the ExternalRefs of its package foo 1; for every visiting order
the merged reference has an empty Comment, in which "Found by A Tool. " does not occur. -/
theorem mergedPackages_repeated_ref (ord : RangeOrder) (valid : ord.Valid) :
    mergedPackages ord [("A", fooTwice)] =
      some [{ Name := "foo", Version := "1", ExternalRefs :=
                [{ Type_ := "purl", Locator := "pkg:npm/foo@1", Comment := "" }] }] ∧
    occurrences "" "Found by A Tool. " = 0 := by
  refine ⟨?_, by decide⟩
  rw [mergedPackages_eq valid, createPackageIndex_eq,
    List.perm_singleton.1 (valid.packages [("A", fooTwice)])]
  have hidx : indexReports (reports [("A", fooTwice)]) [] =
      [("foo-1", [{ BomTool := "A", Package :=
        { Name := "foo", Version := "1", ExternalRefs :=
            [{ Type_ := "purl", Locator := "pkg:npm/foo@1" },
             { Type_ := "purl", Locator := "pkg:npm/foo@1" }] } }])] := by
    decide
  rw [hidx, List.perm_singleton.1 (valid.idx _)]
  simp only [List.filterMap_cons, List.filterMap_nil, groupPackage_cons]
  have hrefs : mergeRefs [{ BomTool := "A", Package :=
        { Name := "foo", Version := "1", ExternalRefs :=
            [{ Type_ := "purl", Locator := "pkg:npm/foo@1" },
             { Type_ := "purl", Locator := "pkg:npm/foo@1" }] } }] =
      [({ Type_ := "purl", Locator := "pkg:npm/foo@1" },
        { Type_ := "purl", Locator := "pkg:npm/foo@1", Comment := "" })] := by
    decide
  simp [mergedPackage, hrefs, List.perm_singleton.1 (valid.extRefSet _ _)]

/-- C5, evaluated with the maps visited in insertion order. -/
theorem mergedPackages_repeated_ref_witness :
    RangeOrder.insertion.Valid ∧
    (mergedPackages RangeOrder.insertion [("A", fooTwice)] =
      some [{ Name := "foo", Version := "1", ExternalRefs :=
                [{ Type_ := "purl", Locator := "pkg:npm/foo@1", Comment := "" }] }] ∧
    occurrences "" "Found by A Tool. " = 0) :=
  ⟨RangeOrder.insertion_valid,
    mergedPackages_repeated_ref RangeOrder.insertion RangeOrder.insertion_valid⟩

/-- C6: mergedPackages returns, and for every package it returns no two ExternalRefs have the
same (Type, Locator), its key group in the index (the group stored under its Name-Version key,
which holds exactly the reports of the input with that key) exists, and the set of
(Type, Locator) pairs of its ExternalRefs is the union of the (Type, Locator) pairs of the
ExternalRefs of the contributors of that group. -/
theorem mergedPackages_externalRefs (ord : RangeOrder) (valid : ord.Valid)
    (bomByTools : BomByTools) :
    ∃ packages, mergedPackages ord bomByTools = some packages ∧
      ∀ p ∈ packages,
        (p.ExternalRefs.map refKey).Nodup ∧
        ∃ pbts, GoMap.lookup (packageKey p) (createPackageIndex ord bomByTools) = some pbts ∧
          (∀ pbt, pbt ∈ pbts ↔
            (∃ entry ∈ bomByTools, entry.1 = pbt.BomTool ∧ pbt.Package ∈ entry.2.Packages) ∧
              packageKey pbt.Package = packageKey p) ∧
          ∀ κ, κ ∈ p.ExternalRefs.map refKey ↔
            ∃ pbt ∈ pbts, ∃ ref ∈ pbt.Package.ExternalRefs, refKey ref = κ := by
  refine ⟨_, mergedPackages_eq valid bomByTools, ?_⟩
  intro p hp
  obtain ⟨entry, he, hg⟩ := (mem_mergedPackages valid bomByTools p).1 hp
  have hkey := packageKey_groupPackage he hg
  obtain ⟨first, rest, hpbts, _, _, rfl⟩ := groupPackage_eq_some hg
  have hperm := refKeys_extRefSet valid entry.1 (first :: rest)
  have nd : ((mergeRefs (first :: rest)).map Prod.fst).Nodup := by
    rw [mergeRefs_eq]
    exact nodup_keys_mergeReports _ [] List.nodup_nil
  refine ⟨hperm.nodup_iff.2 nd, entry.2, ?_, ?_, ?_⟩
  · rw [hkey]
    exact GoMap.lookup_eq_some_of_mem (nodup_keys_createPackageIndex ord bomByTools) he
  · intro pbt
    rw [hkey, (mem_createPackageIndex he).1]
    simp only [contributors, List.mem_filter, decide_eq_true_eq, (reports_perm valid _).mem_iff,
      mem_reports]
  · intro κ
    show κ ∈ ((ord.extRefSet entry.1 (mergeRefs (first :: rest))).map Prod.snd).map refKey ↔ _
    rw [hperm.mem_iff, mergeRefs_eq, mem_keys_mergeReports, hpbts, ← mem_refReports]
    simp

/-- C6, applied to two tools that report the package libfoo 1.0 with overlapping references. -/
theorem mergedPackages_externalRefs_witness :
    RangeOrder.reversed.Valid ∧
    ∃ packages, mergedPackages RangeOrder.reversed libfooByTwoTools = some packages ∧
      ∀ p ∈ packages,
        (p.ExternalRefs.map refKey).Nodup ∧
        ∃ pbts, GoMap.lookup (packageKey p)
            (createPackageIndex RangeOrder.reversed libfooByTwoTools) = some pbts ∧
          (∀ pbt, pbt ∈ pbts ↔
            (∃ entry ∈ libfooByTwoTools,
              entry.1 = pbt.BomTool ∧ pbt.Package ∈ entry.2.Packages) ∧
              packageKey pbt.Package = packageKey p) ∧
          ∀ κ, κ ∈ p.ExternalRefs.map refKey ↔
            ∃ pbt ∈ pbts, ∃ ref ∈ pbt.Package.ExternalRefs, refKey ref = κ :=
  ⟨RangeOrder.reversed_valid,
    mergedPackages_externalRefs RangeOrder.reversed RangeOrder.reversed_valid libfooByTwoTools⟩

/-- C7: when the group stored under a key of the index has exactly one contributor, with
package p, mergedPackages returns, and if p.HasFiles is not empty it returns no package with
the Name and Version of p, while if p.HasFiles is empty and p.Name is not empty it returns
exactly one package with the Name and Version of p. -/
theorem mergedPackages_single_contributor (ord : RangeOrder) (valid : ord.Valid)
    (bomByTools : BomByTools) (key tool : String) (p : SpdxPackage)
    (h : GoMap.lookup key (createPackageIndex ord bomByTools) =
      some [{ BomTool := tool, Package := p }]) :
    ∃ packages, mergedPackages ord bomByTools = some packages ∧
      (p.HasFiles ≠ [] → ∀ q ∈ packages, ¬ (q.Name = p.Name ∧ q.Version = p.Version)) ∧
      (p.HasFiles = [] → p.Name ≠ "" →
        (packages.filter fun q => q.Name = p.Name ∧ q.Version = p.Version).length = 1) := by
  refine ⟨_, mergedPackages_eq valid bomByTools, ?_, ?_⟩
  all_goals
    have hkey : packageKey p = key :=
      packageKey_of_lookup h { BomTool := tool, Package := p } (List.mem_singleton_self _)
    have hP : ∀ q : SpdxPackage,
        decide (q.Name = p.Name ∧ q.Version = p.Version) = true → packageKey q = key := by
      intro q hq
      have hq1 := of_decide_eq_true hq
      rw [← hkey]
      simp [packageKey, hq1.1, hq1.2]
    have hperm := filter_mergedPackages valid
      (fun q => decide (q.Name = p.Name ∧ q.Version = p.Version)) hP h
  · intro hfiles q hq hname
    have hmem : q ∈ ((ord.idx (createPackageIndex ord bomByTools)).filterMap
        (groupPackage ord)).filter (fun q => decide (q.Name = p.Name ∧ q.Version = p.Version)) :=
      List.mem_filter.2 ⟨hq, decide_eq_true hname⟩
    rw [hperm.mem_iff, groupPackage_cons, if_pos (Or.inl ⟨rfl, hfiles⟩)] at hmem
    simp at hmem
  · intro hfiles hname
    rw [hperm.length_eq, groupPackage_cons]
    have hc : ¬ ((([] : List PackageWithBomTool) = [] ∧
        (PackageWithBomTool.mk tool p).Package.HasFiles ≠ []) ∨
        (PackageWithBomTool.mk tool p).Package.Name = "") := by
      rintro (hc | hc)
      · exact hc.2 hfiles
      · exact hname hc
    rw [if_neg hc]
    simp [mergedPackage]

/-- C7, applied to one tool that reports the package libfoo 1.0 without files. -/
theorem mergedPackages_single_contributor_witness :
    RangeOrder.insertion.Valid ∧
    GoMap.lookup "libfoo-1.0" (createPackageIndex RangeOrder.insertion
      [("syft", { Packages := [{ Name := "libfoo", Version := "1.0" }] })]) =
        some [{ BomTool := "syft", Package := { Name := "libfoo", Version := "1.0" } }] ∧
    ∃ packages, mergedPackages RangeOrder.insertion
        [("syft", { Packages := [{ Name := "libfoo", Version := "1.0" }] })] = some packages ∧
      ((([] : List String) ≠ []) → ∀ q ∈ packages, ¬ (q.Name = "libfoo" ∧ q.Version = "1.0")) ∧
      (([] : List String) = [] → "libfoo" ≠ "" →
        (packages.filter fun q => q.Name = "libfoo" ∧ q.Version = "1.0").length = 1) :=
  ⟨RangeOrder.insertion_valid, by decide,
    mergedPackages_single_contributor RangeOrder.insertion RangeOrder.insertion_valid
      [("syft", { Packages := [{ Name := "libfoo", Version := "1.0" }] })] "libfoo-1.0" "syft"
      { Name := "libfoo", Version := "1.0" } (by decide)⟩

/-- C8, as stated, fails for a document whose only package has a non-empty HasFiles list:
merged alone, the single-source filter drops the package; merged with itself under two tool
names, the group has two contributors and the package is kept. -/
theorem mergedPackages_twice_keeps_filtered :
    mergedPackages RangeOrder.insertion [("syft", fooWithFiles)] = some [] ∧
    mergedPackages RangeOrder.insertion [("syft", fooWithFiles), ("k8bom", fooWithFiles)] =
      some [{ Name := "foo", Version := "1", HasFiles := ["SPDXRef-File-a"] }] := by
  decide

/-- C8 (amended): for every document d and tool names t, t1, t2 with t1 different from t2,
merging the map {t1: d, t2: d} yields the same number of files as merging {t: d} alone, and,
when every package of d that is the only package of d with its Name-Version key has an empty
HasFiles list, also the same number of packages; both merges return, for every visiting
order. -/
theorem merge_twice_counts (ord1 ord2 : RangeOrder) (valid1 : ord1.Valid) (valid2 : ord2.Valid)
    (k8bom : String) (d : SpdxDocument) (t t1 t2 : String) (_distinct : t1 ≠ t2) :
    (mergedFiles ord2 k8bom [(t1, d), (t2, d)]).length =
      (mergedFiles ord1 k8bom [(t, d)]).length ∧
    ((∀ p ∈ d.Packages,
        d.Packages.filter (fun q => packageKey q = packageKey p) = [p] → p.HasFiles = []) →
      ∃ alone twice, mergedPackages ord1 [(t, d)] = some alone ∧
        mergedPackages ord2 [(t1, d), (t2, d)] = some twice ∧
        twice.length = alone.length) := by
  constructor
  · have hperm : ((mergedFiles ord2 k8bom [(t1, d), (t2, d)]).map (·.Name)).Perm
        ((mergedFiles ord1 k8bom [(t, d)]).map (·.Name)) := by
      rw [List.perm_ext_iff_of_nodup (nodup_names_mergedFiles valid2 _ _)
        (nodup_names_mergedFiles valid1 _ _)]
      intro n
      rw [length_mergedFiles_of_same_document valid2 k8bom _ d (by simp) (by simp),
        length_mergedFiles_of_same_document valid1 k8bom _ d (by simp) (by simp)]
    simpa using hperm.length_eq
  · intro hfilter
    refine ⟨_, _, mergedPackages_eq valid1 _, mergedPackages_eq valid2 _, ?_⟩
    rcases perm_pair (valid2.packages [(t1, d), (t2, d)]) with h2 | h2
    · exact length_mergedPackages_twice ord1 ord2 valid1 valid2 d t t1 t2 h2 hfilter
    · have e : createPackageIndex ord2 [(t1, d), (t2, d)] =
          indexReports (reports [(t2, d), (t1, d)]) [] := by
        rw [createPackageIndex_eq, h2]
      have hswap := length_mergedPackages_twice ord1
        ⟨ord2.creators, ord2.tools, ord2.fileByName, id, ord2.idx, ord2.extRefSet,
          ord2.licenseSet⟩ valid1
        ⟨valid2.creators, valid2.tools, valid2.fileByName, fun _ => List.Perm.refl _,
          valid2.idx, valid2.extRefSet, valid2.licenseSet⟩ d t t2 t1 rfl hfilter
      have e2 : createPackageIndex ⟨ord2.creators, ord2.tools, ord2.fileByName, id, ord2.idx,
          ord2.extRefSet, ord2.licenseSet⟩ [(t2, d), (t1, d)] =
          indexReports (reports [(t2, d), (t1, d)]) [] := by
        rw [createPackageIndex_eq]
        rfl
      rw [e2] at hswap
      rw [e]
      exact hswap

/-- C8 (amended), applied to a document with two files of one cleaned name and two packages of
one key, merged alone as "syft" and twice as "syft" and "k8bom". -/
theorem merge_twice_counts_witness :
    RangeOrder.insertion.Valid ∧ RangeOrder.reversed.Valid ∧ "syft" ≠ "k8bom" ∧
    (mergedFiles RangeOrder.reversed "k8bom" [("syft", twoOfEach), ("k8bom", twoOfEach)]).length =
      (mergedFiles RangeOrder.insertion "k8bom" [("syft", twoOfEach)]).length ∧
    ((∀ p ∈ twoOfEach.Packages,
        twoOfEach.Packages.filter (fun q => packageKey q = packageKey p) = [p] →
          p.HasFiles = []) →
      ∃ alone twice, mergedPackages RangeOrder.insertion [("syft", twoOfEach)] = some alone ∧
        mergedPackages RangeOrder.reversed [("syft", twoOfEach), ("k8bom", twoOfEach)] =
          some twice ∧
        twice.length = alone.length) :=
  ⟨RangeOrder.insertion_valid, RangeOrder.reversed_valid, by decide,
    merge_twice_counts RangeOrder.insertion RangeOrder.reversed RangeOrder.insertion_valid
      RangeOrder.reversed_valid "k8bom" twoOfEach "syft" "syft" "k8bom" (by decide)⟩

/-- C9: addRootPackage leaves the document unchanged except for its package list, to which it
prepends one package with ID "SPDXRef-Package-RootPackage" and Name "RootPackage"; the
HasFiles of that package is the list of the file IDs in file order, and its
LicenseInfoFromFiles has no duplicates and holds exactly the licenses that occur in the
LicenseInfoInFile of some file. -/
theorem addRootPackage_prepends_root (ord : RangeOrder) (valid : ord.Valid)
    (bom : SpdxDocument) :
    ∃ root : SpdxPackage,
      addRootPackage ord bom = { bom with Packages := root :: bom.Packages } ∧
      root.ID = "SPDXRef-Package-RootPackage" ∧ root.Name = "RootPackage" ∧
      root.HasFiles = bom.Files.map (·.ID) ∧ root.HasFiles.length = bom.Files.length ∧
      root.LicenseInfoFromFiles.Nodup ∧
      ∀ license, license ∈ root.LicenseInfoFromFiles ↔
        ∃ file ∈ bom.Files, license ∈ file.LicenseInfoInFile := by
  refine ⟨rootPackage ord bom.Files, rfl, rfl, rfl, rfl, by simp [rootPackage], ?_, ?_⟩
  · exact ((valid.licenseSet _).map Prod.fst).nodup_iff.2 (nodup_keys_licenseSetOf _)
  · intro license
    rw [← mem_keys_licenseSetOf]
    exact ((valid.licenseSet _).map Prod.fst).mem_iff

/-- C9, applied to a document with two files that share a license and one package. -/
theorem addRootPackage_prepends_root_witness :
    RangeOrder.reversed.Valid ∧
    ∃ root : SpdxPackage,
      addRootPackage RangeOrder.reversed
          { Files := [{ ID := "f1", LicenseInfoInFile := ["MIT", "Apache-2.0"] },
                      { ID := "f2", LicenseInfoInFile := ["MIT"] }],
            Packages := [{ Name := "libfoo" }] } =
        { Files := [{ ID := "f1", LicenseInfoInFile := ["MIT", "Apache-2.0"] },
                    { ID := "f2", LicenseInfoInFile := ["MIT"] }],
          Packages := [root, { Name := "libfoo" }] } ∧
      root.ID = "SPDXRef-Package-RootPackage" ∧ root.Name = "RootPackage" ∧
      root.HasFiles = ["f1", "f2"] ∧ root.HasFiles.length = 2 ∧
      root.LicenseInfoFromFiles.Nodup ∧
      ∀ license, license ∈ root.LicenseInfoFromFiles ↔
        ∃ file ∈ ([{ ID := "f1", LicenseInfoInFile := ["MIT", "Apache-2.0"] },
                    { ID := "f2", LicenseInfoInFile := ["MIT"] }] : List spdx22JSON.File),
          license ∈ file.LicenseInfoInFile :=
  ⟨RangeOrder.reversed_valid,
    addRootPackage_prepends_root RangeOrder.reversed RangeOrder.reversed_valid
      { Files := [{ ID := "f1", LicenseInfoInFile := ["MIT", "Apache-2.0"] },
                  { ID := "f2", LicenseInfoInFile := ["MIT"] }],
        Packages := [{ Name := "libfoo" }] }⟩

/-- C10: createRelationships returns the document with Files, Packages and every other field
unchanged and with Relationships set to the previous relationships, followed by one
{CONTAINS, "SPDXRef-Package-scan", file.ID} per file in file order, followed by one
{DEPENDS_ON, "SPDXRef-Package-scan", package.ID} per package in package order. -/
theorem createRelationships_appends (doc : SpdxDocument) :
    createRelationships doc = some { doc with
      Relationships := doc.Relationships ++
        doc.Files.map (fun file =>
          { Type_ := "CONTAINS", Element := "SPDXRef-Package-scan", Related := file.ID }) ++
        doc.Packages.map (fun pkg =>
          { Type_ := "DEPENDS_ON", Element := "SPDXRef-Package-scan", Related := pkg.ID }) } :=
  createRelationships_eq doc

/-- C11: every entry returned by mergedFiles has the ID "SPDXRef-File-" + Name + "-" + s, where
s is the Value of the first checksum of the entry whose Algorithm is "SHA1", or the empty
string when there is none; and the entry is the record of some input file with its name
cleaned and this ID, every other field unchanged. -/
theorem mergedFiles_ids (ord : RangeOrder) (valid : ord.Valid) (k8bom : String)
    (bomByTools : BomByTools) :
    ∀ e ∈ mergedFiles ord k8bom bomByTools,
      e.ID = "SPDXRef-File-" ++ e.Name ++ "-" ++
        ((e.Checksums.find? fun hash => hash.Algorithm = "SHA1").map (·.Value)).getD "" ∧
      ∃ entry ∈ bomByTools, ∃ f ∈ entry.2.Files,
        e = { f with Name := pathClean f.Name, ID := e.ID } := by
  intro e he
  obtain ⟨chosen, hl, rfl⟩ := (mem_mergedFiles valid k8bom bomByTools e).1 he
  obtain ⟨entry, hentry, f, hf, rfl⟩ := chosen_of_lookup valid hl
  refine ⟨?_, entry, hentry, f, hf, rfl⟩
  rw [← fileSHA1_eq_find]
  rfl

/-- C11, applied to one file with an MD5 and two SHA1 checksums and one file without
checksums. -/
theorem mergedFiles_ids_witness :
    RangeOrder.reversed.Valid ∧
    ∀ e ∈ mergedFiles RangeOrder.reversed "k8bom"
        [("syft", { Files :=
          [{ Name := "./a.go", Checksums := [⟨"MD5", "m"⟩, ⟨"SHA1", "x1"⟩, ⟨"SHA1", "x2"⟩] },
           { Name := "b.go" }] })],
      e.ID = "SPDXRef-File-" ++ e.Name ++ "-" ++
        ((e.Checksums.find? fun hash => hash.Algorithm = "SHA1").map (·.Value)).getD "" ∧
      ∃ entry ∈ ([("syft", { Files :=
          [{ Name := "./a.go", Checksums := [⟨"MD5", "m"⟩, ⟨"SHA1", "x1"⟩, ⟨"SHA1", "x2"⟩] },
           { Name := "b.go" }] })] : BomByTools), ∃ f ∈ entry.2.Files,
        e = { f with Name := pathClean f.Name, ID := e.ID } :=
  ⟨RangeOrder.reversed_valid, mergedFiles_ids _ RangeOrder.reversed_valid _ _⟩

/-- C12: for every input map, Merge returns a document with ID "SPDXRef-DOCUMENT", Version
"SPDX-2.2", DataLicense "CC0-1.0", DocumentDescribes exactly ["SPDXRef-Package-scan"], Name
"SPDX-SBOM-" followed by the scanned directory path, and a Packages list made of the root
package (ID "SPDXRef-Package-RootPackage") followed by exactly the packages returned by
mergedPackages, in the same order. -/
theorem Merge_document_fields (ord : RangeOrder) (valid : ord.Valid)
    (k8bom fullPathToDirToScan now : String) (bomByTools : BomByTools) :
    ∃ (doc : SpdxDocument) (packages : List SpdxPackage) (root : SpdxPackage),
      Merge ord k8bom fullPathToDirToScan now bomByTools = some doc ∧
      mergedPackages ord bomByTools = some packages ∧
      doc.ID = "SPDXRef-DOCUMENT" ∧ doc.Version = "SPDX-2.2" ∧ doc.DataLicense = "CC0-1.0" ∧
      doc.DocumentDescribes = ["SPDXRef-Package-scan"] ∧
      doc.Name = "SPDX-SBOM-" ++ fullPathToDirToScan ∧
      doc.Packages = root :: packages ∧ root.ID = "SPDXRef-Package-RootPackage" := by
  simp only [Merge, mergedPackages_eq valid, createRelationships_eq]
  exact ⟨_, _, _, rfl, rfl, rfl, rfl, rfl, rfl, rfl, rfl, rfl⟩

/-- C12, applied to one tool reporting one file and one package. -/
theorem Merge_document_fields_witness :
    RangeOrder.reversed.Valid ∧
    ∃ (doc : SpdxDocument) (packages : List SpdxPackage) (root : SpdxPackage),
      Merge RangeOrder.reversed "k8bom" "/src" "2021-10-01T00:00:00Z"
        [("syft", { Files := [{ Name := "a.go" }], Packages := [{ Name := "libfoo" }] })] =
          some doc ∧
      mergedPackages RangeOrder.reversed
        [("syft", { Files := [{ Name := "a.go" }], Packages := [{ Name := "libfoo" }] })] =
          some packages ∧
      doc.ID = "SPDXRef-DOCUMENT" ∧ doc.Version = "SPDX-2.2" ∧ doc.DataLicense = "CC0-1.0" ∧
      doc.DocumentDescribes = ["SPDXRef-Package-scan"] ∧
      doc.Name = "SPDX-SBOM-" ++ "/src" ∧
      doc.Packages = root :: packages ∧ root.ID = "SPDXRef-Package-RootPackage" :=
  ⟨RangeOrder.reversed_valid, Merge_document_fields _ RangeOrder.reversed_valid _ _ _ _⟩

/-- C13, as stated, fails when a tool reports a package named "RootPackage" without version:
the merged document holds it next to the root package, which has the same Name and Version. -/
theorem Merge_root_name_collision :
    ∃ doc, Merge RangeOrder.insertion "k8bom" "/src" "2021-10-01T00:00:00Z"
        reportsRootPackage = some doc ∧
      doc.Packages.map nameVersion = [("RootPackage", ""), ("RootPackage", "")] ∧
      ¬ (doc.Packages.map nameVersion).Nodup :=
  ⟨_, rfl, by decide⟩

/-- C13 (amended): for every input map and every visiting order, Merge returns a document
whose Packages are the root package followed by packages of pairwise distinct (Name, Version)
pairs; no two Package entries at all have the same pair when none of the packages after the
root is named "RootPackage" with an empty Version. -/
theorem Merge_distinct_packages (ord : RangeOrder) (valid : ord.Valid)
    (k8bom fullPathToDirToScan now : String) (bomByTools : BomByTools) :
    ∃ (doc : SpdxDocument) (root : SpdxPackage) (rest : List SpdxPackage),
      Merge ord k8bom fullPathToDirToScan now bomByTools = some doc ∧
      doc.Packages = root :: rest ∧ root.ID = "SPDXRef-Package-RootPackage" ∧
      (rest.map nameVersion).Nodup ∧
      ((∀ p ∈ rest, ¬ (p.Name = "RootPackage" ∧ p.Version = "")) →
        (doc.Packages.map nameVersion).Nodup) := by
  simp only [Merge, mergedPackages_eq valid, createRelationships_eq]
  refine ⟨_, _, _, rfl, rfl, rfl, nodup_nameVersion_mergedPackages valid bomByTools, ?_⟩
  intro h
  show (List.map nameVersion (_ :: _)).Nodup
  rw [List.map_cons, List.nodup_cons]
  refine ⟨?_, nodup_nameVersion_mergedPackages valid bomByTools⟩
  intro hmem
  obtain ⟨p, hp, hpair⟩ := List.mem_map.1 hmem
  have h1 : p.Name = "RootPackage" ∧ p.Version = "" := by
    have := Prod.mk.inj hpair
    exact ⟨this.1, this.2⟩
  exact h p hp h1

/-- C13 (amended), applied to two tools that report the package libfoo 1.0. -/
theorem Merge_distinct_packages_witness :
    RangeOrder.reversed.Valid ∧
    ∃ (doc : SpdxDocument) (root : SpdxPackage) (rest : List SpdxPackage),
      Merge RangeOrder.reversed "k8bom" "/src" "2021-10-01T00:00:00Z" libfooByTwoTools =
        some doc ∧
      doc.Packages = root :: rest ∧ root.ID = "SPDXRef-Package-RootPackage" ∧
      (rest.map nameVersion).Nodup ∧
      ((∀ p ∈ rest, ¬ (p.Name = "RootPackage" ∧ p.Version = "")) →
        (doc.Packages.map nameVersion).Nodup) :=
  ⟨RangeOrder.reversed_valid, Merge_distinct_packages _ RangeOrder.reversed_valid _ _ _ _⟩

/-- C14, as stated, fails for two tools, neither of them authoritative, that report the same
file name with different checksums: the record of the tool visited first is kept, so two
visiting orders return different File entries. -/
theorem mergedFiles_depends_on_order :
    mergedFiles RangeOrder.insertion "k8bom" disagreeingTools =
      [{ ID := "SPDXRef-File-a.go-x", Name := "a.go", Checksums := [⟨"SHA1", "x"⟩] }] ∧
    mergedFiles RangeOrder.reversed "k8bom" disagreeingTools =
      [{ ID := "SPDXRef-File-a.go-y", Name := "a.go", Checksums := [⟨"SHA1", "y"⟩] }] ∧
    ¬ (mergedFiles RangeOrder.insertion "k8bom" disagreeingTools).Perm
      (mergedFiles RangeOrder.reversed "k8bom" disagreeingTools) := by
  decide

/-- C14 (amended): for every input map and any two visiting orders, mergedFiles returns the
same set of Names; for every name that the authoritative tool reports, or for which the first
record of that name in the document of every tool leads to the same File entry, the entry of
that name is the same in both runs; when this holds for every name, the two runs return the
same File entries and only the order of the returned sequence may differ; and for every other
name there are two visiting orders for which the entries of that name differ. -/
theorem mergedFiles_two_orders (ord1 ord2 : RangeOrder) (valid1 : ord1.Valid)
    (valid2 : ord2.Valid) (k8bom : String) (bomByTools : BomByTools)
    (wf : bomByTools.WellFormed) :
    (∀ n, n ∈ (mergedFiles ord1 k8bom bomByTools).map (·.Name) ↔
      n ∈ (mergedFiles ord2 k8bom bomByTools).map (·.Name)) ∧
    (∀ n, Agreed k8bom bomByTools n →
      ∀ e1 ∈ mergedFiles ord1 k8bom bomByTools, ∀ e2 ∈ mergedFiles ord2 k8bom bomByTools,
        e1.Name = n → e2.Name = n → e1 = e2) ∧
    ((∀ n, Agreed k8bom bomByTools n) →
      (mergedFiles ord1 k8bom bomByTools).Perm (mergedFiles ord2 k8bom bomByTools)) ∧
    (∀ n, ¬ Agreed k8bom bomByTools n →
      ∃ o1 o2 : RangeOrder, o1.Valid ∧ o2.Valid ∧
        ∃ e1 ∈ mergedFiles o1 k8bom bomByTools, ∃ e2 ∈ mergedFiles o2 k8bom bomByTools,
          e1.Name = n ∧ e2.Name = n ∧ e1 ≠ e2) := by
  have hnames : ∀ n, n ∈ (mergedFiles ord1 k8bom bomByTools).map (·.Name) ↔
      n ∈ (mergedFiles ord2 k8bom bomByTools).map (·.Name) := by
    intro n
    rw [mem_names_mergedFiles valid1, mem_names_mergedFiles valid2]
  refine ⟨hnames, ?_, ?_, ?_⟩
  · intro n h e1 h1 e2 h2 hn1 hn2
    exact eq_of_agreed valid1 valid2 wf h h1 h2 hn1 hn2
  · intro h
    rw [List.perm_ext_iff_of_nodup
      (List.Nodup.of_map _ (nodup_names_mergedFiles valid1 k8bom bomByTools))
      (List.Nodup.of_map _ (nodup_names_mergedFiles valid2 k8bom bomByTools))]
    intro e
    constructor
    · intro he
      obtain ⟨e2, he2, hn⟩ := List.mem_map.1 ((hnames e.Name).1 (List.mem_map_of_mem _ he))
      rw [eq_of_agreed valid1 valid2 wf (h e.Name) he he2 rfl hn]
      exact he2
    · intro he
      obtain ⟨e1, he1, hn⟩ := List.mem_map.1 ((hnames e.Name).2 (List.mem_map_of_mem _ he))
      rw [← eq_of_agreed valid1 valid2 wf (h e.Name) he1 he hn rfl]
      exact he1
  · intro n hn
    have hk : ¬ ∃ doc, (k8bom, doc) ∈ bomByTools ∧ ∃ f ∈ doc.Files, pathClean f.Name = n :=
      fun hc => hn (Or.inl hc)
    have hx : ∀ x : spdx22JSON.File, ∃ entry ∈ bomByTools, ∃ f,
        entry.2.Files.find? (fun f => pathClean f.Name = n) = some f ∧
          assignFileID (cleanName f) ≠ x := by
      intro x
      by_contra hc
      apply hn
      refine Or.inr ⟨x, fun entry hentry f hf => ?_⟩
      by_contra hne
      exact hc ⟨entry, hentry, f, hf, hne⟩
    obtain ⟨entry0, hentry0, f0, hf0, _⟩ := hx {}
    obtain ⟨entry1, hentry1, f1, hf1, hne⟩ := hx (assignFileID (cleanName f0))
    have hn0 : pathClean f0.Name = n := by simpa using List.find?_some hf0
    have hn1 : pathClean f1.Name = n := by simpa using List.find?_some hf1
    exact ⟨RangeOrder.startingWith entry1.1, RangeOrder.startingWith entry0.1,
      RangeOrder.startingWith_valid _, RangeOrder.startingWith_valid _,
      _, mem_mergedFiles_startingWith wf hk hentry1 hf1,
      _, mem_mergedFiles_startingWith wf hk hentry0 hf0, hn1, hn0, hne⟩

/-- C14 (amended), applied to the scenario input under the insertion order and the reversed
order. -/
theorem mergedFiles_two_orders_witness :
    RangeOrder.insertion.Valid ∧ RangeOrder.reversed.Valid ∧ scenario.WellFormed ∧
    ((∀ n, n ∈ (mergedFiles RangeOrder.insertion "toolB" scenario).map (·.Name) ↔
      n ∈ (mergedFiles RangeOrder.reversed "toolB" scenario).map (·.Name)) ∧
    (∀ n, Agreed "toolB" scenario n →
      ∀ e1 ∈ mergedFiles RangeOrder.insertion "toolB" scenario,
        ∀ e2 ∈ mergedFiles RangeOrder.reversed "toolB" scenario,
          e1.Name = n → e2.Name = n → e1 = e2) ∧
    ((∀ n, Agreed "toolB" scenario n) →
      (mergedFiles RangeOrder.insertion "toolB" scenario).Perm
        (mergedFiles RangeOrder.reversed "toolB" scenario)) ∧
    (∀ n, ¬ Agreed "toolB" scenario n →
      ∃ o1 o2 : RangeOrder, o1.Valid ∧ o2.Valid ∧
        ∃ e1 ∈ mergedFiles o1 "toolB" scenario, ∃ e2 ∈ mergedFiles o2 "toolB" scenario,
          e1.Name = n ∧ e2.Name = n ∧ e1 ≠ e2)) :=
  ⟨RangeOrder.insertion_valid, RangeOrder.reversed_valid, by decide,
    mergedFiles_two_orders _ _ RangeOrder.insertion_valid RangeOrder.reversed_valid _ _
      (by decide)⟩

/-- C15: for the scenario input, with toolB the authoritative tool and for every visiting
order, Merge returns a document with exactly one file, with ID "SPDXRef-File-src/a.go-x1" and
LicenseInfoInFile ["MIT"]; exactly two packages, the root package and then libfoo 1.0, whose
single reference has a Comment in which "toolA" occurs once and "toolB" occurs once; and
exactly two relationships, one CONTAINS (for the file) followed by one DEPENDS_ON (for
libfoo). -/
theorem Merge_scenario (ord : RangeOrder) (valid : ord.Valid)
    (fullPathToDirToScan now : String) :
    ∃ (doc : SpdxDocument) (file : spdx22JSON.File) (root libfoo : SpdxPackage)
      (ref : SpdxPackageExternalRef),
      Merge ord "toolB" fullPathToDirToScan now scenario = some doc ∧
      doc.Files = [file] ∧ file.ID = "SPDXRef-File-src/a.go-x1" ∧
      file.LicenseInfoInFile = ["MIT"] ∧
      doc.Packages = [root, libfoo] ∧ root.ID = "SPDXRef-Package-RootPackage" ∧
      libfoo.Name = "libfoo" ∧ libfoo.Version = "1.0" ∧ libfoo.ExternalRefs = [ref] ∧
      occurrences ref.Comment "toolA" = 1 ∧ occurrences ref.Comment "toolB" = 1 ∧
      doc.Relationships =
        [{ Type_ := "CONTAINS", Element := "SPDXRef-Package-scan", Related := file.ID },
         { Type_ := "DEPENDS_ON", Element := "SPDXRef-Package-scan", Related := libfoo.ID }] := by
  rcases mergedPackages_scenario valid with h | h
  · simp only [Merge, h, mergedFiles_scenario valid, createRelationships_eq]
    exact ⟨_, _, _, _, _, rfl, rfl, rfl, rfl, rfl, rfl, rfl, rfl, rfl, by decide, by decide, rfl⟩
  · simp only [Merge, h, mergedFiles_scenario valid, createRelationships_eq]
    exact ⟨_, _, _, _, _, rfl, rfl, rfl, rfl, rfl, rfl, rfl, rfl, rfl, by decide, by decide, rfl⟩

/-- C15, evaluated with the maps visited backwards. -/
theorem Merge_scenario_witness :
    RangeOrder.reversed.Valid ∧
    ∃ (doc : SpdxDocument) (file : spdx22JSON.File) (root libfoo : SpdxPackage)
      (ref : SpdxPackageExternalRef),
      Merge RangeOrder.reversed "toolB" "/src" "2021-10-01T00:00:00Z" scenario = some doc ∧
      doc.Files = [file] ∧ file.ID = "SPDXRef-File-src/a.go-x1" ∧
      file.LicenseInfoInFile = ["MIT"] ∧
      doc.Packages = [root, libfoo] ∧ root.ID = "SPDXRef-Package-RootPackage" ∧
      libfoo.Name = "libfoo" ∧ libfoo.Version = "1.0" ∧ libfoo.ExternalRefs = [ref] ∧
      occurrences ref.Comment "toolA" = 1 ∧ occurrences ref.Comment "toolB" = 1 ∧
      doc.Relationships =
        [{ Type_ := "CONTAINS", Element := "SPDXRef-Package-scan", Related := file.ID },
         { Type_ := "DEPENDS_ON", Element := "SPDXRef-Package-scan", Related := libfoo.ID }] :=
  ⟨RangeOrder.reversed_valid, Merge_scenario _ RangeOrder.reversed_valid _ _⟩

/-- C16: Merge is total. For every input map and every visiting order Merge returns a
document; every key group built by createPackageIndex is non-empty, so pbts[0] is defined and
mergedPackages returns; and createRelationships returns for every document, each of its two
index loops writing only inside the slice it allocated. The other stages are total functions
of the embedding. -/
theorem Merge_total (ord : RangeOrder) (valid : ord.Valid)
    (k8bom fullPathToDirToScan now : String) (bomByTools : BomByTools) :
    (∃ doc, Merge ord k8bom fullPathToDirToScan now bomByTools = some doc) ∧
    (∀ entry ∈ createPackageIndex ord bomByTools, entry.2 ≠ []) ∧
    (∀ entry ∈ ord.idx (createPackageIndex ord bomByTools),
      mergeGroup ord entry.1 entry.2 ≠ none) ∧
    (∃ packages, mergedPackages ord bomByTools = some packages) ∧
    (∀ doc : SpdxDocument, ∃ doc1, createRelationships doc = some doc1) ∧
    (∀ (type : String) (ids : List String),
      ∃ rels, fillRelationships type ids 0
        (List.replicate ids.length ({} : spdx22JSON.Relationship)) = some rels) := by
  refine ⟨?_, fun entry he => (mem_createPackageIndex he).2, ?_,
    ⟨_, mergedPackages_eq valid bomByTools⟩, fun doc => ⟨_, createRelationships_eq doc⟩, ?_⟩
  · simp only [Merge, mergedPackages_eq valid, createRelationships_eq]
    exact ⟨_, rfl⟩
  · intro entry he
    exact mergeGroup_ne_none ord entry.1 (mem_createPackageIndex ((valid.idx _).mem_iff.1 he)).2
  · intro type ids
    exact ⟨_, fillRelationships_eq type ids []⟩

/-- C16, applied to the empty tool map. -/
theorem Merge_total_witness :
    RangeOrder.insertion.Valid ∧
    ((∃ doc, Merge RangeOrder.insertion "k8bom" "/src" "2021-10-01T00:00:00Z" [] = some doc) ∧
    (∀ entry ∈ createPackageIndex RangeOrder.insertion [], entry.2 ≠ []) ∧
    (∀ entry ∈ RangeOrder.insertion.idx (createPackageIndex RangeOrder.insertion []),
      mergeGroup RangeOrder.insertion entry.1 entry.2 ≠ none) ∧
    (∃ packages, mergedPackages RangeOrder.insertion [] = some packages) ∧
    (∀ doc : SpdxDocument, ∃ doc1, createRelationships doc = some doc1) ∧
    (∀ (type : String) (ids : List String),
      ∃ rels, fillRelationships type ids 0
        (List.replicate ids.length ({} : spdx22JSON.Relationship)) = some rels)) :=
  ⟨RangeOrder.insertion_valid, Merge_total _ RangeOrder.insertion_valid _ _ _ _⟩

/-- C17: for every input map and every visiting order, the LicenseListVersion returned by
mergedCreationInfo is the greatest, in the lexicographic order of strings, of the
LicenseListVersion values of the inputs (no input value exceeds it and, when there is an
input, it is one of them; it is the empty string when there are no inputs), and Creators is
the concatenation of the creator lists of the inputs in visiting order, so that its length is
the sum of their lengths. -/
theorem mergedCreationInfo_spec (ord : RangeOrder) (valid : ord.Valid) (now : String)
    (bomByTools : BomByTools) :
    (∀ entry ∈ bomByTools, entry.2.CreationInfo.LicenseListVersion ≤
      (mergedCreationInfo ord now bomByTools).LicenseListVersion) ∧
    (bomByTools ≠ [] → ∃ entry ∈ bomByTools, entry.2.CreationInfo.LicenseListVersion =
      (mergedCreationInfo ord now bomByTools).LicenseListVersion) ∧
    (bomByTools = [] → (mergedCreationInfo ord now bomByTools).LicenseListVersion = "") ∧
    (mergedCreationInfo ord now bomByTools).Creators =
      (ord.creators bomByTools).flatMap (fun entry => entry.2.CreationInfo.Creators) ∧
    (mergedCreationInfo ord now bomByTools).Creators.length =
      (bomByTools.map fun entry => entry.2.CreationInfo.Creators.length).sum := by
  obtain ⟨_, h2, h3⟩ := version_foldl_addCreationInfo (ord.creators bomByTools) {}
  have hc := creators_foldl_addCreationInfo (ord.creators bomByTools) {}
  have hv : (mergedCreationInfo ord now bomByTools).LicenseListVersion =
      ((ord.creators bomByTools).foldl addCreationInfo {}).LicenseListVersion := rfl
  have hcr : (mergedCreationInfo ord now bomByTools).Creators =
      ((ord.creators bomByTools).foldl addCreationInfo {}).Creators := rfl
  have hzero : (({} : spdx22JSON.CreationInfo)).LicenseListVersion = "" := rfl
  rw [hv, hcr]
  refine ⟨fun entry he => h2 entry ((valid.creators _).mem_iff.2 he), ?_, ?_, ?_, ?_⟩
  · intro hne
    rcases h3 with h3 | ⟨e, he, h3⟩
    · obtain ⟨entry, hentry⟩ := List.exists_mem_of_ne_nil bomByTools hne
      refine ⟨entry, hentry, le_antisymm (h2 entry ((valid.creators _).mem_iff.2 hentry)) ?_⟩
      rw [h3, hzero]
      exact String.empty_le _
    · exact ⟨e, (valid.creators _).mem_iff.1 he, h3⟩
  · intro hnil
    rw [hnil, (valid.creators []).eq_nil]
    rfl
  · rw [hc]
    rfl
  · rw [hc]
    have hperm : ((ord.creators bomByTools).map
        fun entry => entry.2.CreationInfo.Creators.length).Perm
        (bomByTools.map fun entry => entry.2.CreationInfo.Creators.length) :=
      (valid.creators _).map _
    rw [← hperm.sum_eq]
    simp [List.length_flatMap]
    rfl

/-- C17, applied to two tools with the license list versions "3.9" and "3.10". -/
theorem mergedCreationInfo_spec_witness :
    RangeOrder.reversed.Valid ∧
    ((∀ entry ∈ versionsByTwoTools, entry.2.CreationInfo.LicenseListVersion ≤
      (mergedCreationInfo RangeOrder.reversed "2021-10-01T00:00:00Z"
        versionsByTwoTools).LicenseListVersion) ∧
    (versionsByTwoTools ≠ [] →
      ∃ entry ∈ versionsByTwoTools, entry.2.CreationInfo.LicenseListVersion =
        (mergedCreationInfo RangeOrder.reversed "2021-10-01T00:00:00Z"
          versionsByTwoTools).LicenseListVersion) ∧
    (versionsByTwoTools = [] →
      (mergedCreationInfo RangeOrder.reversed "2021-10-01T00:00:00Z"
        versionsByTwoTools).LicenseListVersion = "") ∧
    (mergedCreationInfo RangeOrder.reversed "2021-10-01T00:00:00Z"
        versionsByTwoTools).Creators =
      (RangeOrder.reversed.creators versionsByTwoTools).flatMap
        (fun entry => entry.2.CreationInfo.Creators) ∧
    (mergedCreationInfo RangeOrder.reversed "2021-10-01T00:00:00Z"
        versionsByTwoTools).Creators.length =
      (versionsByTwoTools.map fun entry => entry.2.CreationInfo.Creators.length).sum) :=
  ⟨RangeOrder.reversed_valid, mergedCreationInfo_spec _ RangeOrder.reversed_valid _ _⟩

/-- C18: for every input map and every visiting order, mergedPackages returns, and no package
it returns has an empty Name. -/
theorem mergedPackages_names_nonempty (ord : RangeOrder) (valid : ord.Valid)
    (bomByTools : BomByTools) :
    ∃ packages, mergedPackages ord bomByTools = some packages ∧
      ∀ p ∈ packages, p.Name ≠ "" := by
  refine ⟨_, mergedPackages_eq valid bomByTools, ?_⟩
  intro p hp
  obtain ⟨entry, _, hg⟩ := (mem_mergedPackages valid bomByTools p).1 hp
  obtain ⟨first, rest, _, _, hname, rfl⟩ := groupPackage_eq_some hg
  exact hname

/-- C18, applied to two tools of which one reports a package without a name. -/
theorem mergedPackages_names_nonempty_witness :
    RangeOrder.reversed.Valid ∧
    ∃ packages, mergedPackages RangeOrder.reversed
        [("syft", { Packages := [{ Name := "" }, { Name := "libfoo" }] }),
         ("k8bom", { Packages := [{ Name := "libbar" }] })] = some packages ∧
      ∀ p ∈ packages, p.Name ≠ "" :=
  ⟨RangeOrder.reversed_valid, mergedPackages_names_nonempty _ RangeOrder.reversed_valid _⟩

/-- C19: for the empty tool map and every visiting order, Merge returns a document with no
File entries, no Relationship entries, and a Packages list that holds only the root package
(ID "SPDXRef-Package-RootPackage"), whose HasFiles and LicenseInfoFromFiles are empty. -/
theorem Merge_empty (ord : RangeOrder) (valid : ord.Valid)
    (k8bom fullPathToDirToScan now : String) :
    ∃ (doc : SpdxDocument) (root : SpdxPackage),
      Merge ord k8bom fullPathToDirToScan now [] = some doc ∧
      doc.Files = [] ∧ doc.Relationships = [] ∧ doc.Packages = [root] ∧
      root.ID = "SPDXRef-Package-RootPackage" ∧ root.HasFiles = [] ∧
      root.LicenseInfoFromFiles = [] := by
  have hp : ord.packages [] = [] := (valid.packages []).eq_nil
  have ht : ord.tools [] = [] := (valid.tools []).eq_nil
  have hi : ord.idx [] = [] := (valid.idx []).eq_nil
  have hf : ord.fileByName [] = [] := (valid.fileByName []).eq_nil
  have hl : ord.licenseSet [] = [] := (valid.licenseSet []).eq_nil
  have hidx : createPackageIndex ord [] = [] := by
    simp [createPackageIndex, hp]
  have hfiles : mergedFiles ord k8bom [] = [] := by
    simp [mergedFiles, normalizeFilePaths, ht, selectFiles, hf]
  simp only [Merge, mergedPackages_eq valid, createRelationships_eq, hidx, hi, hfiles]
  refine ⟨_, _, rfl, rfl, rfl, rfl, rfl, rfl, ?_⟩
  simp [rootPackage, licenseSetOf, hl]

/-- C19, evaluated with the maps visited backwards. -/
theorem Merge_empty_witness :
    RangeOrder.reversed.Valid ∧
    ∃ (doc : SpdxDocument) (root : SpdxPackage),
      Merge RangeOrder.reversed "k8bom" "/src" "2021-10-01T00:00:00Z" [] = some doc ∧
      doc.Files = [] ∧ doc.Relationships = [] ∧ doc.Packages = [root] ∧
      root.ID = "SPDXRef-Package-RootPackage" ∧ root.HasFiles = [] ∧
      root.LicenseInfoFromFiles = [] :=
  ⟨RangeOrder.reversed_valid, Merge_empty _ RangeOrder.reversed_valid _ _ _⟩

/-- C20: the packages "a-b" version "c" and "a" version "b-c", reported by two tools, have
different (Name, Version) pairs and the same index key "a-b-c"; for every visiting order
mergedPackages collapses them into a single package entry, which carries one of the two pairs,
so that the other pair does not appear in the merged output. -/
theorem mergedPackages_key_collision (ord : RangeOrder) (valid : ord.Valid) :
    packageKey { Name := "a-b", Version := "c" } = packageKey { Name := "a", Version := "b-c" } ∧
    (("a-b", "c") : String × String) ≠ ("a", "b-c") ∧
    ∃ p, mergedPackages ord collidingKeys = some [p] ∧
      ((nameVersion p = ("a-b", "c") ∧ ("a", "b-c") ∉ [p].map nameVersion) ∨
        (nameVersion p = ("a", "b-c") ∧ ("a-b", "c") ∉ [p].map nameVersion)) := by
  refine ⟨by decide, by decide, ?_⟩
  have hperm : (reports collidingKeys).Perm
      [{ BomTool := "syft", Package := { Name := "a-b", Version := "c" } },
       { BomTool := "k8bom", Package := { Name := "a", Version := "b-c" } }] :=
    List.Perm.refl _
  rcases mergedPackages_of_pair valid collidingKeys "a-b-c" _ _ hperm (by decide) (by decide)
    with h | h
  · rw [groupPackage_cons, if_neg (by decide)] at h
    exact ⟨_, h, Or.inl ⟨rfl, by simp [nameVersion, mergedPackage]⟩⟩
  · rw [groupPackage_cons, if_neg (by decide)] at h
    exact ⟨_, h, Or.inr ⟨rfl, by simp [nameVersion, mergedPackage]⟩⟩

/-- C20, evaluated with the maps visited backwards. -/
theorem mergedPackages_key_collision_witness :
    RangeOrder.reversed.Valid ∧
    (packageKey { Name := "a-b", Version := "c" } = packageKey { Name := "a", Version := "b-c" } ∧
    (("a-b", "c") : String × String) ≠ ("a", "b-c") ∧
    ∃ p, mergedPackages RangeOrder.reversed collidingKeys = some [p] ∧
      ((nameVersion p = ("a-b", "c") ∧ ("a", "b-c") ∉ [p].map nameVersion) ∨
        (nameVersion p = ("a", "b-c") ∧ ("a-b", "c") ∉ [p].map nameVersion))) :=
  ⟨RangeOrder.reversed_valid, mergedPackages_key_collision _ RangeOrder.reversed_valid⟩

end Fatbom
